import Mathlib

/-!
# convert-trace-format: stack reconstruction and dictionary tables

A shallow embedding of `src/main.go`.  The program reads a list of trace
events, rebuilds per-context stack snapshots from the `B`/`E` events
(`Cmd.Run`, first loop), turns the snapshots into intervals (`Cmd.Run`,
second loop) and exports two dictionary tables (`FrameTable`, `StringTable`).

Modelling conventions.

* A Go `map[K]V` is an association list with at most one entry per key
  (`GoMap`).  The program can observe a map only through key lookup, `len`,
  assignment and `range`.  The order in which `range` visits the entries is
  unspecified in Go; every `range` over a map takes a `MapOrder`, which picks
  one enumeration (a permutation of the entries).
* A runtime panic (slice bounds out of range, index out of range) is `none`.
* Go `int`/`int64` values are `Int`; the one place where the program can
  overflow (`int64(te.Ts) * 1000`) wraps explicitly modulo `2^64`.
  Table indices and lengths are `Nat`.
* `float64` timestamps are exact rationals (every finite `float64` is one;
  JSON has no NaN or infinity).
* File reading, JSON decoding and JSON encoding are outside the model: `Run`
  takes the decoded event list and returns the document that is encoded.
-/

namespace ConvertTrace

set_option linter.unusedSectionVars false

/-! ## Go maps -/

/-- A Go map as an association list (at most one entry per key). -/
abbrev GoMap (κ ν : Type) := List (κ × ν)

namespace GoMap

variable {κ ν : Type} [DecidableEq κ]

/-- The comma-ok lookup `v, ok := m[k]`. -/
def get? : GoMap κ ν → κ → Option ν
  | [], _ => none
  | (k', v) :: m, k => if k' = k then some v else get? m k

/-- The assignment `m[k] = v`. -/
def set : GoMap κ ν → κ → ν → GoMap κ ν
  | [], k, v => [(k, v)]
  | (k', v') :: m, k, v => if k' = k then (k, v) :: m else (k', v') :: set m k v

/-- The builtin `len(m)`. -/
def len (m : GoMap κ ν) : Nat := m.length

end GoMap

/-- One enumeration order of `for k, v := range m`: every entry is visited
exactly once, in an order the language leaves unspecified. -/
structure MapOrder (κ ν : Type) where
  /-- The entries in the order in which they are visited. -/
  enum : GoMap κ ν → List (κ × ν)
  /-- The visit order is a permutation of the entries. -/
  perm : ∀ m, (enum m).Perm m

/-- The enumeration that visits entries in insertion order. -/
def MapOrder.insertion (κ ν : Type) : MapOrder κ ν :=
  ⟨fun m => m, fun m => List.Perm.refl m⟩

/-- The enumeration that visits entries in reverse insertion order. -/
def MapOrder.reversed (κ ν : Type) : MapOrder κ ν :=
  ⟨fun m => m.reverse, fun m => List.reverse_perm m⟩

/-- The indexed store `list[idx] = v`; out of range is a runtime panic. -/
def setIdx {α : Type} (list : List α) (idx : Nat) (v : α) : Option (List α) :=
  if idx < list.length then some (list.set idx v) else none

/-! ## Data types of `main.go` -/

/-- `TraceEvent` (main.go:180).  `Args` is never read and is left out. -/
structure TraceEvent where
  Name : String
  Ph : String
  Ts : ℚ
  Pid : Int
  Tid : Int
deriving DecidableEq

/-- `StackEvent` (main.go:166).  `Stack = none` is the nil slice. -/
structure StackEvent where
  TimeNS : Int
  Stack : Option (List String)
deriving DecidableEq, Repr

/-- `Frame` (main.go:158). -/
structure Frame where
  Filename : String
  Package : String
  Class : String
  Method : String
  Line : Int
deriving DecidableEq, Repr

/-- `StringTable` (main.go:105). -/
structure StringTable where
  strings : GoMap String Nat
deriving DecidableEq, Repr

/-- `FrameTable` (main.go:130). -/
structure FrameTable where
  frames : GoMap Frame Nat
deriving DecidableEq, Repr

/-- `Iteration2Event` (main.go:199).  A nil `Stack` and an empty one are both
the empty list. -/
structure Iteration2Event where
  StartNS : Int
  EndNS : Int
  Label : String
  Stack : List Nat
deriving DecidableEq, Repr

/-- `Iteration2TimeRange` (main.go:206). -/
structure Iteration2TimeRange where
  StartNS : Int
  EndNS : Int
deriving DecidableEq, Repr

/-- `Iteration2Format` (main.go:191). -/
structure Iteration2Format where
  Threads : GoMap String (List Iteration2Event)
  TimeRange : Iteration2TimeRange
  Frames : List (List Int)
  Strings : List String
  Version : String
deriving DecidableEq, Repr

/-! ## String table (main.go:101-124) -/

/-- `NewStringTable` (main.go:101). -/
def NewStringTable : StringTable := ⟨[]⟩

/-- `StringTable.Lookup` (main.go:109): the returned index and the table
after the call. -/
def StringTable.Lookup (t : StringTable) (str : String) : Nat × StringTable :=
  match t.strings.get? str with
  | some idx => (idx, t)
  | none =>
    let idx := t.strings.len
    (idx, ⟨t.strings.set str idx⟩)

/-- `StringTable.Strings` (main.go:118). -/
def StringTable.Strings (o : MapOrder String Nat) (t : StringTable) : Option (List String) :=
  (o.enum t.strings).foldlM (fun list p => setIdx list p.2 p.1)
    (List.replicate t.strings.len "")

/-! ## Frame table (main.go:126-156) -/

/-- `NewFrameTable` (main.go:126). -/
def NewFrameTable : FrameTable := ⟨[]⟩

/-- `FrameTable.Lookup` (main.go:134): the returned index and the table after
the call. -/
def FrameTable.Lookup (t : FrameTable) (frame : Frame) : Nat × FrameTable :=
  match t.frames.get? frame with
  | some idx => (idx, t)
  | none =>
    let idx := t.frames.len
    (idx, ⟨t.frames.set frame idx⟩)

/-- The body of the loop of `FrameTable.Frames` (main.go:145-153): the four
string lookups run left to right, then the row is stored at `idx`. -/
def framesStep (acc : List (List Int) × StringTable) (p : Frame × Nat) :
    Option (List (List Int) × StringTable) :=
  let r1 := acc.2.Lookup p.1.Filename
  let r2 := r1.2.Lookup p.1.Package
  let r3 := r2.2.Lookup p.1.Class
  let r4 := r3.2.Lookup p.1.Method
  (setIdx acc.1 p.2 [(r1.1 : Int), (r2.1 : Int), (r3.1 : Int), (r4.1 : Int), p.1.Line]).map
    (fun list => (list, r4.2))

/-- `FrameTable.Frames` (main.go:143): the exported rows and the string table
after the call. -/
def FrameTable.Frames (o : MapOrder Frame Nat) (t : FrameTable) (st : StringTable) :
    Option (List (List Int) × StringTable) :=
  (o.enum t.frames).foldlM framesStep (List.replicate t.frames.len [], st)

/-! ## Stack reconstruction (main.go:35-62) -/

/-- Two's-complement wrap-around of an `int64` result. -/
def wrapInt64 (x : Int) : Int := (x + 2 ^ 63) % 2 ^ 64 - 2 ^ 63

/-- The conversion `int64(f)`: truncation toward zero.  Go leaves the result
implementation-dependent when the truncated value is outside `int64`; the
model takes the amd64 result there (the minimum `int64`). -/
def int64OfFloat (f : ℚ) : Int :=
  let t := Int.tdiv f.num f.den
  if -(2 ^ 63) ≤ t ∧ t < 2 ^ 63 then t else -(2 ^ 63)

/-- The value `timeNS := int64(te.Ts) * 1000` (main.go:45). -/
def timeNS (te : TraceEvent) : Int := wrapInt64 (int64OfFloat te.Ts * 1000)

/-- The context map `stacks` (main.go:35).  The Go map holds pointers; every
pointer is stored once, so the model stores the pointed-to values. -/
abbrev Stacks := GoMap Int (List StackEvent)

/-- The body of the first loop of `Cmd.Run` after the phase filter
(main.go:40-61), on the snapshot list `events` of the event's context; the
result is the context's list after the iteration.  `event` points at the last
snapshot of the list, so the push or pop is written back to the last
position.  `none` is the panic of `event.Stack[0 : len(event.Stack)-1]` on an
empty stack.  The `switch` has no default case: any other phase leaves the
stack as it is (the phase filter lets only `B` and `E` through). -/
def stepContext (events : List StackEvent) (te : TraceEvent) : Option (List StackEvent) :=
  let event : StackEvent := events.getLast?.getD ⟨0, none⟩
  let t := timeNS te
  let isNew : Bool := decide (event.Stack = none ∨ event.TimeNS ≠ t)
  let event1 : StackEvent := if isNew then ⟨t, some (event.Stack.getD [])⟩ else event
  let events1 : List StackEvent := if isNew then events ++ [event1] else events
  let stack := event1.Stack.getD []
  if te.Ph = "B" then
    some (events1.dropLast ++ [⟨event1.TimeNS, some (stack ++ [te.Name])⟩])
  else if te.Ph = "E" then
    match stack with
    | [] => none
    | _ :: _ => some (events1.dropLast ++ [⟨event1.TimeNS, some stack.dropLast⟩])
  else some events1

/-- One iteration of the first loop of `Cmd.Run` (main.go:36-62).  The key is
`int(te.Pid)`, the identity on 64-bit targets. -/
def applyEvent (stks : Stacks) (te : TraceEvent) : Option Stacks :=
  if te.Ph ≠ "B" ∧ te.Ph ≠ "E" then some stks
  else (stepContext ((stks.get? te.Pid).getD []) te).map fun events => stks.set te.Pid events

/-- The first loop of `Cmd.Run` (main.go:35-62). -/
def reconstruct (tData : List TraceEvent) : Option Stacks :=
  tData.foldlM applyEvent []

/-! ## Interval building (main.go:64-92) -/

/-- The thread key `fmt.Sprintf("G%d", goroutineID)` (main.go:70). -/
def threadID (goroutineID : Int) : String := "G" ++ toString goroutineID

/-- The frame `Frame{Method: method}` (main.go:86). -/
def methodFrame (method : String) : Frame := ⟨"", "", "", method, 0⟩

/-- One iteration of the loop over `se.Stack[1:]` (main.go:86-88). -/
def lookupMethod (acc : List Nat × FrameTable) (method : String) : List Nat × FrameTable :=
  let r := acc.2.Lookup (methodFrame method)
  (acc.1 ++ [r.1], r.2)

/-- The loop over `se.Stack[1:]` (main.go:85-89). -/
def lookupMethods (ft : FrameTable) (methods : List String) : List Nat × FrameTable :=
  methods.foldl lookupMethod ([], ft)

/-- The state of the second loop: the output document and the frame table. -/
abbrev BuildState := Iteration2Format × FrameTable

/-- One iteration of the inner loop of the interval builder (main.go:71-91). -/
def buildStep (tid : String) (events : List StackEvent) (s : BuildState)
    (p : Nat × StackEvent) : BuildState :=
  match p.2.Stack.getD [] with
  | [] => s
  | label :: rest =>
    let endNS : Int := match events[p.1 + 1]? with
      | some nx => nx.TimeNS
      | none => 0
    let rangeEnd : Int := match events[p.1 + 1]? with
      | some nx => if nx.TimeNS > s.1.TimeRange.EndNS then nx.TimeNS else s.1.TimeRange.EndNS
      | none => s.1.TimeRange.EndNS
    let r := lookupMethods s.2 rest
    let event : Iteration2Event := ⟨p.2.TimeNS, endNS, label, r.1⟩
    ({ s.1 with
        Threads := s.1.Threads.set tid ((s.1.Threads.get? tid).getD [] ++ [event])
        TimeRange := ⟨s.1.TimeRange.StartNS, rangeEnd⟩ },
     r.2)

/-- The inner loop for one context (main.go:70-91). -/
def buildContext (s : BuildState) (p : Int × List StackEvent) : BuildState :=
  p.2.enum.foldl (buildStep (threadID p.1) p.2) s

/-- The document before the second loop (main.go:64-67). -/
def initialOut : Iteration2Format := ⟨[], ⟨0, 0⟩, [], [], "1.2"⟩

/-- The second loop of `Cmd.Run` (main.go:64-92). -/
def buildIntervals (oc : MapOrder Int (List StackEvent)) (stks : Stacks) : BuildState :=
  (oc.enum stks).foldl buildContext (initialOut, NewFrameTable)

/-- `Cmd.Run` (main.go:24-99) from the decoded events to the encoded document. -/
def Run (oc : MapOrder Int (List StackEvent)) (ofr : MapOrder Frame Nat)
    (os : MapOrder String Nat) (tData : List TraceEvent) : Option Iteration2Format :=
  (reconstruct tData).bind fun stks =>
    let s := buildIntervals oc stks
    (s.2.Frames ofr NewStringTable).bind fun fr =>
      (fr.2.Strings os).map fun strings =>
        { s.1 with Frames := fr.1, Strings := strings }

/-- The intervals of one thread (`out.Threads[key]`, nil when absent). -/
def Iteration2Format.thread (out : Iteration2Format) (key : String) : List Iteration2Event :=
  (out.Threads.get? key).getD []

/-! ## Specification-side notions -/

namespace GoMap

variable {κ ν : Type} [DecidableEq κ]

/-- The keys of a map. -/
def keys (m : GoMap κ ν) : List κ := m.map Prod.fst

/-- The map that sends the `i`-th element of `l` to the index `n + i`. -/
def indexedFrom (n : Nat) : List κ → GoMap κ Nat
  | [] => []
  | k :: l => (k, n) :: indexedFrom (n + 1) l

/-- The insert-or-get step shared by `StringTable.Lookup` and
`FrameTable.Lookup`, on the underlying map. -/
def insertOrGet (m : GoMap κ Nat) (k : κ) : Nat × GoMap κ Nat :=
  match m.get? k with
  | some idx => (idx, m)
  | none => (m.len, m.set k m.len)

/-- A dictionary table: the keys are distinct and the `i`-th key has index `i`. -/
def IsTable (m : GoMap κ Nat) : Prop := m = indexedFrom 0 (keys m) ∧ (keys m).Nodup

end GoMap

/-- The distinct elements of `l` in the order of their first occurrence. -/
def firstSeen {α : Type} [DecidableEq α] (l : List α) : List α := l.reverse.dedup.reverse

/-- The map reached from the empty map by insert-or-get of `ks` in order. -/
def GoMap.insertAll {κ : Type} [DecidableEq κ] (ks : List κ) : GoMap κ Nat :=
  ks.foldl (fun m k => (GoMap.insertOrGet m k).2) []

/-- The string table reached from `NewStringTable` by looking up `ss` in order. -/
def StringTable.lookups (ss : List String) : StringTable :=
  ss.foldl (fun t s => (t.Lookup s).2) NewStringTable

/-- The frame table reached from `NewFrameTable` by looking up `fs` in order. -/
def FrameTable.lookups (fs : List Frame) : FrameTable :=
  fs.foldl (fun t f => (t.Lookup f).2) NewFrameTable

/-! ### Reference semantics of the stack reconstruction -/

/-- The Begin/End events of context `c`, in arrival order. -/
def contextEvents (c : Int) (tData : List TraceEvent) : List TraceEvent :=
  tData.filter fun te => (te.Ph = "B" ∨ te.Ph = "E") ∧ te.Pid = c

/-- The push/pop reference: Begin appends its label at the end, End removes
the last element. -/
def pushPop (stack : List String) (te : TraceEvent) : List String :=
  if te.Ph = "B" then stack ++ [te.Name]
  else if te.Ph = "E" then stack.dropLast
  else stack

/-- The push/pop reference folded over a context's events from the empty stack. -/
def refStack (ces : List TraceEvent) : List String := ces.foldl pushPop []

/-- No End event of the list arrives while the reference stack is empty. -/
def NoEndOnEmpty (ces : List TraceEvent) : Prop :=
  ∀ pre te post, ces = pre ++ te :: post → te.Ph = "E" → refStack pre ≠ []

/-- The snapshot list of one context, from the context's events alone. -/
def contextSnapshots (ces : List TraceEvent) : Option (List StackEvent) :=
  ces.foldlM stepContext []

/-- The snapshot list of context `c` in the context map (nil when absent). -/
def snapshotsOf (stks : Stacks) (c : Int) : List StackEvent := (stks.get? c).getD []

/-- Every snapshot of the list has a non-nil stack. -/
def AllSome (events : List StackEvent) : Prop := ∀ se ∈ events, se.Stack ≠ none

/-- The stack of the last snapshot (empty when there is none). -/
def lastStack (events : List StackEvent) : List String :=
  (events.getLast?.bind fun se => se.Stack).getD []

/-- The push/pop reference with the fault of a pop from the empty stack. -/
def pushPop? (stack : List String) (te : TraceEvent) : Option (List String) :=
  if te.Ph = "B" then some (stack ++ [te.Name])
  else if te.Ph = "E" then (if stack = [] then none else some stack.dropLast)
  else some stack

/-- The snapshots that stay untouched by an event at time `t`: all of them,
or all but the last when the last one has time `t`. -/
def sealedPart (events : List StackEvent) (t : Int) : List StackEvent :=
  if events.getLast?.map (fun se => se.TimeNS) = some t then events.dropLast else events

/-- The scaled timestamp `int64(te.Ts) * 1000` of the event fits in `int64`. -/
def InRange (te : TraceEvent) : Prop :=
  -(2 ^ 63) ≤ Int.tdiv te.Ts.num te.Ts.den * 1000 ∧ Int.tdiv te.Ts.num te.Ts.den * 1000 < 2 ^ 63

instance (te : TraceEvent) : Decidable (InRange te) := by
  unfold InRange
  infer_instance

/-! ### Reference semantics of the interval builder -/

/-- The `endNs` of the interval of the snapshot at position `i`: the time of
the next snapshot, or the zero value when there is none. -/
def endOf (events : List StackEvent) (i : Nat) : Int :=
  match events[i + 1]? with
  | some nx => nx.TimeNS
  | none => 0

/-- The interval that the snapshot `p.2` at position `p.1` of `events` yields
(none for an empty stack), with the frame indices read off the frame list `F`. -/
def mkInterval (F : List Frame) (events : List StackEvent) (p : Nat × StackEvent) :
    Option Iteration2Event :=
  match p.2.Stack.getD [] with
  | [] => none
  | label :: rest =>
    some ⟨p.2.TimeNS, endOf events p.1, label, rest.map fun m => F.indexOf (methodFrame m)⟩

/-- The intervals of one context, in snapshot order. -/
def intervalsOf (F : List Frame) (events : List StackEvent) : List Iteration2Event :=
  events.enum.filterMap (mkInterval F events)

/-- The `endNs` of the interval of the snapshot `p.2` at position `p.1` when
that interval is emitted and bounded by a following snapshot. -/
def boundedEnd (events : List StackEvent) (p : Nat × StackEvent) : Option Int :=
  match p.2.Stack.getD [] with
  | [] => none
  | _ :: _ => events[p.1 + 1]?.map fun nx => nx.TimeNS

/-- The `endNs` values of the emitted bounded intervals of one context. -/
def boundedEnds (events : List StackEvent) : List Int :=
  events.enum.filterMap (boundedEnd events)

/-- The `endNs` values of the emitted bounded intervals of a list of contexts. -/
def allBoundedEnds : List (Int × List StackEvent) → List Int
  | [] => []
  | q :: cs => boundedEnds q.2 ++ allBoundedEnds cs

/-- The labels below the outermost frame of a snapshot. -/
def innerLabels (se : StackEvent) : List String := (se.Stack.getD []).tail

/-- The exported row `row` resolves to the frame `f` through the exported
strings `S`: it is `[a, b, c, m, f.Line]` and `S` at the four indices holds the
frame's filename, package, class and method. -/
def RowDecodes (S : List String) (row : List Int) (f : Frame) : Prop :=
  ∃ a b c m : Nat, row = [(a : Int), (b : Int), (c : Int), (m : Int), f.Line] ∧
    S[a]? = some f.Filename ∧ S[b]? = some f.Package ∧ S[c]? = some f.Class ∧
    S[m]? = some f.Method

/-- The snapshot has a non-empty stack, so it emits an interval. -/
def emits (se : StackEvent) : Bool := decide (se.Stack.getD [] ≠ [])

/-- The value `b` is the `endNs` of an emitted bounded interval: some context
has a snapshot with a non-empty stack at a position `i` and a snapshot with
`timeNanos = b` at position `i + 1`. -/
def IsBoundedEnd (stks : Stacks) (b : Int) : Prop :=
  ∃ (c : Int) (i : Nat) (se nx : StackEvent),
    (snapshotsOf stks c)[i]? = some se ∧ se.Stack.getD [] ≠ [] ∧
    (snapshotsOf stks c)[i + 1]? = some nx ∧ nx.TimeNS = b

/-- The decimal value of a digit string, continuing from `a`. -/
def digitsValue (cs : List Char) (a : Nat) : Nat :=
  cs.foldl (fun a c => 10 * a + (c.toNat - 48)) a

/-! ### Example inputs -/

/-- The end-to-end example of the specification: `f` encloses `g` in context 1. -/
def nestedExample : List TraceEvent :=
  [⟨"f", "B", 0, 1, 0⟩, ⟨"g", "B", 5, 1, 0⟩, ⟨"g", "E", 10, 1, 0⟩, ⟨"f", "E", 12, 1, 0⟩]

/-- Two interleaved contexts with simultaneous events and an ignored phase. -/
def interleavedExample : List TraceEvent :=
  [⟨"f", "B", 10, 1, 0⟩, ⟨"x", "B", 10, 2, 0⟩, ⟨"m", "X", 11, 3, 0⟩, ⟨"g", "B", 10, 1, 0⟩,
   ⟨"h", "B", 20, 1, 0⟩, ⟨"h", "E", 30, 1, 0⟩, ⟨"x", "E", 30, 2, 0⟩]

/-- Three Begin events in increasing timestamp order; the last timestamp is
`2^61` microseconds, whose scaled value `2^61 * 1000` wraps to 0 in `int64`. -/
def overflowExample : List TraceEvent :=
  [⟨"f", "B", 0, 1, 0⟩, ⟨"g", "B", 1, 1, 0⟩, ⟨"h", "B", 2305843009213693952, 1, 0⟩]

/-- One region of context 1 with negative timestamps. -/
def negativeExample : List TraceEvent :=
  [⟨"f", "B", -10, 1, 0⟩, ⟨"f", "E", -5, 1, 0⟩]

/-- The method string that the frame index `idx` resolves to through the
exported frames and strings. -/
def decodeFrame (out : Iteration2Format) (idx : Nat) : Option String :=
  (out.Frames[idx]?).bind fun row => (row[3]?).bind fun m => out.Strings[m.toNat]?

/-- An interval with its frame indices resolved: `startNs`, `endNs`, `label`
and the method strings of its stack. -/
def decodeInterval (out : Iteration2Format) (iv : Iteration2Event) :
    Int × Int × String × List (Option String) :=
  (iv.StartNS, iv.EndNS, iv.Label, iv.Stack.map (decodeFrame out))

/-- The intervals of one thread with their frame indices resolved. -/
def decodedThread (out : Iteration2Format) (key : String) :
    List (Int × Int × String × List (Option String)) :=
  (out.thread key).map (decodeInterval out)

/-- The resolved interval that a snapshot stands for: its time, the time of
the next snapshot (or 0), its outermost label and its inner labels. -/
def refInterval (events : List StackEvent) (p : Nat × StackEvent) :
    Option (Int × Int × String × List (Option String)) :=
  match p.2.Stack.getD [] with
  | [] => none
  | label :: rest => some (p.2.TimeNS, endOf events p.1, label, rest.map some)

/-- The resolved intervals of one context, from its snapshots alone. -/
def refIntervals (events : List StackEvent) :
    List (Int × Int × String × List (Option String)) :=
  events.enum.filterMap (refInterval events)

/-- The event has phase `B` or `E`, the two phases the first loop acts on. -/
def isBeginEnd (te : TraceEvent) : Bool := decide (te.Ph = "B" ∨ te.Ph = "E")

/-- The number of events of the list with phase `ph`. -/
def countPhase (ph : String) (l : List TraceEvent) : Nat := l.countP fun te => decide (te.Ph = ph)

/-- Context 1 opens two regions, closes one, and carries an event of an
unrelated phase; context 2 closes a region it never opened. -/
def unbalancedExample : List TraceEvent :=
  [⟨"f", "B", 0, 1, 0⟩, ⟨"g", "B", 1, 1, 0⟩, ⟨"g", "E", 2, 1, 0⟩, ⟨"m", "X", 3, 1, 0⟩,
   ⟨"x", "E", 4, 2, 0⟩]

/-- Two contexts, each with one region inside its outermost region. -/
def twoContextExample : List TraceEvent :=
  [⟨"a", "B", 0, 1, 0⟩, ⟨"x", "B", 1, 1, 0⟩, ⟨"b", "B", 0, 2, 0⟩, ⟨"y", "B", 1, 2, 0⟩]

/-- One context that runs the region `f` twice, one after the other. -/
def repeatExample : List TraceEvent :=
  [⟨"f", "B", 0, 1, 0⟩, ⟨"f", "E", 5, 1, 0⟩, ⟨"f", "B", 10, 1, 0⟩, ⟨"f", "E", 15, 1, 0⟩]

/-- One context that runs the region `f` twice inside the region `m`. -/
def innerRepeatExample : List TraceEvent :=
  [⟨"m", "B", 0, 1, 0⟩, ⟨"f", "B", 1, 1, 0⟩, ⟨"f", "E", 2, 1, 0⟩, ⟨"f", "B", 3, 1, 0⟩,
   ⟨"f", "E", 4, 1, 0⟩, ⟨"m", "E", 5, 1, 0⟩]

/-- Two Begin events of context 1 at the `float64` values of 10.2 and 10.7
microseconds. -/
def fractionalExample : List TraceEvent :=
  [⟨"f", "B", 2871044762448691 / 281474976710656, 1, 0⟩,
   ⟨"g", "B", 3011782250804019 / 281474976710656, 1, 0⟩]

/-- One balanced region of context 1 whose End has the timestamp `2^61`
microseconds, which scales to 0 in `int64`. -/
def wrapBalancedExample : List TraceEvent :=
  [⟨"f", "B", 1, 1, 0⟩, ⟨"f", "E", 2305843009213693952, 1, 0⟩]

/-! # Theorems -/

/-! ## Go maps -/

namespace GoMap

variable {κ ν : Type} [DecidableEq κ]

theorem get?_eq_none_iff (m : GoMap κ ν) (k : κ) : get? m k = none ↔ k ∉ keys m := by
  induction m with
  | nil => simp [get?, keys]
  | cons p m ih =>
    obtain ⟨k', v⟩ := p
    by_cases h : k' = k
    · simp [get?, keys, h]
    · have h2 : ¬ k = k' := fun e => h e.symm
      simpa [get?, keys, h, h2] using ih

theorem get?_eq_some_of_mem (m : GoMap κ ν) (k : κ) (h : k ∈ keys m) : ∃ v, get? m k = some v := by
  cases hg : get? m k with
  | none => exact absurd h ((get?_eq_none_iff m k).1 hg)
  | some v => exact ⟨v, rfl⟩

theorem mem_of_get?_eq_some (m : GoMap κ ν) (k : κ) (v : ν) (h : get? m k = some v) :
    (k, v) ∈ m := by
  induction m with
  | nil => simp [get?] at h
  | cons p m ih =>
    obtain ⟨k', v'⟩ := p
    by_cases hk : k' = k
    · simp [get?, hk] at h
      simp [hk, h]
    · simp [get?, hk] at h
      exact List.mem_cons_of_mem _ (ih h)

theorem get?_eq_some_iff (m : GoMap κ ν) (hm : (keys m).Nodup) (k : κ) (v : ν) :
    get? m k = some v ↔ (k, v) ∈ m := by
  refine ⟨mem_of_get?_eq_some m k v, ?_⟩
  induction m with
  | nil => simp
  | cons p m ih =>
    obtain ⟨k', v'⟩ := p
    intro h
    simp only [keys, List.map_cons, List.nodup_cons] at hm
    by_cases hk : k' = k
    · subst hk
      rcases List.mem_cons.1 h with h | h
      · simp only [Prod.mk.injEq, true_and] at h
        simp [get?, h]
      · exact absurd (List.mem_map_of_mem Prod.fst h) hm.1
    · rcases List.mem_cons.1 h with h | h
      · simp only [Prod.mk.injEq] at h
        exact absurd h.1.symm hk
      · simpa [get?, hk] using ih hm.2 h

theorem get?_set (m : GoMap κ ν) (k k' : κ) (v : ν) :
    get? (set m k v) k' = if k = k' then some v else get? m k' := by
  induction m with
  | nil => simp [set, get?]
  | cons p m ih =>
    obtain ⟨k0, v0⟩ := p
    by_cases h0 : k0 = k
    · subst h0
      by_cases h1 : k0 = k' <;> simp [set, get?, h1]
    · by_cases h1 : k0 = k'
      · subst h1
        have : ¬ k = k0 := fun e => h0 e.symm
        simp [set, get?, h0, this]
      · simp [set, get?, h0, h1, ih]

theorem set_of_not_mem (m : GoMap κ ν) (k : κ) (v : ν) (h : k ∉ keys m) :
    set m k v = m ++ [(k, v)] := by
  induction m with
  | nil => rfl
  | cons p m ih =>
    obtain ⟨k0, v0⟩ := p
    simp only [keys, List.map_cons, List.mem_cons, not_or] at h
    have h0 : ¬ k0 = k := fun e => h.1 e.symm
    simp [set, h0, ih h.2]

theorem keys_set_of_mem (m : GoMap κ ν) (k : κ) (v : ν) (h : k ∈ keys m) :
    keys (set m k v) = keys m := by
  induction m with
  | nil => simp [keys] at h
  | cons p m ih =>
    obtain ⟨k0, v0⟩ := p
    by_cases h0 : k0 = k
    · simp [set, keys, h0]
    · have hk : k ∈ keys m := by
        simp only [keys, List.map_cons, List.mem_cons] at h
        rcases h with h | h
        · exact absurd h.symm h0
        · exact h
      have := ih hk
      simp only [keys] at this
      simp [set, keys, h0, this]

theorem keys_set (m : GoMap κ ν) (k : κ) (v : ν) :
    keys (set m k v) = if k ∈ keys m then keys m else keys m ++ [k] := by
  by_cases h : k ∈ keys m
  · rw [if_pos h, keys_set_of_mem m k v h]
  · rw [if_neg h, set_of_not_mem m k v h]
    simp [keys]

theorem nodup_keys_set (m : GoMap κ ν) (k : κ) (v : ν) (h : (keys m).Nodup) :
    (keys (set m k v)).Nodup := by
  rw [keys_set]
  split
  · exact h
  · rename_i hk
    exact List.Nodup.append h (List.nodup_singleton k) (by simpa using hk)

theorem keys_indexedFrom (n : Nat) (l : List κ) : keys (indexedFrom n l) = l := by
  induction l generalizing n with
  | nil => rfl
  | cons k l ih =>
    have := ih (n + 1)
    simp only [keys] at this
    simp [indexedFrom, keys, this]

theorem length_indexedFrom (n : Nat) (l : List κ) : (indexedFrom n l).length = l.length := by
  have := congrArg List.length (keys_indexedFrom n l)
  simpa [keys] using this

theorem indexedFrom_append (n : Nat) (l l' : List κ) :
    indexedFrom n (l ++ l') = indexedFrom n l ++ indexedFrom (n + l.length) l' := by
  induction l generalizing n with
  | nil => simp [indexedFrom]
  | cons k l ih =>
    simp [indexedFrom, ih, Nat.add_assoc, Nat.add_comm 1]

theorem get?_indexedFrom (n : Nat) (l : List κ) (k : κ) :
    get? (indexedFrom n l) k = if k ∈ l then some (n + l.indexOf k) else none := by
  induction l generalizing n with
  | nil => simp [indexedFrom, get?]
  | cons k0 l ih =>
    by_cases h : k0 = k
    · subst h
      simp [indexedFrom, get?, List.indexOf_cons]
    · have h2 : ¬ k = k0 := fun e => h e.symm
      simp only [indexedFrom, get?, h, if_false, ih, List.mem_cons, h2, false_or,
        List.indexOf_cons]
      have : (k0 == k) = false := by simpa using h
      simp [this, Nat.add_assoc, Nat.add_comm 1]

/-! ### Dictionary tables -/

theorem isTable_nil : IsTable ([] : GoMap κ Nat) := by
  simp [IsTable, keys, indexedFrom]

theorem IsTable.length_eq {m : GoMap κ Nat} (_h : IsTable m) : (keys m).length = m.length := by
  simp [keys]

theorem insertOrGet_of_mem {m : GoMap κ Nat} (hm : IsTable m) {k : κ} (h : k ∈ keys m) :
    insertOrGet m k = ((keys m).indexOf k, m) := by
  have hg : get? m k = some ((keys m).indexOf k) := by
    conv_lhs => rw [hm.1]
    rw [get?_indexedFrom, if_pos h, Nat.zero_add]
  simp [insertOrGet, hg]

theorem insertOrGet_of_not_mem {m : GoMap κ Nat} {k : κ} (h : k ∉ keys m) :
    insertOrGet m k = (m.length, m ++ [(k, m.length)]) := by
  have hg : get? m k = none := (get?_eq_none_iff m k).2 h
  simp [insertOrGet, hg, len, set_of_not_mem m k _ h]

theorem keys_insertOrGet {m : GoMap κ Nat} (hm : IsTable m) (k : κ) :
    keys (insertOrGet m k).2 = if k ∈ keys m then keys m else keys m ++ [k] := by
  by_cases h : k ∈ keys m
  · rw [insertOrGet_of_mem hm h, if_pos h]
  · rw [insertOrGet_of_not_mem h, if_neg h]
    simp [keys]

theorem isTable_insertOrGet {m : GoMap κ Nat} (hm : IsTable m) (k : κ) :
    IsTable (insertOrGet m k).2 := by
  by_cases h : k ∈ keys m
  · rw [insertOrGet_of_mem hm h]
    exact hm
  · rw [insertOrGet_of_not_mem h]
    constructor
    · have hk : keys (m ++ [(k, m.length)]) = keys m ++ [k] := by simp [keys]
      rw [hk, indexedFrom_append, ← hm.1]
      simp [indexedFrom, keys]
    · have hk : keys (m ++ [(k, m.length)]) = keys m ++ [k] := by simp [keys]
      rw [hk]
      exact List.Nodup.append hm.2 (List.nodup_singleton k) (by simpa using h)

/-- The index returned by insert-or-get is where the key sits afterwards. -/
theorem getElem?_insertOrGet {m : GoMap κ Nat} (hm : IsTable m) (k : κ) :
    (keys (insertOrGet m k).2)[(insertOrGet m k).1]? = some k := by
  by_cases h : k ∈ keys m
  · rw [insertOrGet_of_mem hm h]
    exact List.getElem?_indexOf h
  · rw [insertOrGet_of_not_mem h]
    simp [keys]

/-- Insert-or-get only ever appends keys. -/
theorem keys_prefix_insertOrGet {m : GoMap κ Nat} (hm : IsTable m) (k : κ) :
    keys m <+: keys (insertOrGet m k).2 := by
  rw [keys_insertOrGet hm]
  split
  · exact List.prefix_refl _
  · exact List.prefix_append _ _

theorem getElem?_of_prefix {α : Type} {l l' : List α} (h : l <+: l') {i : Nat} {a : α}
    (hi : l[i]? = some a) : l'[i]? = some a := by
  obtain ⟨t, rfl⟩ := h
  have hlt : i < l.length := by
    by_contra hc
    rw [List.getElem?_eq_none (Nat.le_of_not_lt hc)] at hi
    cases hi
  rw [List.getElem?_append_left hlt, hi]

end GoMap

/-! ## First-occurrence order -/

section FirstSeen

variable {α : Type} [DecidableEq α]

theorem firstSeen_concat (l : List α) (a : α) :
    firstSeen (l ++ [a]) = if a ∈ firstSeen l then firstSeen l else firstSeen l ++ [a] := by
  unfold firstSeen
  rw [List.reverse_append, List.reverse_singleton, List.singleton_append]
  by_cases h : a ∈ l.reverse
  · rw [List.dedup_cons_of_mem h, if_pos (by simpa using h)]
  · rw [List.dedup_cons_of_not_mem h, if_neg (by simpa using h)]
    simp

theorem mem_firstSeen (l : List α) (a : α) : a ∈ firstSeen l ↔ a ∈ l := by
  simp [firstSeen]

theorem nodup_firstSeen (l : List α) : (firstSeen l).Nodup := by
  simp [firstSeen, List.nodup_dedup]

theorem length_firstSeen (l : List α) : (firstSeen l).length = l.toFinset.card := by
  rw [← List.toFinset_reverse, List.card_toFinset]
  simp [firstSeen]

theorem firstSeen_prefix_append (l l' : List α) : firstSeen l <+: firstSeen (l ++ l') := by
  induction l' using List.reverseRecOn with
  | nil => simp
  | append_singleton l' a ih =>
    rw [← List.append_assoc, firstSeen_concat]
    split
    · exact ih
    · exact ih.trans (List.prefix_append _ _)

/-- The position of an element in first-occurrence order is the number of
distinct elements before its first occurrence. -/
theorem indexOf_firstSeen (pre post : List α) (a : α) (h : a ∉ pre) :
    (firstSeen (pre ++ a :: post)).indexOf a = (firstSeen pre).length := by
  have hp : firstSeen (pre ++ [a]) <+: firstSeen (pre ++ [a] ++ post) :=
    firstSeen_prefix_append _ _
  rw [firstSeen_concat, if_neg (by simpa [mem_firstSeen] using h)] at hp
  obtain ⟨t, ht⟩ := hp
  have e : pre ++ a :: post = pre ++ [a] ++ post := by simp
  rw [e, ← ht, List.indexOf_append_of_mem (by simp),
    List.indexOf_append_of_not_mem (by simpa [mem_firstSeen] using h)]
  simp

end FirstSeen

namespace GoMap

variable {κ : Type} [DecidableEq κ]

theorem insertAll_concat (ks : List κ) (k : κ) :
    insertAll (ks ++ [k]) = (insertOrGet (insertAll ks) k).2 := by
  simp [insertAll, List.foldl_append]

theorem insertAll_spec (ks : List κ) :
    IsTable (insertAll ks) ∧ keys (insertAll ks) = firstSeen ks := by
  induction ks using List.reverseRecOn with
  | nil => exact ⟨isTable_nil, by simp [insertAll, keys, firstSeen]⟩
  | append_singleton ks k ih =>
    rw [insertAll_concat]
    refine ⟨isTable_insertOrGet ih.1 k, ?_⟩
    rw [keys_insertOrGet ih.1, firstSeen_concat, ih.2]

theorem length_insertAll (ks : List κ) : (insertAll ks).length = ks.toFinset.card := by
  rw [← length_firstSeen, ← (insertAll_spec ks).2]
  simp [keys]

end GoMap

/-! ## String table -/

theorem StringTable.Lookup_eq (t : StringTable) (str : String) :
    t.Lookup str = ((GoMap.insertOrGet t.strings str).1, ⟨(GoMap.insertOrGet t.strings str).2⟩) := by
  unfold StringTable.Lookup GoMap.insertOrGet
  cases GoMap.get? t.strings str <;> rfl

theorem StringTable.lookups_eq (ss : List String) :
    StringTable.lookups ss = ⟨GoMap.insertAll ss⟩ := by
  induction ss using List.reverseRecOn with
  | nil => rfl
  | append_singleton ss s ih =>
    rw [GoMap.insertAll_concat]
    simp only [StringTable.lookups, List.foldl_append, List.foldl_cons, List.foldl_nil] at ih ⊢
    rw [ih, StringTable.Lookup_eq]

theorem StringTable.lookup_lookups_of_not_mem (ss : List String) (s : String) (h : s ∉ ss) :
    (StringTable.lookups ss).Lookup s =
      (ss.toFinset.card, ⟨GoMap.insertAll ss ++ [(s, ss.toFinset.card)]⟩) := by
  have hk : s ∉ GoMap.keys (GoMap.insertAll ss) := by
    rw [(GoMap.insertAll_spec ss).2, mem_firstSeen]
    exact h
  rw [StringTable.lookups_eq, StringTable.Lookup_eq, GoMap.insertOrGet_of_not_mem hk,
    GoMap.length_insertAll]

theorem StringTable.lookup_lookups_of_mem (ss : List String) (s : String) (h : s ∈ ss) :
    (StringTable.lookups ss).Lookup s = ((firstSeen ss).indexOf s, StringTable.lookups ss) := by
  have hk : s ∈ GoMap.keys (GoMap.insertAll ss) := by
    rw [(GoMap.insertAll_spec ss).2, mem_firstSeen]
    exact h
  rw [StringTable.lookups_eq, StringTable.Lookup_eq,
    GoMap.insertOrGet_of_mem (GoMap.insertAll_spec ss).1 hk, (GoMap.insertAll_spec ss).2]

/-- C8: on a string table reached from `NewStringTable` by the lookups `ss`,
`Lookup` of a string not yet looked up returns the number of distinct strings
looked up so far and records exactly that binding, and `Lookup` of a string
already looked up leaves the table unchanged and returns the index that the
string's first `Lookup` returned. -/
theorem StringTable.lookup_insert_or_get (ss : List String) (s : String) :
    (s ∉ ss →
      ((StringTable.lookups ss).Lookup s).1 = ss.toFinset.card ∧
      ∀ s', ((StringTable.lookups ss).Lookup s).2.strings.get? s' =
        if s = s' then some ss.toFinset.card
        else (StringTable.lookups ss).strings.get? s') ∧
    (s ∈ ss →
      ((StringTable.lookups ss).Lookup s).2 = StringTable.lookups ss ∧
      ∀ pre post, ss = pre ++ s :: post → s ∉ pre →
        ((StringTable.lookups ss).Lookup s).1 = ((StringTable.lookups pre).Lookup s).1 ∧
        ((StringTable.lookups ss).Lookup s).1 = pre.toFinset.card) := by
  constructor
  · intro h
    rw [StringTable.lookup_lookups_of_not_mem ss s h]
    refine ⟨rfl, fun s' => ?_⟩
    have hk : s ∉ GoMap.keys (GoMap.insertAll ss) := by
      rw [(GoMap.insertAll_spec ss).2, mem_firstSeen]
      exact h
    show GoMap.get? (GoMap.insertAll ss ++ [(s, ss.toFinset.card)]) s' = _
    rw [← GoMap.set_of_not_mem _ _ _ hk, GoMap.get?_set, StringTable.lookups_eq]
  · intro h
    rw [StringTable.lookup_lookups_of_mem ss s h]
    refine ⟨rfl, fun pre post e hpre => ?_⟩
    rw [StringTable.lookup_lookups_of_not_mem pre s hpre]
    subst e
    simp only [indexOf_firstSeen pre post s hpre, length_firstSeen, and_self]

/-- C8 at concrete tables: a fresh string gets the next index, a repeated one
keeps its first index and the table. -/
theorem StringTable.lookup_insert_or_get_witness :
    ((StringTable.lookups ["a", "b", "a"]).Lookup "c").1 = 2 ∧
    ((StringTable.lookups ["a", "b", "a"]).Lookup "b").2 = StringTable.lookups ["a", "b", "a"] ∧
    ((StringTable.lookups ["a", "b", "a"]).Lookup "b").1 = 1 :=
  ⟨((StringTable.lookup_insert_or_get ["a", "b", "a"] "c").1 (by decide)).1,
   ((StringTable.lookup_insert_or_get ["a", "b", "a"] "b").2 (by decide)).1,
   (((StringTable.lookup_insert_or_get ["a", "b", "a"] "b").2 (by decide)).2
      ["a"] ["a"] rfl (by decide)).2⟩

/-! ### Export of a table by index -/

theorem GoMap.mem_indexedFrom {κ : Type} (n : Nat) (l : List κ) (k : κ) (i : Nat) :
    (k, i) ∈ GoMap.indexedFrom n l ↔ ∃ j, i = n + j ∧ l[j]? = some k := by
  induction l generalizing n with
  | nil => simp [GoMap.indexedFrom]
  | cons k0 l ih =>
    simp only [GoMap.indexedFrom, List.mem_cons, Prod.mk.injEq, ih]
    constructor
    · rintro (⟨rfl, rfl⟩ | ⟨j, rfl, hj⟩)
      · exact ⟨0, rfl, by simp⟩
      · exact ⟨j + 1, by omega, by simpa using hj⟩
    · rintro ⟨j, rfl, hj⟩
      cases j with
      | zero =>
        left
        simp at hj
        exact ⟨hj.symm, rfl⟩
      | succ j =>
        right
        exact ⟨j, by omega, by simpa using hj⟩

theorem GoMap.snd_indexedFrom {κ : Type} (n : Nat) (l : List κ) :
    (GoMap.indexedFrom n l).map Prod.snd = List.range' n l.length := by
  induction l generalizing n with
  | nil => rfl
  | cons k l ih => simp [GoMap.indexedFrom, ih, List.range'_succ]

theorem GoMap.IsTable.nodup_snd {κ : Type} [DecidableEq κ] {m : GoMap κ Nat} (hm : IsTable m) :
    (m.map Prod.snd).Nodup := by
  rw [hm.1, GoMap.snd_indexedFrom]
  exact List.nodup_range' _ _

theorem GoMap.IsTable.mem_iff {κ : Type} [DecidableEq κ] {m : GoMap κ Nat} (hm : IsTable m)
    (k : κ) (i : Nat) : (k, i) ∈ m ↔ (GoMap.keys m)[i]? = some k := by
  conv_lhs => rw [hm.1]
  rw [GoMap.mem_indexedFrom]
  constructor
  · rintro ⟨j, rfl, hj⟩
    simpa using hj
  · intro h
    exact ⟨i, by simp, h⟩

theorem GoMap.IsTable.snd_lt {κ : Type} [DecidableEq κ] {m : GoMap κ Nat} (hm : IsTable m)
    {p : κ × Nat} (hp : p ∈ m) : p.2 < m.length := by
  have h := (hm.mem_iff p.1 p.2).1 hp
  by_contra hc
  rw [List.getElem?_eq_none (by simpa [GoMap.keys] using Nat.le_of_not_lt hc)] at h
  cases h

/-- Storing values at distinct in-range indices never fails; every stored
value is found at its index and the other positions keep their content. -/
theorem foldlM_setIdx {α : Type} (es : List (α × Nat)) (init : List α)
    (hlt : ∀ p ∈ es, p.2 < init.length) (hnd : (es.map Prod.snd).Nodup) :
    ∃ res, es.foldlM (fun list p => setIdx list p.2 p.1) init = some res ∧
      res.length = init.length ∧ (∀ p ∈ es, res[p.2]? = some p.1) ∧
      ∀ i, (∀ p ∈ es, p.2 ≠ i) → res[i]? = init[i]? := by
  induction es generalizing init with
  | nil => exact ⟨init, rfl, rfl, by simp, by simp⟩
  | cons p es ih =>
    have hp : p.2 < init.length := hlt p (List.mem_cons_self _ _)
    simp only [List.map_cons, List.nodup_cons, List.mem_map, not_exists, not_and] at hnd
    obtain ⟨res, hres, hlen, hmem, hother⟩ := ih (init.set p.2 p.1)
      (fun q hq => by simpa using hlt q (List.mem_cons_of_mem _ hq)) hnd.2
    refine ⟨res, ?_, by simpa using hlen, ?_, ?_⟩
    · simp only [List.foldlM_cons, setIdx, if_pos hp]
      exact hres
    · intro q hq
      rcases List.mem_cons.1 hq with rfl | hq
      · rw [hother q.2 (fun r hr => hnd.1 r hr), List.getElem?_set]
        simp [hp]
      · exact hmem q hq
    · intro i hi
      rw [hother i (fun r hr => hi r (List.mem_cons_of_mem _ hr)), List.getElem?_set]
      simp [hi p (List.mem_cons_self _ _)]

/-- Exporting a dictionary table by index yields its keys in index order,
whatever the enumeration order. -/
theorem GoMap.export_isTable {κ : Type} [DecidableEq κ] {m : GoMap κ Nat} (hm : IsTable m)
    (es : List (κ × Nat)) (hes : es.Perm m) (d : κ) :
    es.foldlM (fun list p => setIdx list p.2 p.1) (List.replicate m.len d) = some (keys m) := by
  obtain ⟨res, hres, hlen, hmem, _⟩ := foldlM_setIdx es (List.replicate m.len d)
    (fun p hp => by simpa [GoMap.len] using hm.snd_lt (hes.subset hp))
    ((hes.map Prod.snd).nodup_iff.2 hm.nodup_snd)
  rw [hres]
  congr 1
  apply List.ext_getElem?
  intro i
  by_cases hi : i < (keys m).length
  · have h1 : (keys m)[i]? = some (keys m)[i] := List.getElem?_eq_getElem hi
    rw [h1]
    exact hmem ((keys m)[i], i) (hes.symm.subset ((hm.mem_iff _ _).2 h1))
  · rw [List.getElem?_eq_none (Nat.le_of_not_lt hi), List.getElem?_eq_none]
    rw [hlen]
    simpa [GoMap.len, GoMap.keys] using Nat.le_of_not_lt hi

theorem StringTable.Strings_of_isTable (o : MapOrder String Nat) (t : StringTable)
    (ht : GoMap.IsTable t.strings) : t.Strings o = some (GoMap.keys t.strings) :=
  GoMap.export_isTable ht (o.enum t.strings) (o.perm t.strings) ""

/-- C9: on a string table reached from `NewStringTable` by the lookups `ss`,
`Strings()` returns, for every enumeration order of the map, the distinct
strings in order of first lookup; its length is the number of distinct
strings and the element at index `Lookup(s)` is `s` for every looked-up `s`. -/
theorem StringTable.strings_export (o : MapOrder String Nat) (ss : List String) :
    (StringTable.lookups ss).Strings o = some (firstSeen ss) ∧
    (firstSeen ss).length = ss.toFinset.card ∧
    ∀ s ∈ ss, (firstSeen ss)[((StringTable.lookups ss).Lookup s).1]? = some s := by
  refine ⟨?_, length_firstSeen ss, fun s hs => ?_⟩
  · have h := StringTable.Strings_of_isTable o (StringTable.lookups ss)
      (by rw [StringTable.lookups_eq]; exact (GoMap.insertAll_spec ss).1)
    rw [h, StringTable.lookups_eq, (GoMap.insertAll_spec ss).2]
  · rw [StringTable.lookup_lookups_of_mem ss s hs]
    exact List.getElem?_indexOf ((mem_firstSeen ss s).2 hs)

/-- C9 at a concrete table, enumerated in reverse insertion order. -/
theorem StringTable.strings_export_witness :
    (StringTable.lookups ["b", "a", "b", "c"]).Strings (MapOrder.reversed String Nat) =
        some (firstSeen ["b", "a", "b", "c"]) ∧
      firstSeen ["b", "a", "b", "c"] = ["b", "a", "c"] ∧
      (firstSeen ["b", "a", "b", "c"])[((StringTable.lookups ["b", "a", "b", "c"]).Lookup "a").1]?
        = some "a" :=
  ⟨(StringTable.strings_export (MapOrder.reversed String Nat) ["b", "a", "b", "c"]).1,
   by decide,
   (StringTable.strings_export (MapOrder.reversed String Nat) ["b", "a", "b", "c"]).2.2 "a"
     (by decide)⟩

/-! ## Frame table -/

/-- The index returned by insert-or-get after the insertions `pre` is the
rank of the key in first-occurrence order of any longer call sequence. -/
theorem GoMap.insertOrGet_insertAll {κ : Type} [DecidableEq κ] (pre post : List κ) (k : κ) :
    (GoMap.insertOrGet (GoMap.insertAll pre) k).1 = (firstSeen (pre ++ k :: post)).indexOf k := by
  have hp : firstSeen (pre ++ [k]) <+: firstSeen (pre ++ [k] ++ post) :=
    firstSeen_prefix_append _ _
  obtain ⟨t, ht⟩ := hp
  have e : pre ++ k :: post = pre ++ [k] ++ post := by simp
  rw [e, ← ht, List.indexOf_append_of_mem ((mem_firstSeen _ _).2 (by simp)), firstSeen_concat]
  by_cases h : k ∈ firstSeen pre
  · rw [if_pos h, GoMap.insertOrGet_of_mem (GoMap.insertAll_spec pre).1
      (by rw [(GoMap.insertAll_spec pre).2]; exact h), (GoMap.insertAll_spec pre).2]
  · rw [if_neg h, GoMap.insertOrGet_of_not_mem
      (by rw [(GoMap.insertAll_spec pre).2]; exact h), List.indexOf_append_of_not_mem h]
    have hl := (GoMap.insertAll_spec pre).2
    simp only [GoMap.keys] at hl
    have hl2 := congrArg List.length hl
    simp only [List.length_map] at hl2
    simp [hl2]

theorem FrameTable.frameLookup_eq (t : FrameTable) (frame : Frame) :
    t.Lookup frame =
      ((GoMap.insertOrGet t.frames frame).1, ⟨(GoMap.insertOrGet t.frames frame).2⟩) := by
  unfold FrameTable.Lookup GoMap.insertOrGet
  cases GoMap.get? t.frames frame <;> rfl

theorem FrameTable.frameLookups_eq (fs : List Frame) :
    FrameTable.lookups fs = ⟨GoMap.insertAll fs⟩ := by
  induction fs using List.reverseRecOn with
  | nil => rfl
  | append_singleton fs f ih =>
    rw [GoMap.insertAll_concat]
    simp only [FrameTable.lookups, List.foldl_append, List.foldl_cons, List.foldl_nil] at ih ⊢
    rw [ih, FrameTable.frameLookup_eq]

theorem FrameTable.lookup_take (fs : List Frame) (i : Nat) (hi : i < fs.length) :
    ((FrameTable.lookups (fs.take i)).Lookup fs[i]).1 = (firstSeen fs).indexOf fs[i] := by
  rw [FrameTable.frameLookups_eq, FrameTable.frameLookup_eq]
  have h := GoMap.insertOrGet_insertAll (fs.take i) (fs.drop (i + 1)) fs[i]
  rw [← List.drop_eq_getElem_cons hi, List.take_append_drop] at h
  exact h

/-- C10: in a sequence `fs` of `FrameTable.Lookup` calls starting from
`NewFrameTable`, the `i`-th call returns the rank of its frame in order of
first insertion (a frame seen for the first time gets the number of distinct
frames inserted before it), and two calls return the same index exactly when
their frames agree on all five fields. -/
theorem FrameTable.lookup_index_iff (fs : List Frame) (i j : Nat)
    (hi : i < fs.length) (hj : j < fs.length) :
    ((FrameTable.lookups (fs.take i)).Lookup fs[i]).1 = (firstSeen fs).indexOf fs[i] ∧
    (fs[i] ∉ fs.take i →
      ((FrameTable.lookups (fs.take i)).Lookup fs[i]).1 = (fs.take i).toFinset.card) ∧
    (((FrameTable.lookups (fs.take i)).Lookup fs[i]).1 =
        ((FrameTable.lookups (fs.take j)).Lookup fs[j]).1 ↔
      fs[i].Filename = fs[j].Filename ∧ fs[i].Package = fs[j].Package ∧
        fs[i].Class = fs[j].Class ∧ fs[i].Method = fs[j].Method ∧ fs[i].Line = fs[j].Line) := by
  refine ⟨FrameTable.lookup_take fs i hi, fun hnew => ?_, ?_⟩
  · rw [FrameTable.frameLookups_eq, FrameTable.frameLookup_eq, GoMap.insertOrGet_of_not_mem
      (by rw [(GoMap.insertAll_spec _).2, mem_firstSeen]; exact hnew), GoMap.length_insertAll]
  · rw [FrameTable.lookup_take fs i hi, FrameTable.lookup_take fs j hj,
      List.indexOf_inj ((mem_firstSeen _ _).2 (List.getElem_mem _))
        ((mem_firstSeen _ _).2 (List.getElem_mem _))]
    constructor
    · intro h
      rw [h]
      simp
    · rintro ⟨h1, h2, h3, h4, h5⟩
      cases hfi : fs[i]
      cases hfj : fs[j]
      rw [hfi, hfj] at h1 h2 h3 h4 h5
      simp only at h1 h2 h3 h4 h5
      subst h1 h2 h3 h4 h5
      rfl

/-- C10 at a concrete call sequence: the two calls with the same frame return
the same index, the call with a frame that differs only in `Line` another. -/
theorem FrameTable.lookup_index_iff_witness :
    ((FrameTable.lookups []).Lookup ⟨"a.go", "p", "C", "m", 1⟩).1 =
      ((FrameTable.lookups [⟨"a.go", "p", "C", "m", 1⟩, ⟨"a.go", "p", "C", "m", 2⟩]).Lookup
        ⟨"a.go", "p", "C", "m", 1⟩).1 ∧
    ((FrameTable.lookups [⟨"a.go", "p", "C", "m", 1⟩]).Lookup ⟨"a.go", "p", "C", "m", 2⟩).1 = 1 :=
  ⟨(FrameTable.lookup_index_iff
      [⟨"a.go", "p", "C", "m", 1⟩, ⟨"a.go", "p", "C", "m", 2⟩, ⟨"a.go", "p", "C", "m", 1⟩]
      0 2 (by decide) (by decide)).2.2.2 ⟨rfl, rfl, rfl, rfl, rfl⟩,
   (FrameTable.lookup_index_iff
      [⟨"a.go", "p", "C", "m", 1⟩, ⟨"a.go", "p", "C", "m", 2⟩, ⟨"a.go", "p", "C", "m", 1⟩]
      1 0 (by decide) (by decide)).2.1 (by decide)⟩

/-! ## Stack reconstruction -/

/-- The loop body on a list of non-nil snapshots: the untouched snapshots
followed by one snapshot at the event's time that holds the pushed or popped
copy of the last stack. -/
theorem stepContext_eq (events : List StackEvent) (te : TraceEvent) (h : AllSome events) :
    stepContext events te =
      (pushPop? (lastStack events) te).map fun s =>
        sealedPart events (timeNS te) ++ [⟨timeNS te, some s⟩] := by
  rcases List.eq_nil_or_concat events with rfl | ⟨init, se, rfl⟩
  · unfold stepContext pushPop? sealedPart lastStack
    by_cases hB : te.Ph = "B"
    · simp [hB]
    · by_cases hE : te.Ph = "E"
      · simp [hE]
      · simp [hB, hE]
  · obtain ⟨t0, st⟩ := se
    cases st with
    | none => exact absurd rfl (h ⟨t0, none⟩ (by simp))
    | some s0 =>
      unfold stepContext pushPop? sealedPart lastStack
      by_cases ht : t0 = timeNS te
      · subst ht
        by_cases hB : te.Ph = "B"
        · simp [hB]
        · by_cases hE : te.Ph = "E"
          · cases s0 <;> simp [hE]
          · simp [hB, hE]
      · by_cases hB : te.Ph = "B"
        · simp [hB, ht]
        · by_cases hE : te.Ph = "E"
          · cases s0 <;> simp [hE, ht]
          · simp [hB, hE, ht]

theorem pushPop?_eq_some {stack s : List String} {te : TraceEvent}
    (h : pushPop? stack te = some s) : s = pushPop stack te := by
  unfold pushPop? at h
  unfold pushPop
  by_cases hB : te.Ph = "B"
  · rw [if_pos hB] at h ⊢
    exact (Option.some.inj h).symm
  · rw [if_neg hB] at h ⊢
    by_cases hE : te.Ph = "E"
    · rw [if_pos hE] at h ⊢
      by_cases hs : stack = []
      · rw [if_pos hs] at h
        cases h
      · rw [if_neg hs] at h
        exact (Option.some.inj h).symm
    · rw [if_neg hE] at h ⊢
      exact (Option.some.inj h).symm

theorem pushPop?_ne_none (stack : List String) (te : TraceEvent)
    (h : te.Ph = "E" → stack ≠ []) : ∃ s, pushPop? stack te = some s := by
  unfold pushPop?
  by_cases hB : te.Ph = "B"
  · exact ⟨stack ++ [te.Name], by rw [if_pos hB]⟩
  · by_cases hE : te.Ph = "E"
    · exact ⟨stack.dropLast, by rw [if_neg hB, if_pos hE, if_neg (h hE)]⟩
    · exact ⟨stack, by rw [if_neg hB, if_neg hE]⟩

theorem sealedPart_subset (events : List StackEvent) (t : Int) :
    ∀ se ∈ sealedPart events t, se ∈ events := by
  intro se hse
  unfold sealedPart at hse
  split at hse
  · exact List.dropLast_subset _ hse
  · exact hse

theorem refStack_concat (ces : List TraceEvent) (te : TraceEvent) :
    refStack (ces ++ [te]) = pushPop (refStack ces) te := by
  simp [refStack, List.foldl_append]

theorem contextSnapshots_concat (ces : List TraceEvent) (te : TraceEvent) :
    contextSnapshots (ces ++ [te]) = (contextSnapshots ces).bind fun events =>
      stepContext events te := by
  simp only [contextSnapshots, List.foldlM_append, List.foldlM_cons, List.foldlM_nil]
  cases List.foldlM stepContext [] ces with
  | none => rfl
  | some events =>
    show (stepContext events te).bind some = stepContext events te
    cases stepContext events te <;> rfl

/-- The snapshot list of one context: all stacks are non-nil, and the last
snapshot carries the time of the last event and the push/pop fold of all
events. -/
theorem contextSnapshots_spec (ces : List TraceEvent) :
    ∀ snaps, contextSnapshots ces = some snaps →
      AllSome snaps ∧ lastStack snaps = refStack ces ∧ (ces = [] → snaps = []) ∧
      ∀ te, ces.getLast? = some te →
        snaps.getLast? = some ⟨timeNS te, some (refStack ces)⟩ := by
  induction ces using List.reverseRecOn with
  | nil =>
    intro snaps h
    simp only [contextSnapshots, List.foldlM_nil] at h
    cases h
    refine ⟨?_, rfl, fun _ => rfl, ?_⟩
    · intro se hse
      cases hse
    · intro te hte
      cases hte
  | append_singleton ces te ih =>
    intro snaps h
    rw [contextSnapshots_concat] at h
    obtain ⟨snaps0, h0, hstep⟩ := Option.bind_eq_some.1 h
    obtain ⟨hall, hlast, -, -⟩ := ih snaps0 h0
    rw [stepContext_eq snaps0 te hall] at hstep
    obtain ⟨s, hs, rfl⟩ := Option.map_eq_some'.1 hstep
    have hs2 : s = refStack (ces ++ [te]) := by
      rw [refStack_concat, ← hlast]
      exact pushPop?_eq_some hs
    refine ⟨?_, ?_, ?_, ?_⟩
    · intro se hse
      rcases List.mem_append.1 hse with hse | hse
      · exact hall se (sealedPart_subset _ _ se hse)
      · simp only [List.mem_singleton] at hse
        rw [hse]
        simp
    · simp [lastStack, hs2]
    · intro hnil
      simp at hnil
    · intro te2 hte2
      simp only [List.getLast?_concat, Option.some.injEq] at hte2
      subst hte2
      simp [hs2]

/-- Without an End on an empty stack the reconstruction of one context does
not fault. -/
theorem contextSnapshots_isSome (ces : List TraceEvent) (h : NoEndOnEmpty ces) :
    ∃ snaps, contextSnapshots ces = some snaps := by
  induction ces using List.reverseRecOn with
  | nil => exact ⟨[], rfl⟩
  | append_singleton ces te ih =>
    have h0 : NoEndOnEmpty ces := fun pre te2 post e hE =>
      h pre te2 (post ++ [te]) (by rw [e]; simp) hE
    obtain ⟨snaps0, hs0⟩ := ih h0
    obtain ⟨hall, hlast, -, -⟩ := contextSnapshots_spec ces snaps0 hs0
    obtain ⟨s, hs⟩ := pushPop?_ne_none (lastStack snaps0) te
      (fun hE => by rw [hlast]; exact h ces te [] rfl hE)
    refine ⟨sealedPart snaps0 (timeNS te) ++ [⟨timeNS te, some s⟩], ?_⟩
    rw [contextSnapshots_concat, hs0, Option.some_bind, stepContext_eq snaps0 te hall, hs]
    rfl

/-! ### From one context to the context map -/

theorem reconstruct_concat (evs : List TraceEvent) (te : TraceEvent) :
    reconstruct (evs ++ [te]) = (reconstruct evs).bind fun stks => applyEvent stks te := by
  simp only [reconstruct, List.foldlM_append, List.foldlM_cons, List.foldlM_nil]
  cases List.foldlM applyEvent [] evs with
  | none => rfl
  | some stks =>
    show (applyEvent stks te).bind some = applyEvent stks te
    cases applyEvent stks te <;> rfl

theorem contextEvents_concat (c : Int) (evs : List TraceEvent) (te : TraceEvent) :
    contextEvents c (evs ++ [te]) =
      if (te.Ph = "B" ∨ te.Ph = "E") ∧ te.Pid = c then contextEvents c evs ++ [te]
      else contextEvents c evs := by
  unfold contextEvents
  rw [List.filter_append]
  by_cases h : (te.Ph = "B" ∨ te.Ph = "E") ∧ te.Pid = c
  · rw [if_pos h, List.filter_cons_of_pos (by simpa using h)]
    rfl
  · rw [if_neg h, List.filter_cons_of_neg (by simpa using h)]
    simp

theorem snapshotsOf_set (stks : Stacks) (pid c : Int) (events : List StackEvent) :
    snapshotsOf (GoMap.set stks pid events) c =
      if pid = c then events else snapshotsOf stks c := by
  unfold snapshotsOf
  rw [GoMap.get?_set]
  split <;> rfl

theorem snapshotsOf_of_mem (stks : Stacks) (h : (GoMap.keys stks).Nodup) (c : Int)
    (events : List StackEvent) (hm : (c, events) ∈ stks) : snapshotsOf stks c = events := by
  unfold snapshotsOf
  rw [(GoMap.get?_eq_some_iff stks h c events).2 hm]
  rfl

/-- The keys of the context map stay distinct. -/
theorem reconstruct_nodup (evs : List TraceEvent) :
    ∀ stks, reconstruct evs = some stks → (GoMap.keys stks).Nodup := by
  induction evs using List.reverseRecOn with
  | nil =>
    intro stks h
    simp only [reconstruct, List.foldlM_nil] at h
    cases h
    exact List.nodup_nil
  | append_singleton evs te ih =>
    intro stks h
    rw [reconstruct_concat] at h
    obtain ⟨stks0, h0, hstep⟩ := Option.bind_eq_some.1 h
    unfold applyEvent at hstep
    split at hstep
    · cases hstep
      exact ih _ h0
    · obtain ⟨events, -, rfl⟩ := Option.map_eq_some'.1 hstep
      exact GoMap.nodup_keys_set _ _ _ (ih _ h0)

/-- The snapshot list that the first loop builds for a context depends on the
Begin/End events of that context only. -/
theorem reconstruct_context (evs : List TraceEvent) :
    ∀ stks, reconstruct evs = some stks →
      ∀ c, contextSnapshots (contextEvents c evs) = some (snapshotsOf stks c) := by
  induction evs using List.reverseRecOn with
  | nil =>
    intro stks h c
    simp only [reconstruct, List.foldlM_nil] at h
    cases h
    rfl
  | append_singleton evs te ih =>
    intro stks h c
    rw [reconstruct_concat] at h
    obtain ⟨stks0, h0, hstep⟩ := Option.bind_eq_some.1 h
    rw [contextEvents_concat]
    unfold applyEvent at hstep
    by_cases hBE : te.Ph ≠ "B" ∧ te.Ph ≠ "E"
    · rw [if_pos hBE] at hstep
      cases hstep
      rw [if_neg (by
        rintro ⟨h1 | h1, -⟩
        · exact hBE.1 h1
        · exact hBE.2 h1)]
      exact ih _ h0 c
    · rw [if_neg hBE] at hstep
      obtain ⟨events, hev, rfl⟩ := Option.map_eq_some'.1 hstep
      have hBE2 : te.Ph = "B" ∨ te.Ph = "E" := by
        by_contra hc
        exact hBE ⟨fun e => hc (Or.inl e), fun e => hc (Or.inr e)⟩
      rw [snapshotsOf_set]
      by_cases hc : te.Pid = c
      · subst hc
        rw [if_pos ⟨hBE2, rfl⟩, if_pos rfl, contextSnapshots_concat, ih _ h0 te.Pid,
          Option.some_bind]
        exact hev
      · rw [if_neg (fun hh => hc hh.2), if_neg hc]
        exact ih _ h0 c

/-- The first loop completes when no context faults on its own events. -/
theorem reconstruct_isSome (evs : List TraceEvent)
    (h : ∀ c, ∃ snaps, contextSnapshots (contextEvents c evs) = some snaps) :
    ∃ stks, reconstruct evs = some stks := by
  induction evs using List.reverseRecOn with
  | nil => exact ⟨[], rfl⟩
  | append_singleton evs te ih =>
    have h0 : ∀ c, ∃ snaps, contextSnapshots (contextEvents c evs) = some snaps := by
      intro c
      obtain ⟨snaps, hs⟩ := h c
      rw [contextEvents_concat] at hs
      split at hs
      · rw [contextSnapshots_concat] at hs
        obtain ⟨snaps0, hs0, -⟩ := Option.bind_eq_some.1 hs
        exact ⟨snaps0, hs0⟩
      · exact ⟨snaps, hs⟩
    obtain ⟨stks0, hr0⟩ := ih h0
    rw [reconstruct_concat, hr0, Option.some_bind]
    unfold applyEvent
    by_cases hBE : te.Ph ≠ "B" ∧ te.Ph ≠ "E"
    · rw [if_pos hBE]
      exact ⟨stks0, rfl⟩
    · rw [if_neg hBE]
      have hBE2 : te.Ph = "B" ∨ te.Ph = "E" := by
        by_contra hc
        exact hBE ⟨fun e => hc (Or.inl e), fun e => hc (Or.inr e)⟩
      obtain ⟨snaps, hs⟩ := h te.Pid
      rw [contextEvents_concat, if_pos ⟨hBE2, rfl⟩, contextSnapshots_concat,
        reconstruct_context evs stks0 hr0 te.Pid, Option.some_bind] at hs
      unfold snapshotsOf at hs
      rw [hs]
      exact ⟨_, rfl⟩

/-- A context whose reconstruction does not fault has no End on an empty stack. -/
theorem noEndOnEmpty_of_contextSnapshots (ces : List TraceEvent) :
    ∀ snaps, contextSnapshots ces = some snaps → NoEndOnEmpty ces := by
  induction ces using List.reverseRecOn with
  | nil =>
    intro snaps _ pre te post e
    simp at e
  | append_singleton ces te ih =>
    intro snaps h pre te2 post e hE
    rw [contextSnapshots_concat] at h
    obtain ⟨snaps0, h0, hstep⟩ := Option.bind_eq_some.1 h
    obtain ⟨hall, hlast, -, -⟩ := contextSnapshots_spec ces snaps0 h0
    rcases List.eq_nil_or_concat post with rfl | ⟨post0, te3, rfl⟩
    · obtain ⟨rfl, e2⟩ := List.append_inj' e rfl
      simp only [List.cons.injEq, and_true] at e2
      subst e2
      rw [stepContext_eq snaps0 te hall] at hstep
      obtain ⟨s, hs, -⟩ := Option.map_eq_some'.1 hstep
      rw [← hlast]
      intro hnil
      rw [hnil] at hs
      simp [pushPop?, hE] at hs
    · have e2 : ces ++ [te] = (pre ++ te2 :: post0) ++ [te3] := by rw [e]; simp
      obtain ⟨e3, -⟩ := List.append_inj' e2 rfl
      exact ih snaps0 h0 pre te2 post0 e3 hE

/-- When the first loop completes, no context had an End on an empty stack. -/
theorem noEndOnEmpty_of_reconstruct (evs : List TraceEvent) (stks : Stacks)
    (h : reconstruct evs = some stks) : ∀ c, NoEndOnEmpty (contextEvents c evs) :=
  fun c => noEndOnEmpty_of_contextSnapshots _ _ (reconstruct_context evs stks h c)

/-- C6: when no End event arrives while its context's stack is empty, the
first loop completes on the events `evs` processed so far, and for every
context `c` with last Begin/End event `te` among them, the context's last
snapshot has `timeNanos` equal to that of `te` and a stack equal to the
push/pop fold of the context's events over the empty stack. -/
theorem reconstruct_push_pop (evs : List TraceEvent) (c : Int) (te : TraceEvent)
    (hno : ∀ c', NoEndOnEmpty (contextEvents c' evs))
    (hlast : (contextEvents c evs).getLast? = some te) :
    ∃ stks se, reconstruct evs = some stks ∧
      (snapshotsOf stks c).getLast? = some se ∧
      se.TimeNS = timeNS te ∧
      se.Stack = some (refStack (contextEvents c evs)) := by
  obtain ⟨stks, hr⟩ := reconstruct_isSome evs fun c' =>
    contextSnapshots_isSome _ (hno c')
  obtain ⟨-, -, -, hl⟩ := contextSnapshots_spec _ _ (reconstruct_context evs stks hr c)
  exact ⟨stks, _, hr, hl te hlast, rfl, rfl⟩

/-- C6 on two interleaved contexts: after all events context 1 holds `f`, `g`
at the time of its last event. -/
theorem reconstruct_push_pop_witness :
    ∃ stks se, reconstruct interleavedExample = some stks ∧
      (snapshotsOf stks 1).getLast? = some se ∧
      se.TimeNS = 30000 ∧
      se.Stack = some ["f", "g"] :=
  reconstruct_push_pop interleavedExample 1 ⟨"h", "E", 30, 1, 0⟩
    (noEndOnEmpty_of_reconstruct interleavedExample
      [(1, [⟨10000, some ["f", "g"]⟩, ⟨20000, some ["f", "g", "h"]⟩, ⟨30000, some ["f", "g"]⟩]),
       (2, [⟨10000, some ["x"]⟩, ⟨30000, some []⟩])] (by decide!))
    (by decide!)

/-! ### Coalescing of simultaneous events -/

theorem eq_nil_or_snoc {α : Type} (l : List α) : l = [] ∨ ∃ init a, l = init ++ [a] := by
  rcases List.eq_nil_or_concat l with h | ⟨init, a, h⟩
  · exact Or.inl h
  · exact Or.inr ⟨init, a, by rw [h, List.concat_eq_append]⟩

theorem sealedPart_sublist (events : List StackEvent) (t : Int) :
    (sealedPart events t).Sublist events := by
  unfold sealedPart
  split
  · exact List.dropLast_sublist _
  · exact List.Sublist.refl _

/-- When snapshot times increase strictly and none exceeds `t`, the untouched
snapshots are exactly those with a time before `t`. -/
theorem sealedPart_lt (events : List StackEvent) (t : Int)
    (hp : events.Pairwise fun a b => a.TimeNS < b.TimeNS)
    (hle : ∀ se ∈ events, se.TimeNS ≤ t) :
    (∀ se ∈ sealedPart events t, se.TimeNS < t) ∧
    ∀ se ∈ events, se ∈ sealedPart events t ∨ se.TimeNS = t := by
  rcases eq_nil_or_snoc events with rfl | ⟨init, last, rfl⟩
  · simp [sealedPart]
  · have hinit : ∀ a ∈ init, a.TimeNS < last.TimeNS := by
      intro a ha
      exact (List.pairwise_append.1 hp).2.2 a ha last (List.mem_singleton_self _)
    have hlast : last.TimeNS ≤ t := hle last (by simp)
    unfold sealedPart
    by_cases ht : last.TimeNS = t
    · simp only [List.getLast?_concat, Option.map_some', ht, if_true, List.dropLast_concat]
      refine ⟨fun se hse => ht ▸ hinit se hse, fun se hse => ?_⟩
      rcases List.mem_append.1 hse with h | h
      · exact Or.inl h
      · simp only [List.mem_singleton] at h
        exact Or.inr (h ▸ ht)
    · have hne : ¬ some last.TimeNS = some t := fun e => ht (Option.some.inj e)
      simp only [List.getLast?_concat, Option.map_some', hne, if_false]
      refine ⟨fun se hse => ?_, fun se hse => Or.inl hse⟩
      rcases List.mem_append.1 hse with h | h
      · exact lt_of_lt_of_le (hinit se h) hlast
      · simp only [List.mem_singleton] at h
        rw [h]
        exact lt_of_le_of_ne hlast ht

/-- Coalescing on one context: when the scaled times of the context's events
never decrease, snapshot times increase strictly, the snapshot times are
exactly the event times, and every snapshot holds the push/pop fold of all
events up to its time. -/
theorem contextSnapshots_sorted (ces : List TraceEvent) :
    (ces.map timeNS).Pairwise (fun a b => a ≤ b) →
    ∀ snaps, contextSnapshots ces = some snaps →
      (snaps.Pairwise fun a b => a.TimeNS < b.TimeNS) ∧
      (∀ se ∈ snaps, ∃ te ∈ ces, se.TimeNS = timeNS te) ∧
      (∀ te ∈ ces, ∃ se ∈ snaps, se.TimeNS = timeNS te) ∧
      ∀ se ∈ snaps,
        se.Stack = some (refStack (ces.filter fun e => decide (timeNS e ≤ se.TimeNS))) := by
  induction ces using List.reverseRecOn with
  | nil =>
    intro _ snaps h
    simp only [contextSnapshots, List.foldlM_nil] at h
    cases h
    simp
  | append_singleton ces te ih =>
    intro hsorted snaps h
    rw [List.map_append, List.pairwise_append] at hsorted
    obtain ⟨hs0, -, hle⟩ := hsorted
    have hle2 : ∀ e ∈ ces, timeNS e ≤ timeNS te := fun e he =>
      hle (timeNS e) (List.mem_map_of_mem _ he) (timeNS te) (by simp)
    rw [contextSnapshots_concat] at h
    obtain ⟨snaps0, h0, hstep⟩ := Option.bind_eq_some.1 h
    obtain ⟨hall, hlast, -, -⟩ := contextSnapshots_spec ces snaps0 h0
    obtain ⟨hp, hfrom, hto, hstk⟩ := ih hs0 snaps0 h0
    rw [stepContext_eq snaps0 te hall] at hstep
    obtain ⟨s, hs, rfl⟩ := Option.map_eq_some'.1 hstep
    have hs2 : s = refStack (ces ++ [te]) := by
      rw [refStack_concat, ← hlast]
      exact pushPop?_eq_some hs
    have hsle : ∀ se ∈ snaps0, se.TimeNS ≤ timeNS te := by
      intro se hse
      obtain ⟨e, he, hte⟩ := hfrom se hse
      rw [hte]
      exact hle2 e he
    obtain ⟨hlt, hcover⟩ := sealedPart_lt snaps0 (timeNS te) hp hsle
    refine ⟨?_, ?_, ?_, ?_⟩
    · rw [List.pairwise_append]
      refine ⟨hp.sublist (sealedPart_sublist _ _), List.pairwise_singleton _ _, ?_⟩
      intro a ha b hb
      simp only [List.mem_singleton] at hb
      rw [hb]
      exact hlt a ha
    · intro se hse
      rcases List.mem_append.1 hse with h1 | h1
      · obtain ⟨e, he, hte⟩ := hfrom se (sealedPart_subset _ _ se h1)
        exact ⟨e, List.mem_append_left _ he, hte⟩
      · simp only [List.mem_singleton] at h1
        exact ⟨te, by simp, by rw [h1]⟩
    · intro e he
      rcases List.mem_append.1 he with h1 | h1
      · obtain ⟨se, hse, hte⟩ := hto e h1
        rcases hcover se hse with h2 | h2
        · exact ⟨se, List.mem_append_left _ h2, hte⟩
        · exact ⟨⟨timeNS te, some s⟩, by simp, by rw [← hte, h2]⟩
      · simp only [List.mem_singleton] at h1
        exact ⟨⟨timeNS te, some s⟩, by simp, by rw [h1]⟩
    · intro se hse
      rcases List.mem_append.1 hse with h1 | h1
      · have hnot : ¬ timeNS te ≤ se.TimeNS := not_le.2 (hlt se h1)
        rw [List.filter_append, List.filter_cons_of_neg (by simpa using hnot),
          List.filter_nil, List.append_nil]
        exact hstk se (sealedPart_subset _ _ se h1)
      · simp only [List.mem_singleton] at h1
        rw [h1, hs2]
        have hall2 : (ces ++ [te]).filter (fun e => decide (timeNS e ≤ timeNS te)) = ces ++ [te] := by
          rw [List.filter_eq_self]
          intro e he
          rcases List.mem_append.1 he with h2 | h2
          · simpa using hle2 e h2
          · simp only [List.mem_singleton] at h2
            simp [h2]
        rw [hall2]

theorem filter_time_eq_singleton (snaps : List StackEvent)
    (hp : snaps.Pairwise fun a b => a.TimeNS < b.TimeNS) (se : StackEvent) (hse : se ∈ snaps) :
    snaps.filter (fun s => decide (s.TimeNS = se.TimeNS)) = [se] := by
  induction snaps with
  | nil => cases hse
  | cons a l ih =>
    rw [List.pairwise_cons] at hp
    rcases List.mem_cons.1 hse with rfl | h
    · rw [List.filter_cons_of_pos (by simp)]
      congr 1
      rw [List.filter_eq_nil_iff]
      intro b hb
      have := hp.1 b hb
      simp only [decide_eq_true_eq]
      omega
    · have := hp.1 se h
      rw [List.filter_cons_of_neg (by simp only [decide_eq_true_eq]; omega)]
      exact ih hp.2 h

/-! ### Timestamp scaling without overflow -/

theorem tdiv_eq_floor (q : ℚ) (h : 0 ≤ q) : Int.tdiv q.num q.den = ⌊q⌋ := by
  rw [Rat.floor_def, Int.tdiv_eq_ediv (Rat.num_nonneg.2 h) (by positivity)]

theorem tdiv_eq_ceil (q : ℚ) (h : q < 0) : Int.tdiv q.num q.den = ⌈q⌉ := by
  have h2 : 0 ≤ -q := by linarith
  have h3 := tdiv_eq_floor (-q) h2
  rw [Rat.neg_num, Rat.neg_den, Int.neg_tdiv] at h3
  rw [← neg_neg q, Int.ceil_neg, ← h3]
  simp

/-- Truncation toward zero is monotone. -/
theorem tdiv_mono (a b : ℚ) (h : a ≤ b) : Int.tdiv a.num a.den ≤ Int.tdiv b.num b.den := by
  rcases lt_or_le a 0 with ha | ha
  · rcases lt_or_le b 0 with hb | hb
    · rw [tdiv_eq_ceil a ha, tdiv_eq_ceil b hb]
      exact Int.ceil_mono h
    · rw [tdiv_eq_ceil a ha, tdiv_eq_floor b hb]
      have h1 : ⌈a⌉ ≤ 0 := Int.ceil_le.2 (by simpa using ha.le)
      have h2 : 0 ≤ ⌊b⌋ := Int.floor_nonneg.2 hb
      omega
  · have hb : 0 ≤ b := le_trans ha h
    rw [tdiv_eq_floor a ha, tdiv_eq_floor b hb]
    exact Int.floor_mono h

theorem wrapInt64_of_inRange (x : Int) (h1 : -(2 ^ 63) ≤ x) (h2 : x < 2 ^ 63) :
    wrapInt64 x = x := by
  unfold wrapInt64
  rw [Int.emod_eq_of_lt (by omega) (by omega)]
  omega

/-- Without overflow the scaled time is the truncated timestamp times 1000. -/
theorem timeNS_of_inRange (te : TraceEvent) (h : InRange te) :
    timeNS te = Int.tdiv te.Ts.num te.Ts.den * 1000 := by
  obtain ⟨h1, h2⟩ := h
  unfold timeNS int64OfFloat
  have h3 : -(2 ^ 63) ≤ Int.tdiv te.Ts.num te.Ts.den ∧ Int.tdiv te.Ts.num te.Ts.den < 2 ^ 63 := by
    constructor <;> omega
  simp only [h3, and_self, if_true]
  exact wrapInt64_of_inRange _ h1 h2

theorem timeNS_mono (a b : TraceEvent) (ha : InRange a) (hb : InRange b) (h : a.Ts ≤ b.Ts) :
    timeNS a ≤ timeNS b := by
  rw [timeNS_of_inRange a ha, timeNS_of_inRange b hb]
  have := tdiv_mono a.Ts b.Ts h
  omega

/-- C7 (amended): for a context whose Begin/End events arrive in non-decreasing
timestamp order and whose scaled timestamps fit in `int64`, every event time
has exactly one snapshot in the context's list, and that snapshot's stack is
the push/pop fold of all the context's events up to and including those at
that time, whatever events of other contexts are interleaved. -/
theorem coalescing (evs : List TraceEvent) (c : Int) (stks : Stacks)
    (hrec : reconstruct evs = some stks)
    (hsorted : ((contextEvents c evs).map fun te => te.Ts).Pairwise fun a b => a ≤ b)
    (hrange : ∀ te ∈ contextEvents c evs, InRange te) :
    ∀ te ∈ contextEvents c evs, ∃ se,
      (snapshotsOf stks c).filter (fun s => decide (s.TimeNS = timeNS te)) = [se] ∧
      se.Stack = some (refStack
        ((contextEvents c evs).filter fun e => decide (timeNS e ≤ timeNS te))) := by
  intro te hte
  have hs : ((contextEvents c evs).map timeNS).Pairwise fun a b => a ≤ b := by
    rw [List.pairwise_map] at hsorted ⊢
    exact hsorted.imp_of_mem fun {a b} ha hb hab =>
      timeNS_mono a b (hrange a ha) (hrange b hb) hab
  obtain ⟨hp, -, hto, hstk⟩ :=
    contextSnapshots_sorted _ hs _ (reconstruct_context evs stks hrec c)
  obtain ⟨se, hse, htime⟩ := hto te hte
  refine ⟨se, ?_, ?_⟩
  · rw [← htime]
    exact filter_time_eq_singleton _ hp se hse
  · rw [← htime]
    exact hstk se hse

/-- C7 on two interleaved contexts: the two Begins of context 1 at `ts = 10`
share the one snapshot at 10000, which holds both labels. -/
theorem coalescing_witness :
    ∃ se, (snapshotsOf
        [(1, [⟨10000, some ["f", "g"]⟩, ⟨20000, some ["f", "g", "h"]⟩, ⟨30000, some ["f", "g"]⟩]),
         (2, [⟨10000, some ["x"]⟩, ⟨30000, some []⟩])] 1).filter
          (fun s => decide (s.TimeNS = timeNS ⟨"g", "B", 10, 1, 0⟩)) = [se] ∧
      se.Stack = some (refStack ((contextEvents 1 interleavedExample).filter
        fun e => decide (timeNS e ≤ timeNS ⟨"g", "B", 10, 1, 0⟩))) :=
  coalescing interleavedExample 1 _ (by decide!) (by decide!) (by decide!)
    ⟨"g", "B", 10, 1, 0⟩ (by decide!)

/-- C7 as stated fails when the scaled timestamp overflows: the timestamps
0, 1, `2^61` are in increasing order, yet the context has two snapshots with
`timeNanos = 0`. -/
theorem coalescing_counterexample :
    (((contextEvents 1 overflowExample).map fun te => te.Ts).Pairwise fun a b => a ≤ b) ∧
    ∃ stks, reconstruct overflowExample = some stks ∧
      (snapshotsOf stks 1).filter (fun s => decide (s.TimeNS = timeNS ⟨"f", "B", 0, 1, 0⟩)) =
        [⟨0, some ["f"]⟩, ⟨0, some ["f", "g", "h"]⟩] :=
  ⟨by decide!,
   [(1, [⟨0, some ["f"]⟩, ⟨1000, some ["f", "g"]⟩, ⟨0, some ["f", "g", "h"]⟩])],
   by decide!, by decide!⟩

/-! ## Thread keys -/

theorem digitChar_value (n : Nat) : (Nat.digitChar (n % 10)).toNat - 48 = n % 10 := by
  have h := Nat.mod_lt n (by decide : 10 > 0)
  generalize n % 10 = k at h
  interval_cases k <;> rfl

theorem digitChar_ne_minus (n : Nat) : Nat.digitChar (n % 10) ≠ '-' := by
  have h := Nat.mod_lt n (by decide : 10 > 0)
  generalize n % 10 = k at h
  interval_cases k <;> decide

theorem toDigitsCore_value (fuel : Nat) : ∀ (n : Nat) (ds : List Char), n < fuel →
    digitsValue (Nat.toDigitsCore 10 fuel n ds) 0 = digitsValue ds n := by
  induction fuel with
  | zero => intro n ds h; omega
  | succ fuel ih =>
    intro n ds h
    unfold Nat.toDigitsCore
    simp only
    by_cases h0 : n / 10 = 0
    · rw [if_pos h0]
      have e := digitChar_value n
      rw [Nat.mod_eq_of_lt (by omega : n < 10)] at e
      simp only [digitsValue, List.foldl_cons, Nat.mul_zero, Nat.zero_add]
      rw [Nat.mod_eq_of_lt (by omega : n < 10), e]
    · rw [if_neg h0, ih (n / 10) _ (by omega)]
      simp only [digitsValue, List.foldl_cons, digitChar_value]
      congr 1
      omega

theorem toDigitsCore_no_minus (fuel : Nat) : ∀ (n : Nat) (ds : List Char),
    '-' ∈ Nat.toDigitsCore 10 fuel n ds → '-' ∈ ds := by
  induction fuel with
  | zero => intro n ds h; exact h
  | succ fuel ih =>
    intro n ds h
    unfold Nat.toDigitsCore at h
    simp only at h
    split at h
    · rcases List.mem_cons.1 h with h | h
      · exact absurd h.symm (digitChar_ne_minus n)
      · exact h
    · rcases List.mem_cons.1 (ih _ _ h) with h | h
      · exact absurd h.symm (digitChar_ne_minus n)
      · exact h

theorem toDigits_injective (m n : Nat) (h : Nat.toDigits 10 m = Nat.toDigits 10 n) : m = n := by
  have hm := toDigitsCore_value (m + 1) m [] (by omega)
  have hn := toDigitsCore_value (n + 1) n [] (by omega)
  unfold Nat.toDigits at h
  rw [h, hn] at hm
  simpa [digitsValue] using hm.symm

theorem natRepr_data (m : Nat) : (toString m).data = Nat.toDigits 10 m := rfl

theorem toString_int_injective (a b : Int) (h : toString a = toString b) : a = b := by
  have hd := congrArg String.data h
  cases a with
  | ofNat m =>
    cases b with
    | ofNat n =>
      have : (toString m).data = (toString n).data := hd
      rw [natRepr_data, natRepr_data] at this
      rw [toDigits_injective m n this]
    | negSucc n =>
      have : (toString m).data = ("-" ++ toString (n + 1)).data := hd
      rw [String.data_append, natRepr_data] at this
      have hmem : '-' ∈ Nat.toDigits 10 m := by rw [this]; simp
      exact absurd (toDigitsCore_no_minus _ _ _ hmem) (by simp)
  | negSucc m =>
    cases b with
    | ofNat n =>
      have : ("-" ++ toString (m + 1)).data = (toString n).data := hd
      rw [String.data_append, natRepr_data, natRepr_data] at this
      have hmem : '-' ∈ Nat.toDigits 10 n := by rw [← this]; simp
      exact absurd (toDigitsCore_no_minus _ _ _ hmem) (by simp)
    | negSucc n =>
      have : ("-" ++ toString (m + 1)).data = ("-" ++ toString (n + 1)).data := hd
      rw [String.data_append, String.data_append, natRepr_data, natRepr_data] at this
      have h2 := toDigits_injective _ _ (List.append_cancel_left this)
      have : m = n := by omega
      rw [this]

/-- Distinct contexts have distinct thread keys. -/
theorem threadID_injective (a b : Int) (h : threadID a = threadID b) : a = b := by
  unfold threadID at h
  have hd := congrArg String.data h
  rw [String.data_append, String.data_append] at hd
  exact toString_int_injective a b (String.ext (List.append_cancel_left hd))

/-! ## Interval builder -/

theorem indexOf_of_prefix {α : Type} [DecidableEq α] {l l' : List α} (h : l <+: l') {a : α}
    (ha : a ∈ l) : l'.indexOf a = l.indexOf a := by
  obtain ⟨t, rfl⟩ := h
  exact List.indexOf_append_of_mem ha

theorem GoMap.insertOrGet_fst {κ : Type} [DecidableEq κ] {m : GoMap κ Nat} (hm : IsTable m)
    (k : κ) : k ∈ keys (insertOrGet m k).2 ∧
      (insertOrGet m k).1 = (keys (insertOrGet m k).2).indexOf k := by
  by_cases h : k ∈ keys m
  · rw [insertOrGet_of_mem hm h]
    exact ⟨h, rfl⟩
  · rw [insertOrGet_of_not_mem h]
    have hk : keys (m ++ [(k, m.length)]) = keys m ++ [k] := by simp [keys]
    rw [hk]
    refine ⟨by simp, ?_⟩
    rw [List.indexOf_append_of_not_mem h]
    simp [keys]

/-- The loop over the inner labels keeps the frame table a dictionary table,
only appends frames, and returns for every label the final index of its frame. -/
theorem foldl_lookupMethod (methods : List String) :
    ∀ (acc : List Nat) (ft : FrameTable), GoMap.IsTable ft.frames →
      ∀ r, methods.foldl lookupMethod (acc, ft) = r →
        GoMap.IsTable r.2.frames ∧
        GoMap.keys ft.frames <+: GoMap.keys r.2.frames ∧
        (∀ m ∈ methods, methodFrame m ∈ GoMap.keys r.2.frames) ∧
        r.1 = acc ++ methods.map fun m => (GoMap.keys r.2.frames).indexOf (methodFrame m) := by
  induction methods with
  | nil =>
    intro acc ft h r hr
    simp only [List.foldl_nil] at hr
    subst hr
    exact ⟨h, List.prefix_refl _, by simp, by simp⟩
  | cons m ms ih =>
    intro acc ft h r hr
    simp only [List.foldl_cons] at hr
    have e : lookupMethod (acc, ft) m =
        (acc ++ [(GoMap.insertOrGet ft.frames (methodFrame m)).1],
          ⟨(GoMap.insertOrGet ft.frames (methodFrame m)).2⟩) := by
      simp [lookupMethod, FrameTable.frameLookup_eq]
    rw [e] at hr
    have h1 := GoMap.isTable_insertOrGet h (methodFrame m)
    have hp1 := GoMap.keys_prefix_insertOrGet h (methodFrame m)
    obtain ⟨hm1, hi1⟩ := GoMap.insertOrGet_fst h (methodFrame m)
    obtain ⟨hT, hP, hM, hR⟩ := ih _ ⟨(GoMap.insertOrGet ft.frames (methodFrame m)).2⟩ h1 r hr
    refine ⟨hT, hp1.trans hP, ?_, ?_⟩
    · intro m' hm'
      rcases List.mem_cons.1 hm' with rfl | h'
      · exact hP.subset hm1
      · exact hM m' h'
    · rw [hR, List.map_cons, hi1, indexOf_of_prefix hP hm1]
      simp

theorem thread_set (out : Iteration2Format) (tid key : String) (l : List Iteration2Event)
    (T : Iteration2TimeRange) :
    ({ out with Threads := GoMap.set out.Threads tid l, TimeRange := T } :
        Iteration2Format).thread key = if tid = key then l else out.thread key := by
  unfold Iteration2Format.thread
  simp only [GoMap.get?_set]
  split <;> rfl

theorem mkInterval_congr (F F' : List Frame) (events : List StackEvent) (p : Nat × StackEvent)
    (hF : F <+: F') (hm : ∀ m ∈ innerLabels p.2, methodFrame m ∈ F) :
    mkInterval F' events p = mkInterval F events p := by
  unfold mkInterval
  unfold innerLabels at hm
  split
  · rfl
  · rename_i label rest heq
    rw [heq] at hm
    congr 2
    exact List.map_congr_left fun m hmem => indexOf_of_prefix hF (hm m (by simpa using hmem))

theorem toList_append_filterMap {α β : Type} (f : α → Option β) (a : α) (l : List α) :
    (f a).toList ++ l.filterMap f = (a :: l).filterMap f := by
  rw [List.filterMap_cons]
  cases f a <;> rfl

/-- One snapshot of the interval builder: the frame table only grows, the
thread of the context gains the snapshot's interval (if any), the other
threads stay, and the range end becomes the maximum with the bounded end. -/
theorem buildStep_spec (tid : String) (events : List StackEvent) (s : BuildState)
    (p : Nat × StackEvent) (h : GoMap.IsTable s.2.frames) :
    ∀ s', buildStep tid events s p = s' →
      GoMap.IsTable s'.2.frames ∧
      GoMap.keys s.2.frames <+: GoMap.keys s'.2.frames ∧
      (∀ m ∈ innerLabels p.2, methodFrame m ∈ GoMap.keys s'.2.frames) ∧
      s'.1.thread tid =
        s.1.thread tid ++ (mkInterval (GoMap.keys s'.2.frames) events p).toList ∧
      (∀ key, key ≠ tid → s'.1.thread key = s.1.thread key) ∧
      s'.1.TimeRange.EndNS = (boundedEnd events p).toList.foldl max s.1.TimeRange.EndNS ∧
      s'.1.TimeRange.StartNS = s.1.TimeRange.StartNS := by
  intro s' hs'
  unfold buildStep at hs'
  cases hstk : p.2.Stack.getD [] with
  | nil =>
    simp only [hstk] at hs'
    subst hs'
    refine ⟨h, List.prefix_refl _, ?_, ?_, fun _ _ => rfl, ?_, rfl⟩
    · simp [innerLabels, hstk]
    · simp [mkInterval, hstk]
    · simp [boundedEnd, hstk]
  | cons label rest =>
    simp only [hstk] at hs'
    obtain ⟨hT, hP, hM, hR⟩ := foldl_lookupMethod rest [] s.2 h (lookupMethods s.2 rest) rfl
    subst hs'
    refine ⟨hT, hP, ?_, ?_, ?_, ?_, rfl⟩
    · simpa [innerLabels, hstk] using hM
    · rw [thread_set, if_pos rfl]
      simp only [mkInterval, hstk, Option.toList, endOf]
      rw [hR]
      rfl
    · intro key hkey
      rw [thread_set, if_neg (fun e => hkey e.symm)]
    · simp only [boundedEnd, hstk]
      cases events[p.1 + 1]? with
      | none => rfl
      | some nx =>
        simp only [Option.map_some', Option.toList, List.foldl_cons, List.foldl_nil, max_def]
        split_ifs <;> omega

/-- The inner loop over a list of positions of one context. -/
theorem foldl_buildStep (tid : String) (events : List StackEvent)
    (ps : List (Nat × StackEvent)) :
    ∀ (s : BuildState), GoMap.IsTable s.2.frames →
      ∀ s', ps.foldl (buildStep tid events) s = s' →
        GoMap.IsTable s'.2.frames ∧
        GoMap.keys s.2.frames <+: GoMap.keys s'.2.frames ∧
        (∀ p ∈ ps, ∀ m ∈ innerLabels p.2, methodFrame m ∈ GoMap.keys s'.2.frames) ∧
        s'.1.thread tid =
          s.1.thread tid ++ ps.filterMap (mkInterval (GoMap.keys s'.2.frames) events) ∧
        (∀ key, key ≠ tid → s'.1.thread key = s.1.thread key) ∧
        s'.1.TimeRange.EndNS =
          (ps.filterMap (boundedEnd events)).foldl max s.1.TimeRange.EndNS ∧
        s'.1.TimeRange.StartNS = s.1.TimeRange.StartNS := by
  induction ps with
  | nil =>
    intro s h s' hs'
    simp only [List.foldl_nil] at hs'
    subst hs'
    exact ⟨h, List.prefix_refl _, by simp, by simp, fun _ _ => rfl, rfl, rfl⟩
  | cons p ps ih =>
    intro s h s' hs'
    simp only [List.foldl_cons] at hs'
    obtain ⟨hT1, hP1, hM1, hTh1, hO1, hE1, hS1⟩ := buildStep_spec tid events s p h _ rfl
    obtain ⟨hT, hP, hM, hTh, hO, hE, hS⟩ := ih _ hT1 s' hs'
    refine ⟨hT, hP1.trans hP, ?_, ?_, ?_, ?_, hS.trans hS1⟩
    · intro q hq m hm
      rcases List.mem_cons.1 hq with rfl | hq
      · exact hP.subset (hM1 m hm)
      · exact hM q hq m hm
    · rw [hTh, hTh1, List.append_assoc, ← mkInterval_congr _ _ events p hP hM1,
        toList_append_filterMap]
    · intro key hkey
      rw [hO key hkey, hO1 key hkey]
    · rw [hE, hE1, ← List.foldl_append, toList_append_filterMap]

theorem intervalsOf_congr (F F' : List Frame) (events : List StackEvent) (hF : F <+: F')
    (hm : ∀ se ∈ events, ∀ m ∈ innerLabels se, methodFrame m ∈ F) :
    intervalsOf F' events = intervalsOf F events := by
  unfold intervalsOf
  exact List.filterMap_congr fun p hp =>
    mkInterval_congr F F' events p hF (hm p.2 (List.snd_mem_of_mem_enum hp))

/-- The inner loop for one context. -/
theorem buildContext_spec (s : BuildState) (q : Int × List StackEvent)
    (h : GoMap.IsTable s.2.frames) :
    ∀ s', buildContext s q = s' →
      GoMap.IsTable s'.2.frames ∧
      GoMap.keys s.2.frames <+: GoMap.keys s'.2.frames ∧
      (∀ se ∈ q.2, ∀ m ∈ innerLabels se, methodFrame m ∈ GoMap.keys s'.2.frames) ∧
      s'.1.thread (threadID q.1) =
        s.1.thread (threadID q.1) ++ intervalsOf (GoMap.keys s'.2.frames) q.2 ∧
      (∀ key, key ≠ threadID q.1 → s'.1.thread key = s.1.thread key) ∧
      s'.1.TimeRange.EndNS = (boundedEnds q.2).foldl max s.1.TimeRange.EndNS ∧
      s'.1.TimeRange.StartNS = s.1.TimeRange.StartNS := by
  intro s' hs'
  obtain ⟨hT, hP, hM, hTh, hO, hE, hS⟩ :=
    foldl_buildStep (threadID q.1) q.2 q.2.enum s h s' hs'
  refine ⟨hT, hP, ?_, hTh, hO, hE, hS⟩
  intro se hse m hm
  obtain ⟨i, hi⟩ := List.mem_iff_getElem?.1 hse
  exact hM (i, se) (List.mk_mem_enum_iff_getElem?.2 hi) m hm

/-- The outer loop over a list of contexts with distinct ids. -/
theorem foldl_buildContext (cs : List (Int × List StackEvent)) :
    (cs.map Prod.fst).Nodup →
    ∀ (s : BuildState), GoMap.IsTable s.2.frames →
      ∀ s', cs.foldl buildContext s = s' →
        GoMap.IsTable s'.2.frames ∧
        GoMap.keys s.2.frames <+: GoMap.keys s'.2.frames ∧
        (∀ q ∈ cs,
          (∀ se ∈ q.2, ∀ m ∈ innerLabels se, methodFrame m ∈ GoMap.keys s'.2.frames) ∧
          s'.1.thread (threadID q.1) =
            s.1.thread (threadID q.1) ++ intervalsOf (GoMap.keys s'.2.frames) q.2) ∧
        (∀ key, (∀ q ∈ cs, key ≠ threadID q.1) → s'.1.thread key = s.1.thread key) ∧
        s'.1.TimeRange.EndNS = (allBoundedEnds cs).foldl max s.1.TimeRange.EndNS ∧
        s'.1.TimeRange.StartNS = s.1.TimeRange.StartNS := by
  induction cs with
  | nil =>
    intro _ s h s' hs'
    simp only [List.foldl_nil] at hs'
    subst hs'
    exact ⟨h, List.prefix_refl _, by simp, fun _ _ => rfl, rfl, rfl⟩
  | cons q cs ih =>
    intro hnd s h s' hs'
    simp only [List.map_cons, List.nodup_cons] at hnd
    simp only [List.foldl_cons] at hs'
    obtain ⟨hT1, hP1, hM1, hTh1, hO1, hE1, hS1⟩ := buildContext_spec s q h _ rfl
    obtain ⟨hT, hP, hQ, hO, hE, hS⟩ := ih hnd.2 _ hT1 s' hs'
    have hfresh : ∀ q' ∈ cs, threadID q.1 ≠ threadID q'.1 := by
      intro q' hq' e
      exact hnd.1 (by rw [threadID_injective _ _ e]; exact List.mem_map_of_mem _ hq')
    refine ⟨hT, hP1.trans hP, ?_, ?_, ?_, hS.trans hS1⟩
    · intro q' hq'
      rcases List.mem_cons.1 hq' with rfl | hq'
      · refine ⟨fun se hse m hm => hP.subset (hM1 se hse m hm), ?_⟩
        rw [hO _ hfresh, hTh1, intervalsOf_congr _ _ _ hP hM1]
      · refine ⟨(hQ q' hq').1, ?_⟩
        rw [(hQ q' hq').2, hO1 _ (fun e => hfresh q' hq' e.symm)]
    · intro key hkey
      rw [hO key (fun q' hq' => hkey q' (List.mem_cons_of_mem _ hq')),
        hO1 key (hkey q (List.mem_cons_self _ _))]
    · rw [hE, hE1, ← List.foldl_append]
      rfl

/-! ## Export of the frame table -/

theorem RowDecodes.mono {S S' : List String} {row : List Int} {f : Frame}
    (h : RowDecodes S row f) (hS : S <+: S') : RowDecodes S' row f := by
  obtain ⟨a, b, c, m, hrow, ha, hb, hc, hm⟩ := h
  exact ⟨a, b, c, m, hrow, GoMap.getElem?_of_prefix hS ha, GoMap.getElem?_of_prefix hS hb,
    GoMap.getElem?_of_prefix hS hc, GoMap.getElem?_of_prefix hS hm⟩

theorem StringTable.Lookup_spec (t : StringTable) (str : String)
    (h : GoMap.IsTable t.strings) :
    GoMap.IsTable (t.Lookup str).2.strings ∧
    GoMap.keys t.strings <+: GoMap.keys (t.Lookup str).2.strings ∧
    (GoMap.keys (t.Lookup str).2.strings)[(t.Lookup str).1]? = some str := by
  rw [StringTable.Lookup_eq]
  exact ⟨GoMap.isTable_insertOrGet h str, GoMap.keys_prefix_insertOrGet h str,
    GoMap.getElem?_insertOrGet h str⟩

/-- One iteration of the export loop: four lookups, then the row is stored. -/
theorem framesStep_spec (acc : List (List Int) × StringTable) (p : Frame × Nat)
    (h : GoMap.IsTable acc.2.strings) (hp : p.2 < acc.1.length) :
    ∃ row st, framesStep acc p = some (acc.1.set p.2 row, st) ∧
      GoMap.IsTable st.strings ∧
      GoMap.keys acc.2.strings <+: GoMap.keys st.strings ∧
      RowDecodes (GoMap.keys st.strings) row p.1 := by
  obtain ⟨h1, p1, e1⟩ := StringTable.Lookup_spec acc.2 p.1.Filename h
  obtain ⟨h2, p2, e2⟩ := StringTable.Lookup_spec _ p.1.Package h1
  obtain ⟨h3, p3, e3⟩ := StringTable.Lookup_spec _ p.1.Class h2
  obtain ⟨h4, p4, e4⟩ := StringTable.Lookup_spec _ p.1.Method h3
  refine ⟨[((acc.2.Lookup p.1.Filename).1 : Int),
      (((acc.2.Lookup p.1.Filename).2.Lookup p.1.Package).1 : Int),
      ((((acc.2.Lookup p.1.Filename).2.Lookup p.1.Package).2.Lookup p.1.Class).1 : Int),
      (((((acc.2.Lookup p.1.Filename).2.Lookup p.1.Package).2.Lookup p.1.Class).2.Lookup
        p.1.Method).1 : Int), p.1.Line],
    ((((acc.2.Lookup p.1.Filename).2.Lookup p.1.Package).2.Lookup p.1.Class).2.Lookup
      p.1.Method).2, ?_, h4, p1.trans (p2.trans (p3.trans p4)), ?_⟩
  · unfold framesStep
    simp only [setIdx, if_pos hp, Option.map_some']
  · exact ⟨_, _, _, _, rfl, GoMap.getElem?_of_prefix (p2.trans (p3.trans p4)) e1,
      GoMap.getElem?_of_prefix (p3.trans p4) e2, GoMap.getElem?_of_prefix p4 e3, e4⟩

/-- The export loop over entries with distinct in-range indices never fails;
every entry's row resolves to its frame through the final string table. -/
theorem foldlM_framesStep (es : List (Frame × Nat)) :
    ∀ (acc : List (List Int) × StringTable), GoMap.IsTable acc.2.strings →
      (∀ p ∈ es, p.2 < acc.1.length) → (es.map Prod.snd).Nodup →
      ∃ res, es.foldlM framesStep acc = some res ∧
        GoMap.IsTable res.2.strings ∧
        GoMap.keys acc.2.strings <+: GoMap.keys res.2.strings ∧
        res.1.length = acc.1.length ∧
        (∀ p ∈ es, ∃ row, res.1[p.2]? = some row ∧
          RowDecodes (GoMap.keys res.2.strings) row p.1) ∧
        ∀ i, (∀ p ∈ es, p.2 ≠ i) → res.1[i]? = acc.1[i]? := by
  induction es with
  | nil =>
    intro acc h _ _
    exact ⟨acc, rfl, h, List.prefix_refl _, rfl, by simp, by simp⟩
  | cons p es ih =>
    intro acc h hlt hnd
    have hp : p.2 < acc.1.length := hlt p (List.mem_cons_self _ _)
    simp only [List.map_cons, List.nodup_cons, List.mem_map, not_exists, not_and] at hnd
    obtain ⟨row, st, hstep, hT1, hP1, hD1⟩ := framesStep_spec acc p h hp
    obtain ⟨res, hres, hT, hP, hlen, hmem, hother⟩ := ih (acc.1.set p.2 row, st) hT1
      (fun q hq => by simpa using hlt q (List.mem_cons_of_mem _ hq)) hnd.2
    refine ⟨res, ?_, hT, hP1.trans hP, by simpa using hlen, ?_, ?_⟩
    · rw [List.foldlM_cons, hstep]
      exact hres
    · intro q hq
      rcases List.mem_cons.1 hq with rfl | hq
      · refine ⟨row, ?_, hD1.mono hP⟩
        rw [hother q.2 (fun r hr => hnd.1 r hr)]
        simp only [List.getElem?_set]
        simp [hp]
      · exact hmem q hq
    · intro i hi
      rw [hother i (fun r hr => hi r (List.mem_cons_of_mem _ hr))]
      simp only [List.getElem?_set]
      simp [hi p (List.mem_cons_self _ _)]

/-- `Frames` on a dictionary frame table succeeds for every enumeration
order: one row per frame, at the frame's index, resolving to the frame through
the string table after the call. -/
theorem FrameTable.Frames_spec (o : MapOrder Frame Nat) (t : FrameTable)
    (ht : GoMap.IsTable t.frames) :
    ∃ rows st, t.Frames o NewStringTable = some (rows, st) ∧
      GoMap.IsTable st.strings ∧
      rows.length = (GoMap.keys t.frames).length ∧
      ∀ (i : Nat) (f : Frame), (GoMap.keys t.frames)[i]? = some f →
        ∃ row, rows[i]? = some row ∧ RowDecodes (GoMap.keys st.strings) row f := by
  have hperm := o.perm t.frames
  obtain ⟨res, hres, hT, -, hlen, hmem, -⟩ := foldlM_framesStep (o.enum t.frames)
    (List.replicate t.frames.len [], NewStringTable) GoMap.isTable_nil
    (fun p hp => by simpa [GoMap.len] using ht.snd_lt (hperm.subset hp))
    ((hperm.map Prod.snd).nodup_iff.2 ht.nodup_snd)
  refine ⟨res.1, res.2, hres, hT, ?_, ?_⟩
  · rw [hlen]
    simp [GoMap.len, GoMap.keys]
  · intro i f hif
    exact hmem (f, i) (hperm.symm.subset ((ht.mem_iff f i).2 hif))

/-! ## The whole transformation -/

/-- What `Run` returns once the first loop has completed with the context map
`stks`: it does not fault, each context's thread holds the intervals of its
snapshots with frame indices read off the final frame list `F`, the exported
rows resolve to the frames of `F` through the exported strings, and the range
end is the running maximum, from 0, of the bounded interval ends. -/
theorem Run_spec (oc : MapOrder Int (List StackEvent)) (ofr : MapOrder Frame Nat)
    (os : MapOrder String Nat) (evs : List TraceEvent) (stks : Stacks)
    (hrec : reconstruct evs = some stks) :
    ∃ out F, Run oc ofr os evs = some out ∧ F.Nodup ∧
      (∀ c events, (c, events) ∈ stks →
        out.thread (threadID c) = intervalsOf F events ∧
        ∀ se ∈ events, ∀ m ∈ innerLabels se, methodFrame m ∈ F) ∧
      (∀ key, (∀ c ∈ GoMap.keys stks, key ≠ threadID c) → out.thread key = []) ∧
      out.Frames.length = F.length ∧
      (∀ (i : Nat) (f : Frame), F[i]? = some f →
        ∃ row, out.Frames[i]? = some row ∧ RowDecodes out.Strings row f) ∧
      out.TimeRange.EndNS = (allBoundedEnds (oc.enum stks)).foldl max 0 ∧
      out.TimeRange.StartNS = 0 := by
  have hnd := reconstruct_nodup evs stks hrec
  have hperm := oc.perm stks
  have hnd2 : ((oc.enum stks).map Prod.fst).Nodup := (hperm.map Prod.fst).nodup_iff.2 hnd
  obtain ⟨hT, -, hQ, hO, hE, hS⟩ := foldl_buildContext (oc.enum stks) hnd2
    (initialOut, NewFrameTable) GoMap.isTable_nil (buildIntervals oc stks) rfl
  obtain ⟨rows, st, hfr, hTs, hlen, hrows⟩ :=
    FrameTable.Frames_spec ofr (buildIntervals oc stks).2 hT
  have hstr := StringTable.Strings_of_isTable os st hTs
  refine ⟨{ (buildIntervals oc stks).1 with Frames := rows, Strings := GoMap.keys st.strings },
    GoMap.keys (buildIntervals oc stks).2.frames, ?_, hT.2, ?_, ?_, hlen, hrows, hE, hS⟩
  · unfold Run
    rw [hrec, Option.some_bind]
    simp only [hfr, Option.some_bind, hstr, Option.map_some']
  · intro c events hmem
    obtain ⟨h1, h2⟩ := hQ (c, events) (hperm.symm.subset hmem)
    exact ⟨h2, h1⟩
  · intro key hkey
    refine hO key fun q hq => hkey q.1 ?_
    exact List.mem_map_of_mem Prod.fst (hperm.subset hq)

/-- `Run` faults only when the first loop faults. -/
theorem reconstruct_of_Run (oc : MapOrder Int (List StackEvent)) (ofr : MapOrder Frame Nat)
    (os : MapOrder String Nat) (evs : List TraceEvent) (out : Iteration2Format)
    (h : Run oc ofr os evs = some out) : ∃ stks, reconstruct evs = some stks := by
  unfold Run at h
  obtain ⟨stks, hs, -⟩ := Option.bind_eq_some.1 h
  exact ⟨stks, hs⟩

/-- The thread of every context id, present in the context map or not. -/
theorem thread_of_context (oc : MapOrder Int (List StackEvent)) (ofr : MapOrder Frame Nat)
    (os : MapOrder String Nat) (evs : List TraceEvent) (stks : Stacks)
    (hrec : reconstruct evs = some stks) :
    ∃ out F, Run oc ofr os evs = some out ∧ F.Nodup ∧
      (∀ c, out.thread (threadID c) = intervalsOf F (snapshotsOf stks c) ∧
        ∀ se ∈ snapshotsOf stks c, ∀ m ∈ innerLabels se, methodFrame m ∈ F) ∧
      (∀ (i : Nat) (f : Frame), F[i]? = some f →
        ∃ row, out.Frames[i]? = some row ∧ RowDecodes out.Strings row f) := by
  obtain ⟨out, F, hrun, hF, hctx, habs, -, hrows, -, -⟩ := Run_spec oc ofr os evs stks hrec
  refine ⟨out, F, hrun, hF, fun c => ?_, hrows⟩
  have hnd := reconstruct_nodup evs stks hrec
  by_cases hc : c ∈ GoMap.keys stks
  · obtain ⟨events, hev⟩ := GoMap.get?_eq_some_of_mem stks c hc
    have hmem := GoMap.mem_of_get?_eq_some stks c events hev
    rw [snapshotsOf_of_mem stks hnd c events hmem]
    exact hctx c events hmem
  · have hnone : snapshotsOf stks c = [] := by
      unfold snapshotsOf
      rw [(GoMap.get?_eq_none_iff stks c).2 hc]
      rfl
    rw [hnone]
    refine ⟨?_, fun se hse => by cases hse⟩
    rw [habs (threadID c) fun c' hc' e => hc (by rw [threadID_injective _ _ e]; exact hc')]
    rfl

/-! ## Intervals and snapshots -/

theorem mkInterval_of_not_emits (F : List Frame) (events : List StackEvent)
    (p : Nat × StackEvent) (h : emits p.2 = false) : mkInterval F events p = none := by
  unfold emits at h
  simp only [ne_eq, decide_not, Bool.not_eq_false', decide_eq_true_eq] at h
  simp [mkInterval, h]

theorem mkInterval_of_emits (F : List Frame) (events : List StackEvent)
    (p : Nat × StackEvent) (h : emits p.2 = true) :
    ∃ label rest, p.2.Stack.getD [] = label :: rest ∧
      mkInterval F events p =
        some ⟨p.2.TimeNS, endOf events p.1, label,
          rest.map fun m => F.indexOf (methodFrame m)⟩ := by
  unfold emits at h
  simp only [ne_eq, decide_not, Bool.not_eq_true', decide_eq_false_iff_not] at h
  cases hs : p.2.Stack.getD [] with
  | nil => exact absurd hs h
  | cons label rest => exact ⟨label, rest, rfl, by simp [mkInterval, hs]⟩

/-- A projection of the emitted intervals is the same projection of the
emitting positions. -/
theorem map_filterMap_mkInterval {β : Type} (F : List Frame) (events : List StackEvent)
    (g : Iteration2Event → β) (k : Nat × StackEvent → β)
    (hgk : ∀ p iv, mkInterval F events p = some iv → g iv = k p)
    (ps : List (Nat × StackEvent)) :
    (ps.filterMap (mkInterval F events)).map g = (ps.filter fun p => emits p.2).map k := by
  induction ps with
  | nil => rfl
  | cons p ps ih =>
    cases he : emits p.2 with
    | false =>
      rw [List.filterMap_cons, mkInterval_of_not_emits F events p he,
        List.filter_cons_of_neg (by simp [he])]
      exact ih
    | true =>
      obtain ⟨label, rest, -, hmk⟩ := mkInterval_of_emits F events p he
      rw [List.filterMap_cons, hmk, List.filter_cons_of_pos (by simp [he])]
      simp only [List.map_cons, ih]
      rw [hgk p _ hmk]

theorem filter_enum_map_snd {β : Type} (events : List StackEvent) (k : StackEvent → β) :
    (events.enum.filter fun p => emits p.2).map (fun p => k p.2) =
      (events.filter emits).map k := by
  have h1 : (events.enum.filter fun p => emits p.2).map (fun p => k p.2) =
      ((events.enum.filter (emits ∘ Prod.snd)).map Prod.snd).map k := by
    rw [List.map_map]
    rfl
  rw [h1, ← List.filter_map, List.enum_map_snd]

/-- C3: for every context, the intervals under the thread key `"G" + contextId`
are, in snapshot order, one per snapshot of the context with a non-empty
stack; each has `startNs` equal to the snapshot's `timeNanos` and a frame stack
of length (stack depth - 1). -/
theorem intervals_per_snapshot (oc : MapOrder Int (List StackEvent))
    (ofr : MapOrder Frame Nat) (os : MapOrder String Nat) (evs : List TraceEvent)
    (out : Iteration2Format) (h : Run oc ofr os evs = some out) :
    ∃ stks, reconstruct evs = some stks ∧
      ∀ c : Int, (out.thread ("G" ++ toString c)).map (fun iv => (iv.StartNS, iv.Stack.length)) =
        ((snapshotsOf stks c).filter fun se => decide (se.Stack.getD [] ≠ [])).map
          fun se => (se.TimeNS, (se.Stack.getD []).length - 1) := by
  obtain ⟨stks, hrec⟩ := reconstruct_of_Run oc ofr os evs out h
  obtain ⟨out2, F, hrun, -, hctx, -⟩ := thread_of_context oc ofr os evs stks hrec
  rw [h] at hrun
  cases hrun
  refine ⟨stks, hrec, fun c => ?_⟩
  have e := (hctx c).1
  unfold threadID at e
  rw [e]
  unfold intervalsOf
  rw [map_filterMap_mkInterval F (snapshotsOf stks c) _
    (fun p => (p.2.TimeNS, (p.2.Stack.getD []).length - 1))]
  · exact filter_enum_map_snd (snapshotsOf stks c)
      (fun se => (se.TimeNS, (se.Stack.getD []).length - 1))
  · intro p iv hiv
    cases he : emits p.2 with
    | false =>
      rw [mkInterval_of_not_emits F _ p he] at hiv
      cases hiv
    | true =>
      obtain ⟨label, rest, hs, hmk⟩ := mkInterval_of_emits F (snapshotsOf stks c) p he
      rw [hmk] at hiv
      cases hiv
      simp [hs]

/-- C3 on the end-to-end example: three snapshots of context 1 have a
non-empty stack, so thread `G1` has three intervals. -/
theorem intervals_per_snapshot_witness :
    ∃ stks, reconstruct nestedExample = some stks ∧
      ∀ c : Int,
        ((⟨[("G1", [⟨0, 5000, "f", []⟩, ⟨5000, 10000, "f", [0]⟩, ⟨10000, 12000, "f", []⟩])],
            ⟨0, 12000⟩, [[0, 0, 0, 1, 0]], ["", "g"], "1.2"⟩ : Iteration2Format).thread
          ("G" ++ toString c)).map (fun iv => (iv.StartNS, iv.Stack.length)) =
        ((snapshotsOf stks c).filter fun se => decide (se.Stack.getD [] ≠ [])).map
          fun se => (se.TimeNS, (se.Stack.getD []).length - 1) :=
  intervals_per_snapshot (MapOrder.insertion _ _) (MapOrder.insertion _ _)
    (MapOrder.insertion _ _) nestedExample _ (by decide!)

/-- C4: when the first loop has completed, `Run` completes, and in every
thread the interval emitted from the snapshot at position `i` has `endNs`
equal to the `timeNanos` of the snapshot at position `i + 1` when that exists
(empty stack or not) and equal to 0 when the snapshot is the context's last. -/
theorem interval_end (oc : MapOrder Int (List StackEvent)) (ofr : MapOrder Frame Nat)
    (os : MapOrder String Nat) (evs : List TraceEvent) (stks : Stacks)
    (hrec : reconstruct evs = some stks) :
    ∃ out, Run oc ofr os evs = some out ∧
      ∀ c : Int, (out.thread ("G" ++ toString c)).map (fun iv => (iv.StartNS, iv.EndNS)) =
        ((snapshotsOf stks c).enum.filter fun p => decide (p.2.Stack.getD [] ≠ [])).map
          fun p => (p.2.TimeNS,
            match (snapshotsOf stks c)[p.1 + 1]? with
            | some nx => nx.TimeNS
            | none => 0) := by
  obtain ⟨out, F, hrun, -, hctx, -⟩ := thread_of_context oc ofr os evs stks hrec
  refine ⟨out, hrun, fun c => ?_⟩
  have e := (hctx c).1
  unfold threadID at e
  rw [e]
  unfold intervalsOf
  rw [map_filterMap_mkInterval F (snapshotsOf stks c) _
    (fun p => (p.2.TimeNS, endOf (snapshotsOf stks c) p.1))]
  · rfl
  · intro p iv hiv
    cases he : emits p.2 with
    | false =>
      rw [mkInterval_of_not_emits F _ p he] at hiv
      cases hiv
    | true =>
      obtain ⟨label, rest, hs, hmk⟩ := mkInterval_of_emits F (snapshotsOf stks c) p he
      rw [hmk] at hiv
      cases hiv
      rfl

/-- C4 on an input that leaves the stack of context 1 non-empty: the last
interval is open-ended, with `endNs = 0`. -/
theorem interval_end_witness :
    ∃ out, Run (MapOrder.insertion _ _) (MapOrder.insertion _ _) (MapOrder.insertion _ _)
        overflowExample = some out ∧
      ∀ c : Int, (out.thread ("G" ++ toString c)).map (fun iv => (iv.StartNS, iv.EndNS)) =
        ((snapshotsOf
            [(1, [⟨0, some ["f"]⟩, ⟨1000, some ["f", "g"]⟩, ⟨0, some ["f", "g", "h"]⟩])]
            c).enum.filter fun p => decide (p.2.Stack.getD [] ≠ [])).map
          fun p => (p.2.TimeNS,
            match (snapshotsOf
              [(1, [⟨0, some ["f"]⟩, ⟨1000, some ["f", "g"]⟩, ⟨0, some ["f", "g", "h"]⟩])]
              c)[p.1 + 1]? with
            | some nx => nx.TimeNS
            | none => 0) :=
  interval_end (MapOrder.insertion _ _) (MapOrder.insertion _ _) (MapOrder.insertion _ _)
    overflowExample _ (by decide!)

/-! ## Time range -/

theorem foldl_max_spec (l : List Int) : ∀ a : Int,
    a ≤ l.foldl max a ∧ (∀ b ∈ l, b ≤ l.foldl max a) ∧
    (l.foldl max a = a ∨ l.foldl max a ∈ l) := by
  induction l with
  | nil => intro a; simp
  | cons x l ih =>
    intro a
    obtain ⟨h1, h2, h3⟩ := ih (max a x)
    simp only [List.foldl_cons]
    refine ⟨le_trans (le_max_left a x) h1, ?_, ?_⟩
    · intro b hb
      rcases List.mem_cons.1 hb with rfl | hb
      · exact le_trans (le_max_right a b) h1
      · exact h2 b hb
    · rcases h3 with h3 | h3
      · rcases max_choice a x with hm | hm
        · left
          rw [h3, hm]
        · right
          rw [h3, hm]
          exact List.mem_cons_self _ _
      · right
        exact List.mem_cons_of_mem _ h3

theorem mem_boundedEnds (events : List StackEvent) (b : Int) :
    b ∈ boundedEnds events ↔ ∃ (i : Nat) (se nx : StackEvent),
      events[i]? = some se ∧ se.Stack.getD [] ≠ [] ∧ events[i + 1]? = some nx ∧
      nx.TimeNS = b := by
  unfold boundedEnds
  rw [List.mem_filterMap]
  constructor
  · rintro ⟨⟨i, se⟩, hp, hb⟩
    have hi := List.mk_mem_enum_iff_getElem?.1 hp
    unfold boundedEnd at hb
    simp only at hb
    cases hs : se.Stack.getD [] with
    | nil => simp [hs] at hb
    | cons label rest =>
      simp only [hs, Option.map_eq_some'] at hb
      obtain ⟨nx, hnx, hb⟩ := hb
      exact ⟨i, se, nx, hi, by simp [hs], hnx, hb⟩
  · rintro ⟨i, se, nx, hi, hs, hnx, hb⟩
    refine ⟨(i, se), List.mk_mem_enum_iff_getElem?.2 hi, ?_⟩
    unfold boundedEnd
    simp only
    cases hs2 : se.Stack.getD [] with
    | nil => exact absurd hs2 hs
    | cons label rest => simp [hnx, hb]

theorem mem_allBoundedEnds (cs : List (Int × List StackEvent)) (b : Int) :
    b ∈ allBoundedEnds cs ↔ ∃ q ∈ cs, b ∈ boundedEnds q.2 := by
  induction cs with
  | nil => simp [allBoundedEnds]
  | cons q cs ih => simp [allBoundedEnds, ih]

/-- The bounded interval ends of a context map with distinct keys, however
the map is enumerated. -/
theorem isBoundedEnd_iff (stks : Stacks) (hnd : (GoMap.keys stks).Nodup)
    (cs : List (Int × List StackEvent)) (hperm : cs.Perm stks) (b : Int) :
    IsBoundedEnd stks b ↔ b ∈ allBoundedEnds cs := by
  rw [mem_allBoundedEnds]
  constructor
  · rintro ⟨c, i, se, nx, hi, hs, hnx, hb⟩
    by_cases hc : c ∈ GoMap.keys stks
    · obtain ⟨events, hev⟩ := GoMap.get?_eq_some_of_mem stks c hc
      have hmem := GoMap.mem_of_get?_eq_some stks c events hev
      rw [snapshotsOf_of_mem stks hnd c events hmem] at hi hnx
      exact ⟨(c, events), hperm.symm.subset hmem,
        (mem_boundedEnds events b).2 ⟨i, se, nx, hi, hs, hnx, hb⟩⟩
    · have hnone : snapshotsOf stks c = [] := by
        unfold snapshotsOf
        rw [(GoMap.get?_eq_none_iff stks c).2 hc]
        rfl
      rw [hnone] at hi
      simp at hi
  · rintro ⟨⟨c, events⟩, hq, hb⟩
    obtain ⟨i, se, nx, hi, hs, hnx, hb⟩ := (mem_boundedEnds events b).1 hb
    refine ⟨c, i, se, nx, ?_, hs, ?_, hb⟩
    · rw [snapshotsOf_of_mem stks hnd c events (hperm.subset hq)]
      exact hi
    · rw [snapshotsOf_of_mem stks hnd c events (hperm.subset hq)]
      exact hnx

/-- C5 (amended): `timeRange.endNs` is the maximum of 0 and the `endNs` of all
emitted bounded intervals across all contexts: it is non-negative, at least
every bounded `endNs`, and either 0 or one of them; it is one of them, hence
their maximum, as soon as one bounded `endNs` is non-negative. -/
theorem timeRange_end (oc : MapOrder Int (List StackEvent)) (ofr : MapOrder Frame Nat)
    (os : MapOrder String Nat) (evs : List TraceEvent) (out : Iteration2Format)
    (h : Run oc ofr os evs = some out) :
    ∃ stks, reconstruct evs = some stks ∧
      0 ≤ out.TimeRange.EndNS ∧
      (∀ b, IsBoundedEnd stks b → b ≤ out.TimeRange.EndNS) ∧
      (out.TimeRange.EndNS = 0 ∨ IsBoundedEnd stks out.TimeRange.EndNS) ∧
      ((∃ b, IsBoundedEnd stks b ∧ 0 ≤ b) → IsBoundedEnd stks out.TimeRange.EndNS) := by
  obtain ⟨stks, hrec⟩ := reconstruct_of_Run oc ofr os evs out h
  obtain ⟨out2, F, hrun, -, -, -, -, -, hE, -⟩ := Run_spec oc ofr os evs stks hrec
  rw [h] at hrun
  cases hrun
  have hnd := reconstruct_nodup evs stks hrec
  have hiff := isBoundedEnd_iff stks hnd (oc.enum stks) (oc.perm stks)
  obtain ⟨h1, h2, h3⟩ := foldl_max_spec (allBoundedEnds (oc.enum stks)) 0
  rw [← hE] at h1 h2 h3
  have h4 : out.TimeRange.EndNS = 0 ∨ IsBoundedEnd stks out.TimeRange.EndNS := by
    rcases h3 with h3 | h3
    · exact Or.inl h3
    · exact Or.inr ((hiff _).2 h3)
  refine ⟨stks, hrec, h1, fun b hb => h2 b ((hiff b).1 hb), h4, ?_⟩
  rintro ⟨b, hb, hb0⟩
  rcases h4 with h4 | h4
  · have hle := h2 b ((hiff b).1 hb)
    have hb2 : b = out.TimeRange.EndNS := by omega
    rw [← hb2]
    exact hb
  · exact h4

/-- C5 on the end-to-end example: the range end 12000 is the largest bounded
interval end. -/
theorem timeRange_end_witness :
    ∃ stks, reconstruct nestedExample = some stks ∧
      (0 : Int) ≤ 12000 ∧
      (∀ b, IsBoundedEnd stks b → b ≤ 12000) ∧
      ((12000 : Int) = 0 ∨ IsBoundedEnd stks 12000) ∧
      ((∃ b, IsBoundedEnd stks b ∧ 0 ≤ b) → IsBoundedEnd stks 12000) :=
  timeRange_end (MapOrder.insertion _ _) (MapOrder.insertion _ _) (MapOrder.insertion _ _)
    nestedExample
    ⟨[("G1", [⟨0, 5000, "f", []⟩, ⟨5000, 10000, "f", [0]⟩, ⟨10000, 12000, "f", []⟩])],
      ⟨0, 12000⟩, [[0, 0, 0, 1, 0]], ["", "g"], "1.2"⟩ (by decide!)

/-- C5 as stated fails for negative timestamps: the only bounded interval of
the input ends at -5000, yet `timeRange.endNs` stays 0, which is the `endNs` of
no emitted bounded interval. -/
theorem timeRange_end_counterexample :
    ∃ stks out, reconstruct negativeExample = some stks ∧
      Run (MapOrder.insertion _ _) (MapOrder.insertion _ _) (MapOrder.insertion _ _)
        negativeExample = some out ∧
      out.thread "G1" = [⟨-10000, -5000, "f", []⟩] ∧
      IsBoundedEnd stks (-5000) ∧
      out.TimeRange.EndNS = 0 ∧
      ¬ IsBoundedEnd stks out.TimeRange.EndNS :=
  ⟨[(1, [⟨-10000, some ["f"]⟩, ⟨-5000, some []⟩])],
   ⟨[("G1", [⟨-10000, -5000, "f", []⟩])], ⟨0, 0⟩, [], [], "1.2"⟩,
   by decide!, by decide!, by decide!,
   (isBoundedEnd_iff _ (by decide!) _ (List.Perm.refl _) _).2 (by decide!),
   rfl,
   fun hb => absurd ((isBoundedEnd_iff _ (by decide!) _ (List.Perm.refl _) _).1 hb)
     (by decide!)⟩

/-! ## Dictionary decoding -/

theorem forall2_filterMap_mkInterval (F : List Frame) (events : List StackEvent)
    (R : StackEvent → Iteration2Event → Prop) (ps : List (Nat × StackEvent))
    (hR : ∀ p ∈ ps, ∀ iv, mkInterval F events p = some iv → R p.2 iv) :
    List.Forall₂ R ((ps.map Prod.snd).filter emits) (ps.filterMap (mkInterval F events)) := by
  induction ps with
  | nil => exact List.Forall₂.nil
  | cons p ps ih =>
    have ih2 := ih fun q hq => hR q (List.mem_cons_of_mem _ hq)
    cases he : emits p.2 with
    | false =>
      rw [List.filterMap_cons, mkInterval_of_not_emits F events p he, List.map_cons,
        List.filter_cons_of_neg (by simp [he])]
      exact ih2
    | true =>
      obtain ⟨label, rest, -, hmk⟩ := mkInterval_of_emits F events p he
      rw [List.filterMap_cons, hmk, List.map_cons, List.filter_cons_of_pos (by simp [he])]
      exact List.Forall₂.cons (hR p (List.mem_cons_self _ _) _ hmk) ih2

/-- C2: when the transformation completes, the intervals of every thread pair
off, in order, with the context's snapshots that have a non-empty stack; for a
snapshot with stack `l0 :: rest` the interval's label is `l0`, its stack has
as many indices as `rest` has labels, and the `j`-th index selects a frames row
`[a, b, c, m, 0]` whose first three entries resolve to the empty string and
whose fourth resolves to the `j`-th label of `rest` in the exported strings. -/
theorem dictionary_round_trip (oc : MapOrder Int (List StackEvent))
    (ofr : MapOrder Frame Nat) (os : MapOrder String Nat) (evs : List TraceEvent)
    (out : Iteration2Format) (h : Run oc ofr os evs = some out) :
    ∃ stks, reconstruct evs = some stks ∧
      ∀ c : Int, List.Forall₂
        (fun se iv => ∃ l0 rest, se.Stack.getD [] = l0 :: rest ∧ iv.Label = l0 ∧
          iv.Stack.length = rest.length ∧
          ∀ (j : Nat) (l : String), rest[j]? = some l →
            ∃ idx a b c' m : Nat, iv.Stack[j]? = some idx ∧
              out.Frames[idx]? = some [(a : Int), (b : Int), (c' : Int), (m : Int), 0] ∧
              out.Strings[a]? = some "" ∧ out.Strings[b]? = some "" ∧
              out.Strings[c']? = some "" ∧ out.Strings[m]? = some l)
        ((snapshotsOf stks c).filter fun se => decide (se.Stack.getD [] ≠ []))
        (out.thread ("G" ++ toString c)) := by
  obtain ⟨stks, hrec⟩ := reconstruct_of_Run oc ofr os evs out h
  obtain ⟨out2, F, hrun, -, hctx, hrows⟩ := thread_of_context oc ofr os evs stks hrec
  rw [h] at hrun
  cases hrun
  refine ⟨stks, hrec, fun c => ?_⟩
  obtain ⟨hth, hmem⟩ := hctx c
  unfold threadID at hth
  rw [hth]
  have key := forall2_filterMap_mkInterval F (snapshotsOf stks c)
    (fun se iv => ∃ l0 rest, se.Stack.getD [] = l0 :: rest ∧ iv.Label = l0 ∧
      iv.Stack.length = rest.length ∧
      ∀ (j : Nat) (l : String), rest[j]? = some l →
        ∃ idx a b c' m : Nat, iv.Stack[j]? = some idx ∧
          out.Frames[idx]? = some [(a : Int), (b : Int), (c' : Int), (m : Int), 0] ∧
          out.Strings[a]? = some "" ∧ out.Strings[b]? = some "" ∧
          out.Strings[c']? = some "" ∧ out.Strings[m]? = some l)
    (snapshotsOf stks c).enum ?_
  · rw [List.enum_map_snd] at key
    exact key
  · intro p hp iv hiv
    cases he : emits p.2 with
    | false =>
      rw [mkInterval_of_not_emits F _ p he] at hiv
      cases hiv
    | true =>
      obtain ⟨label, rest, hs, hmk⟩ := mkInterval_of_emits F (snapshotsOf stks c) p he
      rw [hmk] at hiv
      cases hiv
      refine ⟨label, rest, hs, rfl, by simp, fun j l hj => ?_⟩
      have hl : l ∈ innerLabels p.2 := by
        unfold innerLabels
        rw [hs]
        exact List.mem_iff_getElem?.2 ⟨j, hj⟩
      have hF := hmem p.2 (List.snd_mem_of_mem_enum hp) l hl
      obtain ⟨row, hrow, a, b, c', m, rfl, ha, hb, hc, hm⟩ :=
        hrows _ _ (List.getElem?_indexOf hF)
      exact ⟨F.indexOf (methodFrame l), a, b, c', m, by simp [hj], hrow, ha, hb, hc, hm⟩

/-- C2 on the end-to-end example. -/
theorem dictionary_round_trip_witness :
    ∃ stks, reconstruct nestedExample = some stks ∧
      ∀ c : Int, List.Forall₂
        (fun se iv => ∃ l0 rest, se.Stack.getD [] = l0 :: rest ∧ iv.Label = l0 ∧
          iv.Stack.length = rest.length ∧
          ∀ (j : Nat) (l : String), rest[j]? = some l →
            ∃ idx a b c' m : Nat, iv.Stack[j]? = some idx ∧
              [[(0 : Int), 0, 0, 1, 0]][idx]? =
                some [(a : Int), (b : Int), (c' : Int), (m : Int), 0] ∧
              ["", "g"][a]? = some "" ∧ ["", "g"][b]? = some "" ∧
              ["", "g"][c']? = some "" ∧ ["", "g"][m]? = some l)
        ((snapshotsOf stks c).filter fun se => decide (se.Stack.getD [] ≠ []))
        ((⟨[("G1", [⟨0, 5000, "f", []⟩, ⟨5000, 10000, "f", [0]⟩, ⟨10000, 12000, "f", []⟩])],
            ⟨0, 12000⟩, [[0, 0, 0, 1, 0]], ["", "g"], "1.2"⟩ : Iteration2Format).thread
          ("G" ++ toString c)) :=
  dictionary_round_trip (MapOrder.insertion _ _) (MapOrder.insertion _ _)
    (MapOrder.insertion _ _) nestedExample
    ⟨[("G1", [⟨0, 5000, "f", []⟩, ⟨5000, 10000, "f", [0]⟩, ⟨10000, 12000, "f", []⟩])],
      ⟨0, 12000⟩, [[0, 0, 0, 1, 0]], ["", "g"], "1.2"⟩ (by decide!)

/-! ## The end-to-end example -/

theorem reconstruct_nestedExample :
    reconstruct nestedExample =
      some [(1, [⟨0, some ["f"]⟩, ⟨5000, some ["f", "g"]⟩, ⟨10000, some ["f"]⟩,
        ⟨12000, some []⟩])] := by
  decide!

/-- C1 (amended): on the end-to-end example, for every enumeration order of
the maps, thread `G1` has three intervals (the third one for the time after
`g` has ended and before `f` ends), the frames table has the one row for
method `g`, and `timeRange.endNs` is 12000. -/
theorem nested_example (oc : MapOrder Int (List StackEvent)) (ofr : MapOrder Frame Nat)
    (os : MapOrder String Nat) :
    Run oc ofr os nestedExample =
      some ⟨[("G1", [⟨0, 5000, "f", []⟩, ⟨5000, 10000, "f", [0]⟩, ⟨10000, 12000, "f", []⟩])],
        ⟨0, 12000⟩, [[0, 0, 0, 1, 0]], ["", "g"], "1.2"⟩ := by
  have hb : buildIntervals oc [(1, [⟨0, some ["f"]⟩, ⟨5000, some ["f", "g"]⟩,
      ⟨10000, some ["f"]⟩, ⟨12000, some []⟩])] =
      (⟨[("G1", [⟨0, 5000, "f", []⟩, ⟨5000, 10000, "f", [0]⟩, ⟨10000, 12000, "f", []⟩])],
        ⟨0, 12000⟩, [], [], "1.2"⟩, ⟨[(methodFrame "g", 0)]⟩) := by
    unfold buildIntervals
    rw [List.perm_singleton.1 (oc.perm _)]
    decide!
  have hf : FrameTable.Frames ofr ⟨[(methodFrame "g", 0)]⟩ NewStringTable =
      some ([[0, 0, 0, 1, 0]], ⟨[("", 0), ("g", 1)]⟩) := by
    unfold FrameTable.Frames
    rw [List.perm_singleton.1 (ofr.perm _)]
    decide!
  have hs : StringTable.Strings os ⟨[("", 0), ("g", 1)]⟩ = some ["", "g"] :=
    StringTable.Strings_of_isTable os ⟨[("", 0), ("g", 1)]⟩ ⟨rfl, by decide⟩
  unfold Run
  rw [reconstruct_nestedExample, Option.some_bind, hb]
  simp only [hf, Option.some_bind, hs, Option.map_some']

/-- C1 as stated fails: the run of the example does not end with two intervals
in thread `G1` and `timeRange.endNs = 10000`. -/
theorem nested_example_counterexample :
    ¬ ∃ out, Run (MapOrder.insertion _ _) (MapOrder.insertion _ _) (MapOrder.insertion _ _)
        nestedExample = some out ∧
      out.thread "G1" = [⟨0, 5000, "f", []⟩, ⟨5000, 10000, "f", [0]⟩] ∧
      out.Frames.length = 1 ∧
      out.TimeRange.EndNS = 10000 := by
  rintro ⟨out, h, -, -, h3⟩
  have h2 : Run (MapOrder.insertion _ _) (MapOrder.insertion _ _) (MapOrder.insertion _ _)
      nestedExample = some ⟨[("G1", [⟨0, 5000, "f", []⟩, ⟨5000, 10000, "f", [0]⟩,
        ⟨10000, 12000, "f", []⟩])], ⟨0, 12000⟩, [[0, 0, 0, 1, 0]], ["", "g"], "1.2"⟩ := by
    decide!
  rw [h2] at h
  cases h
  exact absurd h3 (by decide)

/-! ## Ignored phases -/

theorem applyEvent_of_not_isBeginEnd (stks : Stacks) (te : TraceEvent)
    (h : isBeginEnd te = false) : applyEvent stks te = some stks := by
  unfold isBeginEnd at h
  simp only [decide_eq_false_iff_not, not_or] at h
  unfold applyEvent
  rw [if_pos h]

theorem foldlM_applyEvent_filter (evs : List TraceEvent) :
    ∀ stks : Stacks, evs.foldlM applyEvent stks = (evs.filter isBeginEnd).foldlM applyEvent stks := by
  induction evs with
  | nil => intro stks; rfl
  | cons te evs ih =>
    intro stks
    cases hbe : isBeginEnd te with
    | false =>
      rw [List.filter_cons_of_neg (by simp [hbe]), List.foldlM_cons,
        applyEvent_of_not_isBeginEnd stks te hbe]
      exact ih stks
    | true =>
      rw [List.filter_cons_of_pos (by simp [hbe]), List.foldlM_cons, List.foldlM_cons]
      cases applyEvent stks te with
      | none => rfl
      | some stks1 => exact ih stks1

theorem reconstruct_filter (evs : List TraceEvent) :
    reconstruct evs = reconstruct (evs.filter isBeginEnd) :=
  foldlM_applyEvent_filter evs []

/-- C16: for every event sequence and every enumeration order of the maps,
the first loop builds the same context map, and `Run` returns the same result
(the same document, or the same fault), as on the sequence with every event
removed whose phase is neither `B` nor `E`. -/
theorem ignore_other_phases (oc : MapOrder Int (List StackEvent)) (ofr : MapOrder Frame Nat)
    (os : MapOrder String Nat) (evs : List TraceEvent) :
    reconstruct evs =
      reconstruct (evs.filter fun te => decide (te.Ph = "B" ∨ te.Ph = "E")) ∧
    Run oc ofr os evs =
      Run oc ofr os (evs.filter fun te => decide (te.Ph = "B" ∨ te.Ph = "E")) := by
  refine ⟨reconstruct_filter evs, ?_⟩
  unfold Run
  rw [reconstruct_filter evs]
  rfl

/-! ## Timestamp scaling -/

theorem timeNS_of_int (te : TraceEvent) (t : Int) (hts : te.Ts = (t : ℚ))
    (hlo : -(2 ^ 63) ≤ 1000 * t) (hhi : 1000 * t < 2 ^ 63) : timeNS te = 1000 * t := by
  have htd : Int.tdiv te.Ts.num te.Ts.den = t := by
    rw [hts, Rat.num_intCast, Rat.den_intCast]
    simp
  have hr : InRange te := by
    unfold InRange
    rw [htd]
    constructor <;> omega
  rw [timeNS_of_inRange te hr, htd]
  omega

/-- The snapshot an event is applied to is the last snapshot of the event's
context right after the iteration, and it carries the event's scaled time. -/
theorem applied_snapshot_time (evs : List TraceEvent) (te : TraceEvent) (stks : Stacks)
    (hBE : te.Ph = "B" ∨ te.Ph = "E") (hrec : reconstruct (evs ++ [te]) = some stks) :
    ∃ se, (snapshotsOf stks te.Pid).getLast? = some se ∧ se.TimeNS = timeNS te := by
  have hctx := reconstruct_context (evs ++ [te]) stks hrec te.Pid
  obtain ⟨-, -, -, hl⟩ := contextSnapshots_spec _ _ hctx
  have hlast : (contextEvents te.Pid (evs ++ [te])).getLast? = some te := by
    rw [contextEvents_concat, if_pos ⟨hBE, rfl⟩, List.getLast?_concat]
  exact ⟨_, hl te hlast, rfl⟩

/-- C14: a Begin/End event whose timestamp is a whole number `t` of
microseconds, with `1000 * t` in the `int64` range, has scaled time `1000 * t`,
and the snapshot it is applied to (the last snapshot of its context right after
the event) has `timeNanos = 1000 * t`. -/
theorem timestamp_scaling (evs : List TraceEvent) (te : TraceEvent) (t : Int) (stks : Stacks)
    (hBE : te.Ph = "B" ∨ te.Ph = "E") (hts : te.Ts = (t : ℚ))
    (hlo : -(2 ^ 63) ≤ 1000 * t) (hhi : 1000 * t < 2 ^ 63)
    (hrec : reconstruct (evs ++ [te]) = some stks) :
    timeNS te = 1000 * t ∧
    ∃ se, (snapshotsOf stks te.Pid).getLast? = some se ∧ se.TimeNS = 1000 * t := by
  have h := timeNS_of_int te t hts hlo hhi
  obtain ⟨se, hse, htime⟩ := applied_snapshot_time evs te stks hBE hrec
  exact ⟨h, se, hse, by rw [htime, h]⟩

/-- C14 at the timestamp 1500.0: the snapshot time is 1500000. -/
theorem timestamp_scaling_witness :
    timeNS ⟨"f", "B", 1500, 1, 0⟩ = 1000 * 1500 ∧
    ∃ se, (snapshotsOf [(1, [⟨1500000, some ["f"]⟩])] 1).getLast? = some se ∧
      se.TimeNS = 1000 * 1500 :=
  timestamp_scaling [] ⟨"f", "B", 1500, 1, 0⟩ 1500 [(1, [⟨1500000, some ["f"]⟩])]
    (Or.inl rfl) (by norm_num) (by norm_num) (by norm_num) (by decide!)

/-! ## Export of a reached frame table -/

theorem FrameTable.lookups_spec (fs : List Frame) :
    GoMap.IsTable (FrameTable.lookups fs).frames ∧
    GoMap.keys (FrameTable.lookups fs).frames = firstSeen fs := by
  rw [FrameTable.frameLookups_eq]
  exact GoMap.insertAll_spec fs

theorem FrameTable.lookup_lookups_mem (fs : List Frame) (f : Frame) (h : f ∈ fs) :
    ((FrameTable.lookups fs).Lookup f).1 = (firstSeen fs).indexOf f := by
  have hk : f ∈ GoMap.keys (GoMap.insertAll fs) := by
    rw [(GoMap.insertAll_spec fs).2, mem_firstSeen]
    exact h
  rw [FrameTable.frameLookups_eq, FrameTable.frameLookup_eq,
    GoMap.insertOrGet_of_mem (GoMap.insertAll_spec fs).1 hk, (GoMap.insertAll_spec fs).2]

theorem GoMap.IsTable.get?_of_getElem? {κ : Type} [DecidableEq κ] {m : GoMap κ Nat}
    (hm : IsTable m) {k : κ} {i : Nat} (h : (GoMap.keys m)[i]? = some k) :
    GoMap.get? m k = some i :=
  (GoMap.get?_eq_some_iff m hm.2 k i).2 ((hm.mem_iff k i).2 h)

/-- C11: for a frame table reached from `NewFrameTable` by the lookups `fs`
and a fresh string table, `Frames` succeeds for every enumeration order and
returns one row per distinct frame; the row at the index assigned to a frame
(its rank in insertion order) is `[a, b, c, m, line]` with the frame's line,
the exported strings at `a`, `b`, `c`, `m` are the frame's filename, package,
class and method, and the string table after the call maps these four strings
to these indices. -/
theorem FrameTable.frames_export (ofr : MapOrder Frame Nat) (os : MapOrder String Nat)
    (fs : List Frame) :
    ∃ rows st S, (FrameTable.lookups fs).Frames ofr NewStringTable = some (rows, st) ∧
      st.Strings os = some S ∧
      rows.length = fs.toFinset.card ∧
      ∀ f ∈ fs,
        ((FrameTable.lookups fs).Lookup f).1 = (firstSeen fs).indexOf f ∧
        ∃ a b c m : Nat,
          rows[((FrameTable.lookups fs).Lookup f).1]? =
            some [(a : Int), (b : Int), (c : Int), (m : Int), f.Line] ∧
          S[a]? = some f.Filename ∧ S[b]? = some f.Package ∧
          S[c]? = some f.Class ∧ S[m]? = some f.Method ∧
          st.strings.get? f.Filename = some a ∧ st.strings.get? f.Package = some b ∧
          st.strings.get? f.Class = some c ∧ st.strings.get? f.Method = some m := by
  obtain ⟨hT, hkeys⟩ := FrameTable.lookups_spec fs
  obtain ⟨rows, st, hfr, hTs, hlen, hrows⟩ :=
    FrameTable.Frames_spec ofr (FrameTable.lookups fs) hT
  refine ⟨rows, st, GoMap.keys st.strings, hfr, StringTable.Strings_of_isTable os st hTs, ?_, ?_⟩
  · rw [hlen, hkeys, length_firstSeen]
  · intro f hf
    have hidx := FrameTable.lookup_lookups_mem fs f hf
    refine ⟨hidx, ?_⟩
    have hget : (GoMap.keys (FrameTable.lookups fs).frames)[(firstSeen fs).indexOf f]? =
        some f := by
      rw [hkeys]
      exact List.getElem?_indexOf ((mem_firstSeen fs f).2 hf)
    obtain ⟨row, hrow, a, b, c, m, rfl, ha, hb, hc, hm⟩ := hrows _ f hget
    rw [hidx]
    exact ⟨a, b, c, m, hrow, ha, hb, hc, hm, hTs.get?_of_getElem? ha, hTs.get?_of_getElem? hb,
      hTs.get?_of_getElem? hc, hTs.get?_of_getElem? hm⟩

/-- C11 on a table with two frames, exported in reverse enumeration order. -/
theorem FrameTable.frames_export_witness :
    ∃ a b c m : Nat,
      [[(0 : Int), 1, 2, 4, 7], [0, 1, 2, 3, 8]][((FrameTable.lookups
          [⟨"a.go", "p", "C", "m", 7⟩, ⟨"a.go", "p", "C", "n", 8⟩]).Lookup
            ⟨"a.go", "p", "C", "n", 8⟩).1]? =
        some [(a : Int), (b : Int), (c : Int), (m : Int), 8] ∧
      ["a.go", "p", "C", "n", "m"][m]? = some "n" := by
  obtain ⟨rows, st, S, hfr, hS, -, h⟩ := FrameTable.frames_export
    (MapOrder.reversed Frame Nat) (MapOrder.insertion String Nat)
    [⟨"a.go", "p", "C", "m", 7⟩, ⟨"a.go", "p", "C", "n", 8⟩]
  have hfr2 : (FrameTable.lookups [⟨"a.go", "p", "C", "m", 7⟩, ⟨"a.go", "p", "C", "n", 8⟩]).Frames
      (MapOrder.reversed Frame Nat) NewStringTable =
      some ([[(0 : Int), 1, 2, 4, 7], [0, 1, 2, 3, 8]],
        ⟨[("a.go", 0), ("p", 1), ("C", 2), ("n", 3), ("m", 4)]⟩) := by decide!
  rw [hfr2] at hfr
  cases hfr
  have hS2 : StringTable.Strings (MapOrder.insertion String Nat)
      ⟨[("a.go", 0), ("p", 1), ("C", 2), ("n", 3), ("m", 4)]⟩ =
      some ["a.go", "p", "C", "n", "m"] := by decide!
  rw [hS2] at hS
  cases hS
  obtain ⟨-, a, b, c, m, hrow, -, -, -, hm, -⟩ := h ⟨"a.go", "p", "C", "n", 8⟩ (by decide)
  exact ⟨a, b, c, m, hrow, hm⟩

/-! ## Faults of the stack reconstruction -/

theorem NoEndOnEmpty.of_append {ces post : List TraceEvent} (h : NoEndOnEmpty (ces ++ post)) :
    NoEndOnEmpty ces := fun pre te q e hE =>
  h pre te (q ++ post) (by rw [e]; simp) hE

theorem countPhase_concat (ph : String) (ces : List TraceEvent) (te : TraceEvent) :
    countPhase ph (ces ++ [te]) = countPhase ph ces + if te.Ph = ph then 1 else 0 := by
  unfold countPhase
  rw [List.countP_append, List.countP_singleton]
  simp

/-- Without an End on an empty stack, the depth of the reference stack is the
number of Begin events minus the number of End events. -/
theorem length_refStack (ces : List TraceEvent) :
    NoEndOnEmpty ces →
      (refStack ces).length + countPhase "E" ces = countPhase "B" ces := by
  induction ces using List.reverseRecOn with
  | nil => intro _; rfl
  | append_singleton ces te ih =>
    intro h
    have h0 := ih h.of_append
    rw [refStack_concat, countPhase_concat, countPhase_concat]
    unfold pushPop
    by_cases hB : te.Ph = "B"
    · have hE : ¬ te.Ph = "E" := by rw [hB]; decide
      rw [if_pos hB, if_pos hB, if_neg hE]
      simp only [List.length_append, List.length_singleton]
      omega
    · by_cases hE : te.Ph = "E"
      · have hne : refStack ces ≠ [] := h ces te [] rfl hE
        have hpos : 0 < (refStack ces).length := List.length_pos.2 hne
        rw [if_neg hB, if_pos hE, if_pos hE, if_neg hB, List.length_dropLast]
        omega
      · rw [if_neg hB, if_neg hE, if_neg hE, if_neg hB]
        omega

/-- No End arrives on an empty stack exactly when no prefix of the events has
more End than Begin events. -/
theorem noEndOnEmpty_iff (ces : List TraceEvent) :
    NoEndOnEmpty ces ↔ ∀ pre, pre <+: ces → countPhase "E" pre ≤ countPhase "B" pre := by
  constructor
  · rintro h pre ⟨post, rfl⟩
    have := length_refStack pre h.of_append
    omega
  · induction ces using List.reverseRecOn with
    | nil =>
      intro _ pre te post e
      simp at e
    | append_singleton ces te ih =>
      intro h
      have h0 : NoEndOnEmpty ces :=
        ih fun pre hpre => h pre (hpre.trans (List.prefix_append _ _))
      intro pre te2 post e hE
      rcases eq_nil_or_snoc post with rfl | ⟨post0, te3, rfl⟩
      · obtain ⟨rfl, e2⟩ := List.append_inj' e rfl
        simp only [List.cons.injEq, and_true] at e2
        subst e2
        have hlen := length_refStack ces h0
        have hcnt := h (ces ++ [te]) (List.prefix_refl _)
        rw [countPhase_concat, countPhase_concat, if_pos hE,
          if_neg (by rw [hE]; decide)] at hcnt
        intro hnil
        rw [hnil] at hlen
        simp only [List.length_nil] at hlen
        omega
      · have e2 : ces ++ [te] = (pre ++ te2 :: post0) ++ [te3] := by rw [e]; simp
        obtain ⟨e3, -⟩ := List.append_inj' e2 rfl
        exact h0 pre te2 post0 e3 hE

theorem Run_eq_none_iff (oc : MapOrder Int (List StackEvent)) (ofr : MapOrder Frame Nat)
    (os : MapOrder String Nat) (evs : List TraceEvent) :
    Run oc ofr os evs = none ↔ reconstruct evs = none := by
  constructor
  · intro h
    cases hr : reconstruct evs with
    | none => rfl
    | some stks =>
      obtain ⟨out, F, hrun, -⟩ := Run_spec oc ofr os evs stks hr
      rw [h] at hrun
      cases hrun
  · intro h
    unfold Run
    rw [h]
    rfl

/-- C15: the stack reconstruction faults exactly when, for some context, some
prefix of that context's Begin/End events has more End than Begin events; the
whole transformation faults in exactly the same cases, so it completes on
every other input, whatever stack depth is left at the end of the stream. -/
theorem fault_iff (oc : MapOrder Int (List StackEvent)) (ofr : MapOrder Frame Nat)
    (os : MapOrder String Nat) (evs : List TraceEvent) :
    (reconstruct evs = none ↔
      ∃ c pre, pre <+: contextEvents c evs ∧ countPhase "B" pre < countPhase "E" pre) ∧
    (Run oc ofr os evs = none ↔ reconstruct evs = none) := by
  refine ⟨⟨fun h => ?_, ?_⟩, Run_eq_none_iff oc ofr os evs⟩
  · by_contra hc
    have hall : ∀ c, NoEndOnEmpty (contextEvents c evs) := by
      intro c
      rw [noEndOnEmpty_iff]
      intro pre hpre
      by_contra hlt
      exact hc ⟨c, pre, hpre, by omega⟩
    obtain ⟨stks, hs⟩ := reconstruct_isSome evs fun c =>
      contextSnapshots_isSome _ (hall c)
    rw [h] at hs
    cases hs
  · rintro ⟨c, pre, hpre, hlt⟩
    cases hr : reconstruct evs with
    | none => rfl
    | some stks =>
      have := (noEndOnEmpty_iff _).1 (noEndOnEmpty_of_reconstruct evs stks hr c) pre hpre
      omega

/-- C15 on an input where context 2 ends a region it never began: the
reconstruction faults, although context 1 alone would leave `f` open. -/
theorem fault_iff_witness : reconstruct unbalancedExample = none :=
  (fault_iff (MapOrder.insertion _ _) (MapOrder.insertion _ _) (MapOrder.insertion _ _)
    unbalancedExample).1.2 ⟨2, [⟨"x", "E", 4, 2, 0⟩], ⟨[], by decide!⟩, by decide⟩

/-! ## Which frames the frame table holds -/

theorem foldl_lookupMethod_subset (methods : List String) :
    ∀ (acc : List Nat) (ft : FrameTable), GoMap.IsTable ft.frames →
      ∀ f ∈ GoMap.keys (methods.foldl lookupMethod (acc, ft)).2.frames,
        f ∈ GoMap.keys ft.frames ∨ ∃ m ∈ methods, f = methodFrame m := by
  induction methods with
  | nil =>
    intro acc ft _ f hf
    exact Or.inl hf
  | cons m ms ih =>
    intro acc ft h f hf
    simp only [List.foldl_cons] at hf
    have e : lookupMethod (acc, ft) m =
        (acc ++ [(GoMap.insertOrGet ft.frames (methodFrame m)).1],
          ⟨(GoMap.insertOrGet ft.frames (methodFrame m)).2⟩) := by
      simp [lookupMethod, FrameTable.frameLookup_eq]
    rw [e] at hf
    rcases ih _ ⟨(GoMap.insertOrGet ft.frames (methodFrame m)).2⟩
      (GoMap.isTable_insertOrGet h (methodFrame m)) f hf with h1 | ⟨m', hm', rfl⟩
    · simp only at h1
      rw [GoMap.keys_insertOrGet h] at h1
      split at h1
      · exact Or.inl h1
      · rcases List.mem_append.1 h1 with h2 | h2
        · exact Or.inl h2
        · simp only [List.mem_singleton] at h2
          exact Or.inr ⟨m, List.mem_cons_self _ _, h2⟩
    · exact Or.inr ⟨m', List.mem_cons_of_mem _ hm', rfl⟩

theorem buildStep_subset (tid : String) (events : List StackEvent) (s : BuildState)
    (p : Nat × StackEvent) (h : GoMap.IsTable s.2.frames) :
    ∀ f ∈ GoMap.keys (buildStep tid events s p).2.frames,
      f ∈ GoMap.keys s.2.frames ∨ ∃ m ∈ innerLabels p.2, f = methodFrame m := by
  intro f hf
  unfold buildStep at hf
  cases hstk : p.2.Stack.getD [] with
  | nil =>
    simp only [hstk] at hf
    exact Or.inl hf
  | cons label rest =>
    simp only [hstk] at hf
    rcases foldl_lookupMethod_subset rest [] s.2 h f hf with h1 | ⟨m, hm, rfl⟩
    · exact Or.inl h1
    · exact Or.inr ⟨m, by simpa [innerLabels, hstk] using hm, rfl⟩

theorem foldl_buildStep_subset (tid : String) (events : List StackEvent)
    (ps : List (Nat × StackEvent)) :
    ∀ (s : BuildState), GoMap.IsTable s.2.frames →
      ∀ f ∈ GoMap.keys (ps.foldl (buildStep tid events) s).2.frames,
        f ∈ GoMap.keys s.2.frames ∨ ∃ p ∈ ps, ∃ m ∈ innerLabels p.2, f = methodFrame m := by
  induction ps with
  | nil =>
    intro s _ f hf
    exact Or.inl hf
  | cons p ps ih =>
    intro s h f hf
    simp only [List.foldl_cons] at hf
    obtain ⟨hT1, -⟩ := buildStep_spec tid events s p h _ rfl
    rcases ih _ hT1 f hf with h1 | ⟨q, hq, m, hm, rfl⟩
    · rcases buildStep_subset tid events s p h f h1 with h2 | ⟨m, hm, rfl⟩
      · exact Or.inl h2
      · exact Or.inr ⟨p, List.mem_cons_self _ _, m, hm, rfl⟩
    · exact Or.inr ⟨q, List.mem_cons_of_mem _ hq, m, hm, rfl⟩

/-- Every frame of the frame table after the second loop is the method frame
of an inner label of some snapshot. -/
theorem foldl_buildContext_subset (cs : List (Int × List StackEvent)) :
    ∀ (s : BuildState), GoMap.IsTable s.2.frames →
      ∀ f ∈ GoMap.keys (cs.foldl buildContext s).2.frames,
        f ∈ GoMap.keys s.2.frames ∨
          ∃ q ∈ cs, ∃ se ∈ q.2, ∃ m ∈ innerLabels se, f = methodFrame m := by
  induction cs with
  | nil =>
    intro s _ f hf
    exact Or.inl hf
  | cons q cs ih =>
    intro s h f hf
    simp only [List.foldl_cons] at hf
    obtain ⟨hT1, -⟩ := buildContext_spec s q h _ rfl
    rcases ih _ hT1 f hf with h1 | ⟨q', hq', se, hse, m, hm, rfl⟩
    · rcases foldl_buildStep_subset (threadID q.1) q.2 q.2.enum s h f h1 with
        h2 | ⟨p, hp, m, hm, rfl⟩
      · exact Or.inl h2
      · exact Or.inr ⟨q, List.mem_cons_self _ _, p.2, List.snd_mem_of_mem_enum hp, m, hm, rfl⟩
    · exact Or.inr ⟨q', List.mem_cons_of_mem _ hq', se, hse, m, hm, rfl⟩

/-! ## Decoding the document -/

/-- The document that `Run` returns, with the tables it is built from. -/
theorem Run_explicit (oc : MapOrder Int (List StackEvent)) (ofr : MapOrder Frame Nat)
    (os : MapOrder String Nat) (evs : List TraceEvent) (stks : Stacks)
    (hrec : reconstruct evs = some stks) :
    ∃ rows st,
      (buildIntervals oc stks).2.Frames ofr NewStringTable = some (rows, st) ∧
      st.Strings os = some (GoMap.keys st.strings) ∧
      Run oc ofr os evs = some { (buildIntervals oc stks).1 with
        Frames := rows, Strings := GoMap.keys st.strings } ∧
      GoMap.IsTable (buildIntervals oc stks).2.frames ∧
      GoMap.IsTable st.strings ∧
      rows.length = (GoMap.keys (buildIntervals oc stks).2.frames).length ∧
      (∀ (i : Nat) (f : Frame), (GoMap.keys (buildIntervals oc stks).2.frames)[i]? = some f →
        ∃ row, rows[i]? = some row ∧ RowDecodes (GoMap.keys st.strings) row f) ∧
      (∀ c events, (c, events) ∈ stks →
        (buildIntervals oc stks).1.thread (threadID c) =
          intervalsOf (GoMap.keys (buildIntervals oc stks).2.frames) events ∧
        ∀ se ∈ events, ∀ m ∈ innerLabels se,
          methodFrame m ∈ GoMap.keys (buildIntervals oc stks).2.frames) ∧
      (∀ key, (∀ c ∈ GoMap.keys stks, key ≠ threadID c) →
        (buildIntervals oc stks).1.thread key = []) ∧
      ∀ f ∈ GoMap.keys (buildIntervals oc stks).2.frames,
        ∃ c events se m, (c, events) ∈ stks ∧ se ∈ events ∧ m ∈ innerLabels se ∧
          f = methodFrame m := by
  have hnd := reconstruct_nodup evs stks hrec
  have hperm := oc.perm stks
  have hnd2 : ((oc.enum stks).map Prod.fst).Nodup := (hperm.map Prod.fst).nodup_iff.2 hnd
  obtain ⟨hT, -, hQ, hO, -, -⟩ := foldl_buildContext (oc.enum stks) hnd2
    (initialOut, NewFrameTable) GoMap.isTable_nil (buildIntervals oc stks) rfl
  obtain ⟨rows, st, hfr, hTs, hlen, hrows⟩ :=
    FrameTable.Frames_spec ofr (buildIntervals oc stks).2 hT
  have hstr := StringTable.Strings_of_isTable os st hTs
  refine ⟨rows, st, hfr, hstr, ?_, hT, hTs, hlen, hrows, ?_, ?_, ?_⟩
  · unfold Run
    rw [hrec, Option.some_bind]
    simp only [hfr, Option.some_bind, hstr, Option.map_some']
  · intro c events hmem
    obtain ⟨h1, h2⟩ := hQ (c, events) (hperm.symm.subset hmem)
    exact ⟨h2, h1⟩
  · intro key hkey
    refine hO key fun q hq => hkey q.1 ?_
    exact List.mem_map_of_mem Prod.fst (hperm.subset hq)
  · intro f hf
    rcases foldl_buildContext_subset (oc.enum stks) (initialOut, NewFrameTable)
      GoMap.isTable_nil f hf with h1 | ⟨q, hq, se, hse, m, hm, rfl⟩
    · cases h1
    · exact ⟨q.1, q.2, se, m, hperm.subset hq, hse, hm, rfl⟩

theorem decodeFrame_of_rowDecodes (out : Iteration2Format) (idx : Nat) (row : List Int)
    (f : Frame) (hrow : out.Frames[idx]? = some row) (hd : RowDecodes out.Strings row f) :
    decodeFrame out idx = some f.Method := by
  obtain ⟨a, b, c, m, rfl, -, -, -, hm⟩ := hd
  unfold decodeFrame
  rw [hrow]
  simp [hm]

/-- The decoded intervals of a thread are the resolved intervals of the
context's snapshots: the frame indices resolve to the inner labels. -/
theorem decodedThread_eq (oc : MapOrder Int (List StackEvent)) (ofr : MapOrder Frame Nat)
    (os : MapOrder String Nat) (evs : List TraceEvent) (stks : Stacks) (out : Iteration2Format)
    (hrec : reconstruct evs = some stks) (hrun : Run oc ofr os evs = some out) :
    ∀ c, decodedThread out (threadID c) = refIntervals (snapshotsOf stks c) := by
  obtain ⟨out2, F, hrun2, -, hctx, hrows⟩ := thread_of_context oc ofr os evs stks hrec
  rw [hrun] at hrun2
  cases hrun2
  intro c
  obtain ⟨hth, hmem⟩ := hctx c
  unfold decodedThread refIntervals
  rw [hth]
  unfold intervalsOf
  rw [List.map_filterMap]
  apply List.filterMap_congr
  intro p hp
  unfold mkInterval refInterval
  cases hs : p.2.Stack.getD [] with
  | nil => rfl
  | cons label rest =>
    simp only [Option.map_some', decodeInterval, List.map_map, Option.some.injEq, Prod.mk.injEq,
      true_and]
    apply List.map_congr_left
    intro m hm
    have hl : m ∈ innerLabels p.2 := by
      unfold innerLabels
      rw [hs]
      exact hm
    have hF := hmem p.2 (List.snd_mem_of_mem_enum hp) m hl
    obtain ⟨row, hrow, hd⟩ := hrows _ _ (List.getElem?_indexOf hF)
    exact decodeFrame_of_rowDecodes out _ row _ hrow hd

/-! ## Independence of contexts and of enumeration orders -/

/-- C18: two event sequences with the same Begin/End events of context `c` in
the same order, each run with any enumeration orders and both completing, give
under thread `"G" + c` the same number of intervals with the same `startNs`,
`endNs`, `label` and the same method strings behind their frame indices. -/
theorem context_independence (oc1 oc2 : MapOrder Int (List StackEvent))
    (ofr1 ofr2 : MapOrder Frame Nat) (os1 os2 : MapOrder String Nat)
    (evs1 evs2 : List TraceEvent) (c : Int) (out1 out2 : Iteration2Format)
    (hsame : contextEvents c evs1 = contextEvents c evs2)
    (h1 : Run oc1 ofr1 os1 evs1 = some out1) (h2 : Run oc2 ofr2 os2 evs2 = some out2) :
    decodedThread out1 ("G" ++ toString c) = decodedThread out2 ("G" ++ toString c) := by
  obtain ⟨stks1, hr1⟩ := reconstruct_of_Run oc1 ofr1 os1 evs1 out1 h1
  obtain ⟨stks2, hr2⟩ := reconstruct_of_Run oc2 ofr2 os2 evs2 out2 h2
  have e1 := decodedThread_eq oc1 ofr1 os1 evs1 stks1 out1 hr1 h1 c
  have e2 := decodedThread_eq oc2 ofr2 os2 evs2 stks2 out2 hr2 h2 c
  have hs1 := reconstruct_context evs1 stks1 hr1 c
  have hs2 := reconstruct_context evs2 stks2 hr2 c
  rw [hsame, hs2] at hs1
  unfold threadID at e1 e2
  rw [e1, e2, Option.some.inj hs1]

/-- C18 on context 1 of the interleaved example, run once with context 2
interleaved and once alone under reversed enumeration orders: the frame indices
of the thread differ, the decoded intervals do not. -/
theorem context_independence_witness :
    decodedThread
        ⟨[("G1", [⟨10000, 20000, "f", [0]⟩, ⟨20000, 30000, "f", [0, 1]⟩,
            ⟨30000, 0, "f", [0]⟩]), ("G2", [⟨10000, 30000, "x", []⟩])],
          ⟨0, 30000⟩, [[0, 0, 0, 1, 0], [0, 0, 0, 2, 0]], ["", "g", "h"], "1.2"⟩
        ("G" ++ toString (1 : Int)) =
      decodedThread
        ⟨[("G1", [⟨10000, 20000, "f", [0]⟩, ⟨20000, 30000, "f", [0, 1]⟩,
            ⟨30000, 0, "f", [0]⟩])],
          ⟨0, 30000⟩, [[0, 0, 0, 2, 0], [0, 0, 0, 1, 0]], ["", "h", "g"], "1.2"⟩
        ("G" ++ toString (1 : Int)) :=
  context_independence (MapOrder.insertion _ _) (MapOrder.reversed _ _)
    (MapOrder.insertion _ _) (MapOrder.reversed _ _) (MapOrder.insertion _ _)
    (MapOrder.insertion _ _) interleavedExample (contextEvents 1 interleavedExample) 1 _ _
    (by decide!) (by decide!) (by decide!)

theorem foldl_max_congr (l1 l2 : List Int) (a : Int) (h : ∀ b, b ∈ l1 ↔ b ∈ l2) :
    l1.foldl max a = l2.foldl max a := by
  obtain ⟨h1, h2, h3⟩ := foldl_max_spec l1 a
  obtain ⟨k1, k2, k3⟩ := foldl_max_spec l2 a
  apply le_antisymm
  · rcases h3 with h3 | h3
    · rw [h3]
      exact k1
    · exact k2 _ ((h _).1 h3)
  · rcases k3 with k3 | k3
    · rw [k3]
      exact h1
    · exact h2 _ ((h _).2 k3)

/-- The time range does not depend on the enumeration order of the contexts. -/
theorem timeRange_order_independent (oc1 oc2 : MapOrder Int (List StackEvent))
    (ofr1 ofr2 : MapOrder Frame Nat) (os1 os2 : MapOrder String Nat)
    (evs : List TraceEvent) (out1 out2 : Iteration2Format)
    (h1 : Run oc1 ofr1 os1 evs = some out1) (h2 : Run oc2 ofr2 os2 evs = some out2) :
    out1.TimeRange = out2.TimeRange := by
  obtain ⟨stks, hrec⟩ := reconstruct_of_Run oc1 ofr1 os1 evs out1 h1
  obtain ⟨o1, F1, hrun1, -, -, -, -, -, hE1, hS1⟩ := Run_spec oc1 ofr1 os1 evs stks hrec
  obtain ⟨o2, F2, hrun2, -, -, -, -, -, hE2, hS2⟩ := Run_spec oc2 ofr2 os2 evs stks hrec
  rw [h1] at hrun1
  rw [h2] at hrun2
  cases hrun1
  cases hrun2
  have hnd := reconstruct_nodup evs stks hrec
  have hE : out1.TimeRange.EndNS = out2.TimeRange.EndNS := by
    rw [hE1, hE2]
    apply foldl_max_congr
    intro b
    rw [← isBoundedEnd_iff stks hnd (oc1.enum stks) (oc1.perm stks) b,
      ← isBoundedEnd_iff stks hnd (oc2.enum stks) (oc2.perm stks) b]
  cases hT1 : out1.TimeRange
  cases hT2 : out2.TimeRange
  rw [hT1] at hE hS1
  rw [hT2] at hE hS2
  simp only at hE hS1 hS2
  rw [hE, hS1, hS2]

/-- The number of frames rows does not depend on the enumeration orders. -/
theorem frames_length_order_independent (oc1 oc2 : MapOrder Int (List StackEvent))
    (ofr1 ofr2 : MapOrder Frame Nat) (os1 os2 : MapOrder String Nat)
    (evs : List TraceEvent) (out1 out2 : Iteration2Format)
    (h1 : Run oc1 ofr1 os1 evs = some out1) (h2 : Run oc2 ofr2 os2 evs = some out2) :
    out1.Frames.length = out2.Frames.length := by
  obtain ⟨stks, hrec⟩ := reconstruct_of_Run oc1 ofr1 os1 evs out1 h1
  obtain ⟨rows1, st1, -, -, hrun1, hT1, -, hlen1, -, hctx1, -, hsub1⟩ :=
    Run_explicit oc1 ofr1 os1 evs stks hrec
  obtain ⟨rows2, st2, -, -, hrun2, hT2, -, hlen2, -, hctx2, -, hsub2⟩ :=
    Run_explicit oc2 ofr2 os2 evs stks hrec
  rw [h1] at hrun1
  rw [h2] at hrun2
  cases hrun1
  cases hrun2
  show rows1.length = rows2.length
  rw [hlen1, hlen2]
  apply List.Perm.length_eq
  rw [List.perm_ext_iff_of_nodup hT1.2 hT2.2]
  intro f
  constructor
  · intro hf
    obtain ⟨c, events, se, m, hmem, hse, hm, rfl⟩ := hsub1 f hf
    exact (hctx2 c events hmem).2 se hse m hm
  · intro hf
    obtain ⟨c, events, se, m, hmem, hse, hm, rfl⟩ := hsub2 f hf
    exact (hctx1 c events hmem).2 se hse m hm

/-- C13 (amended): for any two choices of the enumeration orders of the
context map, the frame map and the string map, the transformation faults in
the same cases, and when it completes the two documents have the same
`timeRange`, the same number of frames rows and, under every thread key, the
same intervals in the same order with the same `startNs`, `endNs`, `label` and
the same method strings behind their frame indices. -/
theorem determinism_up_to_indices (oc1 oc2 : MapOrder Int (List StackEvent))
    (ofr1 ofr2 : MapOrder Frame Nat) (os1 os2 : MapOrder String Nat)
    (evs : List TraceEvent) :
    (Run oc1 ofr1 os1 evs = none ↔ Run oc2 ofr2 os2 evs = none) ∧
    ∀ out1 out2, Run oc1 ofr1 os1 evs = some out1 → Run oc2 ofr2 os2 evs = some out2 →
      out1.TimeRange = out2.TimeRange ∧
      out1.Frames.length = out2.Frames.length ∧
      ∀ key, decodedThread out1 key = decodedThread out2 key := by
  refine ⟨?_, fun out1 out2 h1 h2 => ⟨?_, ?_, ?_⟩⟩
  · rw [Run_eq_none_iff, Run_eq_none_iff]
  · exact timeRange_order_independent oc1 oc2 ofr1 ofr2 os1 os2 evs out1 out2 h1 h2
  · exact frames_length_order_independent oc1 oc2 ofr1 ofr2 os1 os2 evs out1 out2 h1 h2
  · intro key
    obtain ⟨stks, hrec⟩ := reconstruct_of_Run oc1 ofr1 os1 evs out1 h1
    by_cases hk : ∃ c, key = threadID c
    · obtain ⟨c, rfl⟩ := hk
      rw [decodedThread_eq oc1 ofr1 os1 evs stks out1 hrec h1 c,
        decodedThread_eq oc2 ofr2 os2 evs stks out2 hrec h2 c]
    · obtain ⟨o1, F1, hrun1, -, -, habs1, -⟩ := Run_spec oc1 ofr1 os1 evs stks hrec
      obtain ⟨o2, F2, hrun2, -, -, habs2, -⟩ := Run_spec oc2 ofr2 os2 evs stks hrec
      rw [h1] at hrun1
      rw [h2] at hrun2
      cases hrun1
      cases hrun2
      unfold decodedThread
      rw [habs1 key fun c _ e => hk ⟨c, e⟩, habs2 key fun c _ e => hk ⟨c, e⟩]
      rfl

/-- C13 at the two-context example, with the context map enumerated in
insertion order and in reverse order: thread `G1` decodes to the same
intervals. -/
theorem determinism_up_to_indices_witness :
    decodedThread
        ⟨[("G1", [⟨0, 1000, "a", []⟩, ⟨1000, 0, "a", [0]⟩]),
          ("G2", [⟨0, 1000, "b", []⟩, ⟨1000, 0, "b", [1]⟩])],
          ⟨0, 1000⟩, [[0, 0, 0, 1, 0], [0, 0, 0, 2, 0]], ["", "x", "y"], "1.2"⟩ "G1" =
      decodedThread
        ⟨[("G2", [⟨0, 1000, "b", []⟩, ⟨1000, 0, "b", [0]⟩]),
          ("G1", [⟨0, 1000, "a", []⟩, ⟨1000, 0, "a", [1]⟩])],
          ⟨0, 1000⟩, [[0, 0, 0, 1, 0], [0, 0, 0, 2, 0]], ["", "y", "x"], "1.2"⟩ "G1" :=
  ((determinism_up_to_indices (MapOrder.insertion _ _) (MapOrder.reversed _ _)
    (MapOrder.insertion _ _) (MapOrder.insertion _ _) (MapOrder.insertion _ _)
    (MapOrder.insertion _ _) twoContextExample).2 _ _ (by decide!) (by decide!)).2.2 "G1"

/-- C13 as stated fails: with the context map enumerated in insertion order
the inner frame of thread `G1` gets index 0 and the strings are `"", x, y`; with
the reverse enumeration it gets index 1 and the strings are `"", y, x`. -/
theorem determinism_counterexample :
    ∃ out1 out2,
      Run (MapOrder.insertion _ _) (MapOrder.insertion _ _) (MapOrder.insertion _ _)
        twoContextExample = some out1 ∧
      Run (MapOrder.reversed _ _) (MapOrder.insertion _ _) (MapOrder.insertion _ _)
        twoContextExample = some out2 ∧
      out1.thread "G1" = [⟨0, 1000, "a", []⟩, ⟨1000, 0, "a", [0]⟩] ∧
      out2.thread "G1" = [⟨0, 1000, "a", []⟩, ⟨1000, 0, "a", [1]⟩] ∧
      out1.Strings = ["", "x", "y"] ∧ out2.Strings = ["", "y", "x"] :=
  ⟨⟨[("G1", [⟨0, 1000, "a", []⟩, ⟨1000, 0, "a", [0]⟩]),
      ("G2", [⟨0, 1000, "b", []⟩, ⟨1000, 0, "b", [1]⟩])],
      ⟨0, 1000⟩, [[0, 0, 0, 1, 0], [0, 0, 0, 2, 0]], ["", "x", "y"], "1.2"⟩,
   ⟨[("G2", [⟨0, 1000, "b", []⟩, ⟨1000, 0, "b", [0]⟩]),
      ("G1", [⟨0, 1000, "a", []⟩, ⟨1000, 0, "a", [1]⟩])],
      ⟨0, 1000⟩, [[0, 0, 0, 1, 0], [0, 0, 0, 2, 0]], ["", "y", "x"], "1.2"⟩,
   by decide!, by decide!, by decide!, by decide!, rfl, rfl⟩

/-! ## Deduplication of frames -/

theorem mem_snapshotsOf_iff (stks : Stacks) (hnd : (GoMap.keys stks).Nodup) (c : Int)
    (se : StackEvent) :
    se ∈ snapshotsOf stks c ↔ ∃ events, (c, events) ∈ stks ∧ se ∈ events := by
  constructor
  · intro h
    unfold snapshotsOf at h
    cases hg : GoMap.get? stks c with
    | none =>
      rw [hg] at h
      cases h
    | some events =>
      rw [hg] at h
      exact ⟨events, GoMap.mem_of_get?_eq_some stks c events hg, h⟩
  · rintro ⟨events, hmem, hse⟩
    rw [snapshotsOf_of_mem stks hnd c events hmem]
    exact hse

theorem indexOf_eq_of_getElem? {α : Type} [DecidableEq α] {l : List α} (hnd : l.Nodup)
    {j : Nat} {a : α} (h : l[j]? = some a) : l.indexOf a = j := by
  obtain ⟨hj, rfl⟩ := List.getElem?_eq_some.1 h
  exact List.indexOf_getElem hnd j hj

/-- A frame index decodes to the label `l` exactly when the frame table holds
the method frame of `l` at that index, and the frame table holds exactly the
method frames of the inner labels of the snapshots. -/
theorem decodeFrame_iff (oc : MapOrder Int (List StackEvent)) (ofr : MapOrder Frame Nat)
    (os : MapOrder String Nat) (evs : List TraceEvent) (stks : Stacks) (out : Iteration2Format)
    (hrec : reconstruct evs = some stks) (hrun : Run oc ofr os evs = some out) :
    ∃ F : List Frame, F.Nodup ∧
      (∀ j l, decodeFrame out j = some l ↔ F[j]? = some (methodFrame l)) ∧
      (∀ l, methodFrame l ∈ F ↔ ∃ c se, se ∈ snapshotsOf stks c ∧ l ∈ innerLabels se) ∧
      ∀ c, out.thread (threadID c) = intervalsOf F (snapshotsOf stks c) := by
  have hnd := reconstruct_nodup evs stks hrec
  obtain ⟨rows, st, -, -, hrun2, hT, -, hlen, hrows, hctx, habs, hsub⟩ :=
    Run_explicit oc ofr os evs stks hrec
  rw [hrun] at hrun2
  have hout := Option.some.inj hrun2
  have hFr : rows = out.Frames := by rw [hout]
  have hSt : GoMap.keys st.strings = out.Strings := by rw [hout]
  have hTh : ∀ key, (buildIntervals oc stks).1.thread key = out.thread key := by
    intro key
    rw [hout]
    rfl
  rw [hFr] at hlen hrows
  rw [hSt] at hrows
  refine ⟨GoMap.keys (buildIntervals oc stks).2.frames, hT.2, ?_, ?_, ?_⟩
  · intro j l
    constructor
    · intro hd
      have hj : j < out.Frames.length := by
        by_contra hc
        unfold decodeFrame at hd
        have : out.Frames[j]? = none := List.getElem?_eq_none (Nat.le_of_not_lt hc)
        simp [this] at hd
      rw [hlen] at hj
      have hF := List.getElem?_eq_getElem hj
      obtain ⟨row, hrow, hdec⟩ := hrows j _ hF
      have hd2 := decodeFrame_of_rowDecodes out j row _ hrow hdec
      rw [hd] at hd2
      obtain ⟨c, events, se, m, -, -, -, hfm⟩ := hsub _ (List.getElem_mem hj)
      rw [hfm] at hd2
      simp only [methodFrame, Option.some.injEq] at hd2
      rw [hF, hfm, hd2]
    · intro hF
      obtain ⟨row, hrow, hdec⟩ := hrows j _ hF
      exact decodeFrame_of_rowDecodes out j row _ hrow hdec
  · intro l
    constructor
    · intro hl
      obtain ⟨c, events, se, m, hmem, hse, hm, hfm⟩ := hsub _ hl
      have hlm : l = m := by
        have := congrArg Frame.Method hfm
        simpa [methodFrame] using this
      exact ⟨c, se, (mem_snapshotsOf_iff stks hnd c se).2 ⟨events, hmem, hse⟩, hlm ▸ hm⟩
    · rintro ⟨c, se, hse, hl⟩
      obtain ⟨events, hmem, hse2⟩ := (mem_snapshotsOf_iff stks hnd c se).1 hse
      exact (hctx c events hmem).2 se hse2 l hl
  · intro c
    by_cases hc : c ∈ GoMap.keys stks
    · obtain ⟨events, hev⟩ := GoMap.get?_eq_some_of_mem stks c hc
      have hmem := GoMap.mem_of_get?_eq_some stks c events hev
      rw [snapshotsOf_of_mem stks hnd c events hmem, ← hTh]
      exact (hctx c events hmem).1
    · have hnone : snapshotsOf stks c = [] := by
        unfold snapshotsOf
        rw [(GoMap.get?_eq_none_iff stks c).2 hc]
        rfl
      rw [hnone, ← hTh]
      exact habs (threadID c) fun c' hc' e => hc (by rw [threadID_injective _ _ e]; exact hc')

/-- C12 (amended): when the transformation completes, a label that stands
beneath the outermost frame of some snapshot has exactly one frames row (one
frame index that decodes to it), and in every thread every interval holds that
same index at each stack position where its snapshot has the label; a label
that stands beneath the outermost frame of no snapshot has no frames row, and
no stack index of any interval of any thread decodes to it. -/
theorem dedup (oc : MapOrder Int (List StackEvent)) (ofr : MapOrder Frame Nat)
    (os : MapOrder String Nat) (evs : List TraceEvent) (out : Iteration2Format)
    (h : Run oc ofr os evs = some out) :
    ∃ stks, reconstruct evs = some stks ∧ ∀ l : String,
      ((∃ c se, se ∈ snapshotsOf stks c ∧ l ∈ innerLabels se) →
        ∃ idx : Nat, decodeFrame out idx = some l ∧
          (∀ j, decodeFrame out j = some l → j = idx) ∧
          ∀ c : Int, List.Forall₂
            (fun se iv => ∀ k : Nat, (innerLabels se)[k]? = some l → iv.Stack[k]? = some idx)
            ((snapshotsOf stks c).filter fun se => decide (se.Stack.getD [] ≠ []))
            (out.thread ("G" ++ toString c))) ∧
      ((¬ ∃ c se, se ∈ snapshotsOf stks c ∧ l ∈ innerLabels se) →
        (∀ j, decodeFrame out j ≠ some l) ∧
        ∀ key, ∀ iv ∈ out.thread key, ∀ idx ∈ iv.Stack, decodeFrame out idx ≠ some l) := by
  obtain ⟨stks, hrec⟩ := reconstruct_of_Run oc ofr os evs out h
  obtain ⟨F, hF, hdec, hmemF, hth⟩ := decodeFrame_iff oc ofr os evs stks out hrec h
  have hnone : ∀ l : String, (¬ ∃ c se, se ∈ snapshotsOf stks c ∧ l ∈ innerLabels se) →
      ∀ j, decodeFrame out j ≠ some l := fun l hl j hj =>
    hl ((hmemF l).1 (List.mem_iff_getElem?.2 ⟨j, (hdec j l).1 hj⟩))
  refine ⟨stks, hrec, fun l => ⟨fun hl => ?_, fun hl =>
    ⟨hnone l hl, fun _ _ _ idx _ => hnone l hl idx⟩⟩⟩
  have hin : methodFrame l ∈ F := (hmemF l).2 hl
  refine ⟨F.indexOf (methodFrame l), (hdec _ l).2 (List.getElem?_indexOf hin), ?_, ?_⟩
  · intro j hj
    exact (indexOf_eq_of_getElem? hF ((hdec j l).1 hj)).symm
  · intro c
    have e := hth c
    unfold threadID at e
    rw [e]
    have key := forall2_filterMap_mkInterval F (snapshotsOf stks c)
      (fun se iv => ∀ k : Nat, (innerLabels se)[k]? = some l →
        iv.Stack[k]? = some (F.indexOf (methodFrame l)))
      (snapshotsOf stks c).enum ?_
    · rw [List.enum_map_snd] at key
      exact key
    · intro p _ iv hiv
      cases he : emits p.2 with
      | false =>
        rw [mkInterval_of_not_emits F _ p he] at hiv
        cases hiv
      | true =>
        obtain ⟨label, rest, hs, hmk⟩ := mkInterval_of_emits F (snapshotsOf stks c) p he
        rw [hmk] at hiv
        cases hiv
        intro k hk
        unfold innerLabels at hk
        rw [hs] at hk
        simp only [List.tail_cons] at hk
        simp [hk]

/-- C12 on a context that runs `f` twice inside `m`: `f` has the one frames row
0, and both intervals over `f` hold index 0; `m` is only ever outermost, so it
has no frames row and no stack index decodes to it. -/
theorem dedup_witness :
    ∃ stks, reconstruct innerRepeatExample = some stks ∧ ∀ l : String,
      ((∃ c se, se ∈ snapshotsOf stks c ∧ l ∈ innerLabels se) →
        ∃ idx : Nat,
          decodeFrame ⟨[("G1", [⟨0, 1000, "m", []⟩, ⟨1000, 2000, "m", [0]⟩,
              ⟨2000, 3000, "m", []⟩, ⟨3000, 4000, "m", [0]⟩, ⟨4000, 5000, "m", []⟩])],
            ⟨0, 5000⟩, [[0, 0, 0, 1, 0]], ["", "f"], "1.2"⟩ idx = some l ∧
          (∀ j, decodeFrame ⟨[("G1", [⟨0, 1000, "m", []⟩, ⟨1000, 2000, "m", [0]⟩,
              ⟨2000, 3000, "m", []⟩, ⟨3000, 4000, "m", [0]⟩, ⟨4000, 5000, "m", []⟩])],
            ⟨0, 5000⟩, [[0, 0, 0, 1, 0]], ["", "f"], "1.2"⟩ j = some l → j = idx) ∧
          ∀ c : Int, List.Forall₂
            (fun se iv => ∀ k : Nat, (innerLabels se)[k]? = some l → iv.Stack[k]? = some idx)
            ((snapshotsOf stks c).filter fun se => decide (se.Stack.getD [] ≠ []))
            ((⟨[("G1", [⟨0, 1000, "m", []⟩, ⟨1000, 2000, "m", [0]⟩,
              ⟨2000, 3000, "m", []⟩, ⟨3000, 4000, "m", [0]⟩, ⟨4000, 5000, "m", []⟩])],
            ⟨0, 5000⟩, [[0, 0, 0, 1, 0]], ["", "f"], "1.2"⟩ : Iteration2Format).thread
              ("G" ++ toString c))) ∧
      ((¬ ∃ c se, se ∈ snapshotsOf stks c ∧ l ∈ innerLabels se) →
        (∀ j, decodeFrame ⟨[("G1", [⟨0, 1000, "m", []⟩, ⟨1000, 2000, "m", [0]⟩,
              ⟨2000, 3000, "m", []⟩, ⟨3000, 4000, "m", [0]⟩, ⟨4000, 5000, "m", []⟩])],
            ⟨0, 5000⟩, [[0, 0, 0, 1, 0]], ["", "f"], "1.2"⟩ j ≠ some l) ∧
        ∀ key, ∀ iv ∈ (⟨[("G1", [⟨0, 1000, "m", []⟩, ⟨1000, 2000, "m", [0]⟩,
              ⟨2000, 3000, "m", []⟩, ⟨3000, 4000, "m", [0]⟩, ⟨4000, 5000, "m", []⟩])],
            ⟨0, 5000⟩, [[0, 0, 0, 1, 0]], ["", "f"], "1.2"⟩ : Iteration2Format).thread key,
          ∀ idx ∈ iv.Stack,
            decodeFrame ⟨[("G1", [⟨0, 1000, "m", []⟩, ⟨1000, 2000, "m", [0]⟩,
              ⟨2000, 3000, "m", []⟩, ⟨3000, 4000, "m", [0]⟩, ⟨4000, 5000, "m", []⟩])],
            ⟨0, 5000⟩, [[0, 0, 0, 1, 0]], ["", "f"], "1.2"⟩ idx ≠ some l) :=
  dedup (MapOrder.insertion _ _) (MapOrder.insertion _ _) (MapOrder.insertion _ _)
    innerRepeatExample
    ⟨[("G1", [⟨0, 1000, "m", []⟩, ⟨1000, 2000, "m", [0]⟩,
        ⟨2000, 3000, "m", []⟩, ⟨3000, 4000, "m", [0]⟩, ⟨4000, 5000, "m", []⟩])],
      ⟨0, 5000⟩, [[0, 0, 0, 1, 0]], ["", "f"], "1.2"⟩ (by decide!)

/-- C12 as stated fails for a label that is only ever the outermost frame: the
two Begin events of `f` at different times give two intervals with an empty
frame stack and no frames row at all. -/
theorem dedup_counterexample :
    ∃ out, Run (MapOrder.insertion _ _) (MapOrder.insertion _ _) (MapOrder.insertion _ _)
        repeatExample = some out ∧
      out.thread "G1" = [⟨0, 5000, "f", []⟩, ⟨10000, 15000, "f", []⟩] ∧
      out.Frames = [] :=
  ⟨⟨[("G1", [⟨0, 5000, "f", []⟩, ⟨10000, 15000, "f", []⟩])], ⟨0, 15000⟩, [], [], "1.2"⟩,
   by decide!, by decide!, rfl⟩

/-! ## Well-formedness of the document -/

theorem GoMap.IsTable.snd_eq_range {κ : Type} [DecidableEq κ] {m : GoMap κ Nat}
    (hm : IsTable m) : m.map Prod.snd = List.range (GoMap.keys m).length := by
  conv_lhs => rw [hm.1]
  rw [GoMap.snd_indexedFrom, List.range_eq_range']

theorem lt_length_of_getElem? {α : Type} {l : List α} {i : Nat} {a : α}
    (h : l[i]? = some a) : i < l.length :=
  (List.getElem?_eq_some.1 h).1

/-- C19: when the transformation completes, every index in every interval's
stack is smaller than the number of frames rows, every frames row has exactly
five entries of which the first four are smaller than the number of strings,
and the exported lists are the exports of the final frame table and string
table, whose stored indices are exactly `0, 1, ..., n-1` with `n` the length
of the exported list, so every position of both lists is written. -/
theorem output_well_formed (oc : MapOrder Int (List StackEvent)) (ofr : MapOrder Frame Nat)
    (os : MapOrder String Nat) (evs : List TraceEvent) (out : Iteration2Format)
    (h : Run oc ofr os evs = some out) :
    (∀ key, ∀ iv ∈ out.thread key, ∀ idx ∈ iv.Stack, idx < out.Frames.length) ∧
    (∀ row ∈ out.Frames, ∃ (a b c m : Nat) (line : Int),
      row = [(a : Int), (b : Int), (c : Int), (m : Int), line] ∧
      a < out.Strings.length ∧ b < out.Strings.length ∧
      c < out.Strings.length ∧ m < out.Strings.length) ∧
    ∃ stks st, reconstruct evs = some stks ∧
      (buildIntervals oc stks).2.Frames ofr NewStringTable = some (out.Frames, st) ∧
      st.Strings os = some out.Strings ∧
      (buildIntervals oc stks).2.frames.map Prod.snd = List.range out.Frames.length ∧
      st.strings.map Prod.snd = List.range out.Strings.length := by
  obtain ⟨stks, hrec⟩ := reconstruct_of_Run oc ofr os evs out h
  have hnd := reconstruct_nodup evs stks hrec
  obtain ⟨rows, st, hfr, hstr, hrun2, hT, hTs, hlen, hrows, hctx, habs, -⟩ :=
    Run_explicit oc ofr os evs stks hrec
  rw [h] at hrun2
  have hout := Option.some.inj hrun2
  have hFr : rows = out.Frames := by rw [hout]
  have hSt : GoMap.keys st.strings = out.Strings := by rw [hout]
  have hTh : ∀ key, (buildIntervals oc stks).1.thread key = out.thread key := by
    intro key
    rw [hout]
    rfl
  rw [hFr] at hlen hrows hfr
  rw [hSt] at hrows hstr
  refine ⟨?_, ?_, stks, st, hrec, hfr, hstr, ?_, ?_⟩
  · intro key iv hiv idx hidx
    by_cases hk : ∃ c ∈ GoMap.keys stks, key = threadID c
    · obtain ⟨c, hc, rfl⟩ := hk
      obtain ⟨events, hev⟩ := GoMap.get?_eq_some_of_mem stks c hc
      have hmem := GoMap.mem_of_get?_eq_some stks c events hev
      obtain ⟨hth, hin⟩ := hctx c events hmem
      rw [← hTh, hth] at hiv
      unfold intervalsOf at hiv
      obtain ⟨p, hp, hmk⟩ := List.mem_filterMap.1 hiv
      cases he : emits p.2 with
      | false =>
        rw [mkInterval_of_not_emits _ _ p he] at hmk
        cases hmk
      | true =>
        obtain ⟨label, rest, hs, hmk2⟩ := mkInterval_of_emits
          (GoMap.keys (buildIntervals oc stks).2.frames) events p he
        rw [hmk2] at hmk
        cases hmk
        obtain ⟨m, hm, rfl⟩ := List.mem_map.1 hidx
        rw [hlen]
        apply List.indexOf_lt_length.2
        apply hin p.2 (List.snd_mem_of_mem_enum hp) m
        unfold innerLabels
        rw [hs]
        exact hm
    · rw [← hTh, habs key fun c hc e => hk ⟨c, hc, e⟩] at hiv
      cases hiv
  · intro row hrow
    obtain ⟨i, hi⟩ := List.mem_iff_getElem?.1 hrow
    have hlt := lt_length_of_getElem? hi
    rw [hlen] at hlt
    obtain ⟨row2, hrow2, a, b, c, m, hr, ha, hb, hc, hm⟩ :=
      hrows i _ (List.getElem?_eq_getElem hlt)
    rw [hi] at hrow2
    cases hrow2
    exact ⟨a, b, c, m, _, hr, lt_length_of_getElem? ha, lt_length_of_getElem? hb,
      lt_length_of_getElem? hc, lt_length_of_getElem? hm⟩
  · rw [hT.snd_eq_range, hlen]
  · rw [hTs.snd_eq_range, hSt]

/-- C19 on the two-context example with the frame map enumerated in reverse:
the first frames row has five entries, the first four below the number of
strings. -/
theorem output_well_formed_witness :
    ∃ (a b c m : Nat) (line : Int),
      [(0 : Int), 0, 0, 2, 0] = [(a : Int), (b : Int), (c : Int), (m : Int), line] ∧
      a < ["", "y", "x"].length ∧ b < ["", "y", "x"].length ∧
      c < ["", "y", "x"].length ∧ m < ["", "y", "x"].length :=
  (output_well_formed (MapOrder.insertion _ _) (MapOrder.reversed _ _)
    (MapOrder.insertion _ _) twoContextExample
    ⟨[("G1", [⟨0, 1000, "a", []⟩, ⟨1000, 0, "a", [0]⟩]),
      ("G2", [⟨0, 1000, "b", []⟩, ⟨1000, 0, "b", [1]⟩])],
      ⟨0, 1000⟩, [[0, 0, 0, 2, 0], [0, 0, 0, 1, 0]], ["", "y", "x"], "1.2"⟩
    (by decide!)).2.1 [0, 0, 0, 2, 0] (List.mem_cons_self _ _)

/-! ## Fractional timestamps -/

theorem reconstruct_of_append (pre post : List TraceEvent) (stks : Stacks)
    (h : reconstruct (pre ++ post) = some stks) : ∃ stks1, reconstruct pre = some stks1 := by
  unfold reconstruct at h ⊢
  rw [List.foldlM_append] at h
  cases hp : List.foldlM applyEvent [] pre with
  | none =>
    rw [hp] at h
    cases h
  | some stks1 => exact ⟨stks1, rfl⟩

theorem contextEvents_append (c : Int) (pre post : List TraceEvent) :
    contextEvents c (pre ++ post) = contextEvents c pre ++ contextEvents c post := by
  unfold contextEvents
  exact List.filter_append _ _

/-- Two consecutive Begin/End events of one context with the same scaled time
are applied to the same snapshot, whatever events without a Begin/End of that
context arrive between them: the second event adds no snapshot, and the shared
snapshot holds the push/pop fold of all the context's events. -/
theorem same_time_same_snapshot (evs mid : List TraceEvent) (te te2 : TraceEvent)
    (stks : Stacks)
    (hBE : te.Ph = "B" ∨ te.Ph = "E") (hBE2 : te2.Ph = "B" ∨ te2.Ph = "E")
    (hpid : te2.Pid = te.Pid) (htime : timeNS te2 = timeNS te)
    (hmid : contextEvents te.Pid mid = [])
    (hrec : reconstruct (evs ++ [te] ++ mid ++ [te2]) = some stks) :
    ∃ stks1, reconstruct (evs ++ [te]) = some stks1 ∧
      (snapshotsOf stks te.Pid).length = (snapshotsOf stks1 te.Pid).length ∧
      ∃ se, (snapshotsOf stks te.Pid).getLast? = some se ∧ se.TimeNS = timeNS te ∧
        se.Stack = some (refStack (contextEvents te.Pid (evs ++ [te] ++ mid ++ [te2]))) := by
  have hassoc : evs ++ [te] ++ mid ++ [te2] = (evs ++ [te]) ++ (mid ++ [te2]) := by
    simp only [List.append_assoc]
  obtain ⟨stks1, hr1⟩ := reconstruct_of_append (evs ++ [te]) (mid ++ [te2]) stks
    (by rw [← hassoc]; exact hrec)
  refine ⟨stks1, hr1, ?_⟩
  have hc1 := reconstruct_context _ stks1 hr1 te.Pid
  have hc2 := reconstruct_context _ stks hrec te.Pid
  obtain ⟨-, -, -, hl2⟩ := contextSnapshots_spec _ _ hc2
  have hces : contextEvents te.Pid (evs ++ [te] ++ mid ++ [te2]) =
      contextEvents te.Pid (evs ++ [te]) ++ [te2] := by
    rw [contextEvents_concat, if_pos ⟨hBE2, hpid⟩, contextEvents_append _ (evs ++ [te]) mid,
      hmid, List.append_nil]
  have hlast2 : (contextEvents te.Pid (evs ++ [te] ++ mid ++ [te2])).getLast? = some te2 := by
    rw [hces, List.getLast?_concat]
  have hse := hl2 te2 hlast2
  rw [hces, contextSnapshots_concat, hc1, Option.some_bind] at hc2
  obtain ⟨hall, -, -, hl⟩ := contextSnapshots_spec _ _ hc1
  have hlast : (contextEvents te.Pid (evs ++ [te])).getLast? = some te := by
    rw [contextEvents_concat, if_pos ⟨hBE, rfl⟩, List.getLast?_concat]
  have hl1 := hl te hlast
  rw [stepContext_eq _ te2 hall] at hc2
  obtain ⟨s, -, hs⟩ := Option.map_eq_some'.1 hc2
  have hseal : sealedPart (snapshotsOf stks1 te.Pid) (timeNS te2) =
      (snapshotsOf stks1 te.Pid).dropLast := by
    unfold sealedPart
    rw [hl1, htime]
    simp
  rw [hseal] at hs
  have hne : snapshotsOf stks1 te.Pid ≠ [] := by
    intro hnil
    rw [hnil] at hl1
    cases hl1
  have hpos := List.length_pos.2 hne
  refine ⟨?_, _, hse, htime, rfl⟩
  rw [← hs]
  simp only [List.length_append, List.length_dropLast, List.length_singleton]
  omega

/-- C17 (amended): for a Begin/End event whose scaled timestamp fits in
`int64`, `timeNanos` is the timestamp truncated toward zero to whole
microseconds, times 1000 (for a non-negative timestamp: its floor times 1000),
so the fractional part of the timestamp is dropped; the next Begin/End event of
the same context, when its timestamp has the same whole-microsecond part, is
applied to the same snapshot, whatever events of other contexts or of other
phases arrive between the two, and that snapshot holds the push/pop fold of all
the context's events. -/
theorem truncate_then_scale (te : TraceEvent) (hr : InRange te) :
    timeNS te = Int.tdiv te.Ts.num te.Ts.den * 1000 ∧
    (0 ≤ te.Ts → timeNS te = ⌊te.Ts⌋ * 1000) ∧
    ∀ (evs mid : List TraceEvent) (te2 : TraceEvent) (stks : Stacks),
      InRange te2 → Int.tdiv te2.Ts.num te2.Ts.den = Int.tdiv te.Ts.num te.Ts.den →
      (te.Ph = "B" ∨ te.Ph = "E") → (te2.Ph = "B" ∨ te2.Ph = "E") → te2.Pid = te.Pid →
      contextEvents te.Pid mid = [] →
      reconstruct (evs ++ [te] ++ mid ++ [te2]) = some stks →
      ∃ stks1, reconstruct (evs ++ [te]) = some stks1 ∧
        (snapshotsOf stks te.Pid).length = (snapshotsOf stks1 te.Pid).length ∧
        ∃ se, (snapshotsOf stks te.Pid).getLast? = some se ∧ se.TimeNS = timeNS te ∧
          se.Stack = some (refStack (contextEvents te.Pid (evs ++ [te] ++ mid ++ [te2]))) := by
  refine ⟨timeNS_of_inRange te hr, fun h0 => ?_, ?_⟩
  · rw [timeNS_of_inRange te hr, tdiv_eq_floor te.Ts h0]
  · intro evs mid te2 stks hr2 htr hBE hBE2 hpid hmid hrec
    have htime : timeNS te2 = timeNS te := by
      rw [timeNS_of_inRange te hr, timeNS_of_inRange te2 hr2, htr]
    exact same_time_same_snapshot evs mid te te2 stks hBE hBE2 hpid htime hmid hrec

/-- C17 (amended) at the timestamps 10.2 and 10.7 of context 1, with an event
of context 2 at a different time between them: both events have
`timeNanos = 10000` and share the one snapshot of context 1, which holds both
labels. -/
theorem truncate_then_scale_witness :
    timeNS ⟨"f", "B", 2871044762448691 / 281474976710656, 1, 0⟩ = 10 * 1000 ∧
    ∃ stks1, reconstruct ([] ++ [⟨"f", "B", 2871044762448691 / 281474976710656, 1, 0⟩]) =
        some stks1 ∧
      (snapshotsOf [(1, [⟨10000, some ["f", "g"]⟩]), (2, [⟨5000, some ["x"]⟩])] 1).length =
        (snapshotsOf stks1 1).length ∧
      ∃ se, (snapshotsOf [(1, [⟨10000, some ["f", "g"]⟩]), (2, [⟨5000, some ["x"]⟩])]
          1).getLast? = some se ∧
        se.TimeNS = timeNS ⟨"f", "B", 2871044762448691 / 281474976710656, 1, 0⟩ ∧
        se.Stack = some (refStack (contextEvents 1
          ([] ++ [⟨"f", "B", 2871044762448691 / 281474976710656, 1, 0⟩] ++
            [⟨"x", "B", 5, 2, 0⟩] ++
            [⟨"g", "B", 3011782250804019 / 281474976710656, 1, 0⟩]))) :=
  ⟨(truncate_then_scale ⟨"f", "B", 2871044762448691 / 281474976710656, 1, 0⟩
      (by decide!)).1.trans (by decide!),
   (truncate_then_scale ⟨"f", "B", 2871044762448691 / 281474976710656, 1, 0⟩
      (by decide!)).2.2 [] [⟨"x", "B", 5, 2, 0⟩]
      ⟨"g", "B", 3011782250804019 / 281474976710656, 1, 0⟩
      [(1, [⟨10000, some ["f", "g"]⟩]), (2, [⟨5000, some ["x"]⟩])]
      (by decide!) (by decide!) (Or.inl rfl) (Or.inl rfl) rfl (by decide!) (by decide!)⟩

/-- C17 as stated fails: 1.5 microseconds scales to 1000 nanoseconds, not to
1500 (the truncation of 1.5 * 1000), and the two events at 10.2 and 10.7
microseconds get one and the same snapshot. -/
theorem truncate_then_scale_counterexample :
    timeNS ⟨"f", "B", 3 / 2, 1, 0⟩ = 1000 ∧
    Int.tdiv ((3 / 2 : ℚ) * 1000).num ((3 / 2 : ℚ) * 1000).den = 1500 ∧
    reconstruct fractionalExample = some [(1, [⟨10000, some ["f", "g"]⟩])] :=
  ⟨by decide!, by decide!, by decide!⟩

/-! ## Well-formed intervals -/

theorem time_le_of_pairwise (snaps : List StackEvent)
    (hp : snaps.Pairwise fun a b => a.TimeNS < b.TimeNS) (i j : Nat) (se nx : StackEvent)
    (hi : snaps[i]? = some se) (hj : snaps[j]? = some nx) (hij : i ≤ j) :
    se.TimeNS ≤ nx.TimeNS := by
  obtain ⟨hi1, rfl⟩ := List.getElem?_eq_some.1 hi
  obtain ⟨hj1, rfl⟩ := List.getElem?_eq_some.1 hj
  rcases Nat.lt_or_eq_of_le hij with h | h
  · exact le_of_lt ((List.pairwise_iff_getElem.1 hp) i j hi1 hj1 h)
  · subst h
    exact le_refl _

/-- An emitting snapshot of a list whose last snapshot has an empty stack is
followed by another snapshot. -/
theorem next_of_emits (snaps : List StackEvent) (hlast : lastStack snaps = [])
    (i : Nat) (se : StackEvent) (hi : snaps[i]? = some se) (he : emits se = true) :
    ∃ nx, snaps[i + 1]? = some nx := by
  have hlt := lt_length_of_getElem? hi
  by_cases hn : i + 1 < snaps.length
  · exact ⟨snaps[i + 1], List.getElem?_eq_getElem hn⟩
  · exfalso
    have hidx : snaps.length - 1 = i := by omega
    unfold lastStack at hlast
    rw [List.getLast?_eq_getElem?, hidx, hi] at hlast
    unfold emits at he
    simp only [ne_eq, decide_not, Bool.not_eq_true', decide_eq_false_iff_not] at he
    exact he hlast

/-- C20 (amended): for a context whose Begin/End events arrive in
non-decreasing timestamp order, whose scaled timestamps fit in `int64`, and
whose stack is empty after its last event, in a run that completes: the
snapshot times increase strictly, every interval of the thread is bounded by
the following snapshot with `startNs < endNs`, and every interval ends no later
than any later interval of the thread starts. -/
theorem interval_well_formed (oc : MapOrder Int (List StackEvent)) (ofr : MapOrder Frame Nat)
    (os : MapOrder String Nat) (evs : List TraceEvent) (c : Int) (out : Iteration2Format)
    (h : Run oc ofr os evs = some out)
    (hsorted : ((contextEvents c evs).map fun te => te.Ts).Pairwise fun a b => a ≤ b)
    (hrange : ∀ te ∈ contextEvents c evs, InRange te)
    (hbal : refStack (contextEvents c evs) = []) :
    ∃ stks, reconstruct evs = some stks ∧
      ((snapshotsOf stks c).Pairwise fun a b => a.TimeNS < b.TimeNS) ∧
      (∀ iv ∈ out.thread ("G" ++ toString c), iv.StartNS < iv.EndNS ∧
        ∃ (i : Nat) (se nx : StackEvent), (snapshotsOf stks c)[i]? = some se ∧
          (snapshotsOf stks c)[i + 1]? = some nx ∧
          iv.StartNS = se.TimeNS ∧ iv.EndNS = nx.TimeNS) ∧
      (out.thread ("G" ++ toString c)).Pairwise fun a b => a.EndNS ≤ b.StartNS := by
  obtain ⟨stks, hrec⟩ := reconstruct_of_Run oc ofr os evs out h
  obtain ⟨out2, F, hrun, -, hctx, -⟩ := thread_of_context oc ofr os evs stks hrec
  rw [h] at hrun
  cases hrun
  have hs : ((contextEvents c evs).map timeNS).Pairwise fun a b => a ≤ b := by
    rw [List.pairwise_map] at hsorted ⊢
    exact hsorted.imp_of_mem fun {a b} ha hb hab =>
      timeNS_mono a b (hrange a ha) (hrange b hb) hab
  have hcs := reconstruct_context evs stks hrec c
  obtain ⟨hp, -, -, -⟩ := contextSnapshots_sorted _ hs _ hcs
  obtain ⟨-, hlast, -, -⟩ := contextSnapshots_spec _ _ hcs
  rw [hbal] at hlast
  have hth := (hctx c).1
  unfold threadID at hth
  refine ⟨stks, hrec, hp, ?_, ?_⟩
  · intro iv hiv
    rw [hth] at hiv
    unfold intervalsOf at hiv
    obtain ⟨p, hpm, hmk⟩ := List.mem_filterMap.1 hiv
    have hpi : (snapshotsOf stks c)[p.1]? = some p.2 := List.mk_mem_enum_iff_getElem?.1 hpm
    cases he : emits p.2 with
    | false =>
      rw [mkInterval_of_not_emits _ _ p he] at hmk
      cases hmk
    | true =>
      obtain ⟨label, rest, -, hmk2⟩ := mkInterval_of_emits F (snapshotsOf stks c) p he
      rw [hmk2] at hmk
      cases hmk
      obtain ⟨nx, hnx⟩ := next_of_emits _ hlast p.1 p.2 hpi he
      have hend : endOf (snapshotsOf stks c) p.1 = nx.TimeNS := by
        unfold endOf
        rw [hnx]
      obtain ⟨hi1, hi2⟩ := List.getElem?_eq_some.1 hpi
      obtain ⟨hj1, hj2⟩ := List.getElem?_eq_some.1 hnx
      have hlt := (List.pairwise_iff_getElem.1 hp) p.1 (p.1 + 1) hi1 hj1 (Nat.lt_succ_self _)
      rw [hi2, hj2] at hlt
      refine ⟨?_, p.1, p.2, nx, hpi, hnx, rfl, hend⟩
      show p.2.TimeNS < endOf (snapshotsOf stks c) p.1
      rw [hend]
      exact hlt
  · rw [hth]
    unfold intervalsOf
    rw [List.pairwise_filterMap, List.pairwise_iff_getElem]
    intro i j hi hj hij iv hiv iv2 hiv2
    rw [List.getElem_enum] at hiv hiv2
    have hi1 : i < (snapshotsOf stks c).length := by simpa using hi
    have hj1 : j < (snapshotsOf stks c).length := by simpa using hj
    have hpi : (snapshotsOf stks c)[i]? = some (snapshotsOf stks c)[i] :=
      List.getElem?_eq_getElem hi1
    have hpj : (snapshotsOf stks c)[j]? = some (snapshotsOf stks c)[j] :=
      List.getElem?_eq_getElem hj1
    have hn : i + 1 < (snapshotsOf stks c).length := by omega
    have hnx : (snapshotsOf stks c)[i + 1]? = some (snapshotsOf stks c)[i + 1] :=
      List.getElem?_eq_getElem hn
    have hle := time_le_of_pairwise _ hp (i + 1) j _ _ hnx hpj (by omega)
    cases he : emits (snapshotsOf stks c)[i] with
    | false =>
      rw [mkInterval_of_not_emits F _ (i, (snapshotsOf stks c)[i]) he] at hiv
      cases hiv
    | true =>
      obtain ⟨label, rest, -, hmk⟩ :=
        mkInterval_of_emits F (snapshotsOf stks c) (i, (snapshotsOf stks c)[i]) he
      rw [hmk] at hiv
      cases hiv
      cases he2 : emits (snapshotsOf stks c)[j] with
      | false =>
        rw [mkInterval_of_not_emits F _ (j, (snapshotsOf stks c)[j]) he2] at hiv2
        cases hiv2
      | true =>
        obtain ⟨label2, rest2, -, hmk2⟩ :=
          mkInterval_of_emits F (snapshotsOf stks c) (j, (snapshotsOf stks c)[j]) he2
        rw [hmk2] at hiv2
        cases hiv2
        show endOf (snapshotsOf stks c) i ≤ (snapshotsOf stks c)[j].TimeNS
        unfold endOf
        rw [hnx]
        exact hle

/-- C20 (amended) on the end-to-end example. -/
theorem interval_well_formed_witness :
    ∃ stks, reconstruct nestedExample = some stks ∧
      ((snapshotsOf stks 1).Pairwise fun a b => a.TimeNS < b.TimeNS) ∧
      (∀ iv ∈ (⟨[("G1", [⟨0, 5000, "f", []⟩, ⟨5000, 10000, "f", [0]⟩,
            ⟨10000, 12000, "f", []⟩])], ⟨0, 12000⟩, [[0, 0, 0, 1, 0]], ["", "g"], "1.2"⟩ :
          Iteration2Format).thread ("G" ++ toString (1 : Int)),
        iv.StartNS < iv.EndNS ∧
        ∃ (i : Nat) (se nx : StackEvent), (snapshotsOf stks 1)[i]? = some se ∧
          (snapshotsOf stks 1)[i + 1]? = some nx ∧
          iv.StartNS = se.TimeNS ∧ iv.EndNS = nx.TimeNS) ∧
      ((⟨[("G1", [⟨0, 5000, "f", []⟩, ⟨5000, 10000, "f", [0]⟩,
            ⟨10000, 12000, "f", []⟩])], ⟨0, 12000⟩, [[0, 0, 0, 1, 0]], ["", "g"], "1.2"⟩ :
          Iteration2Format).thread ("G" ++ toString (1 : Int))).Pairwise
        fun a b => a.EndNS ≤ b.StartNS :=
  interval_well_formed (MapOrder.insertion _ _) (MapOrder.insertion _ _)
    (MapOrder.insertion _ _) nestedExample 1
    ⟨[("G1", [⟨0, 5000, "f", []⟩, ⟨5000, 10000, "f", [0]⟩, ⟨10000, 12000, "f", []⟩])],
      ⟨0, 12000⟩, [[0, 0, 0, 1, 0]], ["", "g"], "1.2"⟩
    (by decide!) (by decide!) (by decide!) (by decide!)

/-- C20 as stated fails when the scaled timestamp overflows: the events of
context 1 are balanced and in increasing timestamp order, yet the snapshot
times are 1000, 0 and the one interval has `startNs = 1000 > endNs = 0`. -/
theorem interval_well_formed_counterexample :
    (((contextEvents 1 wrapBalancedExample).map fun te => te.Ts).Pairwise fun a b => a ≤ b) ∧
    refStack (contextEvents 1 wrapBalancedExample) = [] ∧
    reconstruct wrapBalancedExample = some [(1, [⟨1000, some ["f"]⟩, ⟨0, some []⟩])] ∧
    ∃ out, Run (MapOrder.insertion _ _) (MapOrder.insertion _ _) (MapOrder.insertion _ _)
        wrapBalancedExample = some out ∧
      out.thread "G1" = [⟨1000, 0, "f", []⟩] :=
  ⟨by decide!, by decide!, by decide!,
   ⟨[("G1", [⟨1000, 0, "f", []⟩])], ⟨0, 0⟩, [], [], "1.2"⟩, by decide!, by decide!⟩

end ConvertTrace
